import Mathlib

/-!
# Queue engine (`queue.c`): shallow embedding and verification

Pointers are natural numbers, `0` is `NULL`.  The program state is a `Heap`
holding the fields of every `struct list_head` (`next`, `prev`), the `value`
pointer of every element, the byte blocks handed out by `malloc`, the set of
live allocations and the log of `free` calls.  Loops carry a fuel argument and
return `none` when it runs out.  `int` counters and sizes are natural numbers
(lists and strings are assumed shorter than `INT_MAX`); `bufsize - 1` is
`size_t` arithmetic and wraps modulo `2 ^ 64`.
-/

namespace Queue

/-! ## Program state -/

/-- Program memory.  `next a` and `prev a` are the two fields of the
`struct list_head` at address `a`; `value a` is the `value` field of the
element whose embedded link is at `a`; `mem p i` is byte `i` of the block at
`p` and `size p` the size it was allocated with; `live` lists the blocks that
are currently allocated and `freed` logs every call of `free`, newest first. -/
structure Heap where
  next : Nat → Nat
  prev : Nat → Nat
  value : Nat → Nat
  mem : Nat → Nat → Nat
  size : Nat → Nat
  live : List Nat
  freed : List Nat

/-- The assignment `a->next = v`. -/
def setNext (h : Heap) (a v : Nat) : Heap :=
  { h with next := fun x => if x = a then v else h.next x }

/-- The assignment `a->prev = v`. -/
def setPrev (h : Heap) (a v : Nat) : Heap :=
  { h with prev := fun x => if x = a then v else h.prev x }

/-- The assignment `e->value = v`. -/
def setValue (h : Heap) (e v : Nat) : Heap :=
  { h with value := fun x => if x = e then v else h.value x }

/-- The assignment `p[i] = b` on the byte block at `p`. -/
def storeByte (h : Heap) (p i b : Nat) : Heap :=
  { h with mem := fun q j => if q = p ∧ j = i then b else h.mem q j }

/-- Modelled from the spec: `sizeof(element_t)`; `queue.h` is not among the
sources.  An element holds one string pointer and one embedded link. -/
def sizeof_element_t : Nat := 24

/-- Modelled from the spec: `sizeof(struct list_head)`; `list.h` is not among
the sources.  A link holds a forward and a backward pointer. -/
def sizeof_list_head : Nat := 16

/-- The call `malloc(size)`.  The pointer `p` is the allocator's answer: `0`
when the allocation fails, otherwise the address of a block that becomes
live.  The bytes of the new block are left as they are (uninitialised). -/
def malloc (h : Heap) (p size : Nat) : Heap × Nat :=
  if p = 0 then (h, 0)
  else ({ h with live := p :: h.live, size := fun q => if q = p then size else h.size q }, p)

/-- The call `free(p)`: the block leaves the live set and the call is logged. -/
def free (h : Heap) (p : Nat) : Heap :=
  { h with live := h.live.erase p, freed := p :: h.freed }

/-- The call `strlen(s)`, where `s` lists the bytes of the caller's string
before its terminator. -/
def strlen (s : List Nat) : Nat := s.length

/-- The call `memcpy(dst, s, n)` from the caller's string `s` (read as the
bytes of `s` followed by zero bytes) into the block at `dst`. -/
def memcpy (h : Heap) (dst : Nat) (s : List Nat) (n : Nat) : Heap :=
  { h with mem := fun q j => if q = dst ∧ j < n then s.getD j 0 else h.mem q j }

/-- Bytes `0 .. size-1` of the block at `p`. -/
def blockBytes (h : Heap) (p : Nat) : List Nat :=
  (List.range (h.size p)).map (h.mem p)

/-- The C string stored at `p`: the bytes of the block before the first zero. -/
def cstr (h : Heap) (p : Nat) : List Nat :=
  (blockBytes h p).takeWhile (fun b => b != 0)

/-- The call `strcmp(a, b)` on two strings given by their bytes before the
terminator: the difference of the first pair of bytes that differ, the
terminator counting as `0`. -/
def strcmp : List Nat → List Nat → Int
  | [], [] => 0
  | [], b :: _ => 0 - (b : Int)
  | a :: _, [] => (a : Int)
  | a :: as, b :: bs => if a = b then strcmp as bs else (a : Int) - (b : Int)

/-- Modelled from the spec: `container_of` / `list_entry`; `queue.h` and
`list.h` are not among the sources.  The element is recovered from its
embedded link by a fixed offset, so it is identified with the link address. -/
def list_entry (node : Nat) : Nat := node

/-- The string of the element whose link is at `a` (`list_entry(a)->value`). -/
def valueOf (h : Heap) (a : Nat) : List Nat := cstr h (h.value (list_entry a))

/-- The strings of the elements at the links `xs`, in order. -/
def values (h : Heap) (xs : List Nat) : List (List Nat) := xs.map (valueOf h)

/-! ## `list.h` primitives -/

/-- Modelled from the spec: `INIT_LIST_HEAD` of `list.h` (not among the
sources): the sentinel points to itself in both directions. -/
def INIT_LIST_HEAD (h : Heap) (head : Nat) : Heap :=
  setPrev (setNext h head head) head head

/-- Modelled from the spec: `list_empty` of `list.h` (not among the sources):
the list is empty when the sentinel's forward link is the sentinel. -/
def list_empty (h : Heap) (head : Nat) : Bool := h.next head == head

/-- Modelled from the spec: `list_add` of `list.h` (not among the sources):
links `node` immediately after the sentinel. -/
def list_add (h : Heap) (node head : Nat) : Heap :=
  let next := h.next head
  let h1 := setPrev h next node
  let h2 := setNext h1 node next
  let h3 := setPrev h2 node head
  setNext h3 head node

/-- Modelled from the spec: `list_add_tail` of `list.h` (not among the
sources): links `node` immediately before the sentinel. -/
def list_add_tail (h : Heap) (node head : Nat) : Heap :=
  let prev := h.prev head
  let h1 := setNext h prev node
  let h2 := setNext h1 node head
  let h3 := setPrev h2 node prev
  setPrev h3 head node

/-- Modelled from the spec: `list_del` of `list.h` (not among the sources):
unlinks `node`, joining its two former neighbours. -/
def list_del (h : Heap) (node : Nat) : Heap :=
  let next := h.next node
  let prev := h.prev node
  let h1 := setPrev h next prev
  setNext h1 prev next

/-! ## `queue.c` -/

/-- `q_new`: allocate a sentinel and self-link it; `NULL` when `malloc` fails. -/
def q_new (h : Heap) (p : Nat) : Heap × Nat :=
  let r := malloc h p sizeof_list_head
  if r.2 = 0 then (r.1, 0)
  else (INIT_LIST_HEAD r.1 r.2, r.2)

/-- `q_insert_head`.  `e` and `v` are the answers of the two `malloc` calls. -/
def q_insert_head (h : Heap) (head : Nat) (s : List Nat) (e v : Nat) : Heap × Bool :=
  if head = 0 then (h, false)
  else
    let r1 := malloc h e sizeof_element_t
    let new := r1.2
    if new = 0 then (r1.1, false)
    else
      let char_size := strlen s
      let r2 := malloc r1.1 v (char_size + 1)
      let h2 := setValue r2.1 new r2.2
      if h2.value new = 0 then (free h2 new, false)
      else
        let h3 := memcpy h2 (h2.value new) s char_size
        let h4 := storeByte h3 (h3.value new) char_size 0
        (list_add h4 new head, true)

/-- `q_insert_tail`.  `e` and `v` are the answers of the two `malloc` calls. -/
def q_insert_tail (h : Heap) (head : Nat) (s : List Nat) (e v : Nat) : Heap × Bool :=
  if head = 0 then (h, false)
  else
    let r1 := malloc h e sizeof_element_t
    let new := r1.2
    if new = 0 then (r1.1, false)
    else
      let char_size := strlen s
      let r2 := malloc r1.1 v (char_size + 1)
      let h2 := setValue r2.1 new r2.2
      if h2.value new = 0 then (free h2 new, false)
      else
        let h3 := memcpy h2 (h2.value new) s char_size
        let h4 := storeByte h3 (h3.value new) char_size 0
        (list_add_tail h4 new head, true)

/-- The `size_t` expression `bufsize - 1`. -/
def bufsize_minus_one (bufsize : Nat) : Nat := (bufsize + 2 ^ 64 - 1) % 2 ^ 64

/-- The two statements `memcpy(sp, value, bufsize - 1); sp[bufsize - 1] = 0`
acting on the caller's buffer `buf`: the first `bufsize - 1` bytes are read
from the block at `src`, then the terminator is stored. -/
def copy_out (h : Heap) (buf : List Nat) (src bufsize : Nat) : List Nat :=
  (((List.range (bufsize_minus_one bufsize)).map (h.mem src))
    ++ buf.drop (bufsize_minus_one bufsize)).set (bufsize_minus_one bufsize) 0

/-- `q_remove_head`.  `sp` is `none` for a `NULL` buffer, otherwise the
caller's buffer.  Returns the heap, the removed element (`0` for `NULL`) and
the buffer. -/
def q_remove_head (h : Heap) (head : Nat) (sp : Option (List Nat)) (bufsize : Nat) :
    Heap × Nat × Option (List Nat) :=
  if head = 0 ∨ list_empty h head = true then (h, 0, sp)
  else
    let remove_head := list_entry (h.next head)
    if remove_head = 0 then (h, 0, sp)
    else
      let h1 := list_del h remove_head
      (h1, remove_head, sp.map (fun buf => copy_out h1 buf (h1.value remove_head) bufsize))

/-- `q_remove_tail`; as `q_remove_head`, for the last element. -/
def q_remove_tail (h : Heap) (head : Nat) (sp : Option (List Nat)) (bufsize : Nat) :
    Heap × Nat × Option (List Nat) :=
  if head = 0 ∨ list_empty h head = true then (h, 0, sp)
  else
    let remove_tail := list_entry (h.prev head)
    if remove_tail = 0 then (h, 0, sp)
    else
      let h1 := list_del h remove_tail
      (h1, remove_tail, sp.map (fun buf => copy_out h1 buf (h1.value remove_tail) bufsize))

/-- `q_release_element`: free the string, then the element. -/
def q_release_element (h : Heap) (e : Nat) : Heap :=
  free (free h (h.value e)) e

/-- The `do ... while` loop of `q_delete_mid`; returns the final `slow_ptr`. -/
def q_delete_mid_loop (h : Heap) (head : Nat) : Nat → Nat → Nat → Option Nat
  | 0, _, _ => none
  | fuel + 1, slow_ptr, fast_ptr =>
    let slow1 := h.next slow_ptr
    let fast1 := h.next (h.next fast_ptr)
    if h.next fast1 ≠ head ∧ fast1 ≠ head then q_delete_mid_loop h head fuel slow1 fast1
    else some slow1

/-- `q_delete_mid`. -/
def q_delete_mid (fuel : Nat) (h : Heap) (head : Nat) : Option (Heap × Bool) :=
  if head = 0 ∨ list_empty h head = true then some (h, false)
  else
    match q_delete_mid_loop h head fuel head head with
    | none => none
    | some slow_ptr =>
      let mid_node := list_entry slow_ptr
      let h1 := list_del h slow_ptr
      let h2 := free h1 (h1.value mid_node)
      some (free h2 mid_node, true)

/-- The `while` loop of `q_delete_dup`.  The state is the heap and the locals
`cur`, `cur_e` and `flag`. -/
def q_delete_dup_loop (head : Nat) : Nat → Heap → Nat → Nat → Bool → Option (Heap × Nat × Nat × Bool)
  | 0, _, _, _, _ => none
  | fuel + 1, h, cur, cur_e0, flag =>
    if h.next cur ≠ head then
      let cur_e := list_entry cur
      let cur_next_e := list_entry (h.next cur)
      if strcmp (cstr h (h.value cur_e)) (cstr h (h.value cur_next_e)) = 0 then
        let cur_next_next := h.next (h.next cur)
        let h1 := setNext h cur cur_next_next
        let h2 := setPrev h1 cur_next_next cur
        let h3 := free h2 (h2.value cur_next_e)
        let h4 := free h3 cur_next_e
        q_delete_dup_loop head fuel h4 cur cur_e true
      else if flag = true then
        let h1 := setPrev h (h.next cur) (h.prev cur)
        let h2 := setNext h1 (h1.prev cur) (h1.next cur)
        let cur1 := h2.next cur
        let h3 := free h2 (h2.value cur_e)
        let h4 := free h3 cur_e
        q_delete_dup_loop head fuel h4 cur1 cur_e flag
      else
        q_delete_dup_loop head fuel h (h.next cur) cur_e false
    else some (h, cur, cur_e0, flag)

/-- `q_delete_dup`.  The local `cur_e` is declared without a value; it starts
as `0` here and is assigned by the first iteration of the loop. -/
def q_delete_dup (fuel : Nat) (h : Heap) (head : Nat) : Option (Heap × Bool) :=
  if head = 0 ∨ list_empty h head = true then some (h, false)
  else
    match q_delete_dup_loop head fuel h (h.next head) 0 false with
    | none => none
    | some (h1, cur, cur_e, flag) =>
      if flag = true then
        let h2 := setPrev h1 (h1.next cur) (h1.prev cur)
        let h3 := setNext h2 (h2.prev cur) (h2.next cur)
        let h4 := free h3 (h3.value cur_e)
        some (free h4 cur_e, true)
      else some (h1, true)

/-- The `while` loop of `q_swap`.  Returns the heap and the final `cur`,
`prev` and `n`. -/
def q_swap_loop (head : Nat) : Nat → Heap → Nat → Nat → Nat → Nat → Option (Heap × Nat × Nat × Nat)
  | 0, _, _, _, _, _ => none
  | fuel + 1, h, cur, prev, next, n =>
    if h.next cur ≠ head ∧ cur ≠ head then
      let h1 := setNext h cur (h.next next)
      let h2 := setPrev h1 cur next
      let h3 := setNext h2 next cur
      let h4 := setPrev h3 next prev
      let h5 := setNext h4 prev next
      let cur1 := h5.next cur
      q_swap_loop head fuel h5 cur1 cur (h5.next cur1) (n + 1)
    else some (h, cur, prev, n)

/-- `q_swap`. -/
def q_swap (fuel : Nat) (h : Heap) (head : Nat) : Option Heap :=
  if head = 0 then some h
  else
    let cur := h.next head
    match q_swap_loop head fuel h cur head (h.next cur) 0 with
    | none => none
    | some (h1, cur1, prev1, n) =>
      if n % 2 = 0 then some (setPrev h1 head cur1)
      else some (setPrev h1 cur1 prev1)

/-- A store through the pointer-to-pointer `ptr` of `mergeTwoLists`: `none`
is the address of the local `head`, `some a` is the address of `a->next`.
Returns the heap and the local `head`. -/
def storePtr (h : Heap) (hd : Nat) (ptr : Option Nat) (v : Nat) : Heap × Nat :=
  match ptr with
  | none => (h, v)
  | some a => (setNext h a v, hd)

/-- The `for` loop of `mergeTwoLists` followed by the final store of
`L1 | L2`.  `hd` is the local `head`; returns the heap and `head`. -/
def mergeTwoLists_loop : Nat → Heap → Nat → Nat → Nat → Option Nat → Option (Heap × Nat)
  | 0, _, _, _, _, _ => none
  | fuel + 1, h, L1, L2, hd, ptr =>
    if L1 ≠ 0 ∧ L2 ≠ 0 then
      let node1 := list_entry L1
      let node2 := list_entry L2
      if strcmp (cstr h (h.value node1)) (cstr h (h.value node2)) ≤ 0 then
        let r := storePtr h hd ptr L1
        mergeTwoLists_loop fuel r.1 (r.1.next L1) L2 r.2 (some L1)
      else
        let r := storePtr h hd ptr L2
        mergeTwoLists_loop fuel r.1 L1 (r.1.next L2) r.2 (some L2)
    else some (storePtr h hd ptr (L1 ||| L2))

/-- `mergeTwoLists`. -/
def mergeTwoLists (fuel : Nat) (h : Heap) (L1 L2 : Nat) : Option (Heap × Nat) :=
  mergeTwoLists_loop fuel h L1 L2 0 none

/-- The slow/fast `for` loop of `mergesort_list`; returns the final `slow`. -/
def mergesort_split (h : Heap) : Nat → Nat → Nat → Option Nat
  | 0, _, _ => none
  | fuel + 1, slow, fast =>
    if fast ≠ 0 ∧ h.next fast ≠ 0 then mergesort_split h fuel (h.next slow) (h.next (h.next fast))
    else some slow

/-- `mergesort_list`. -/
def mergesort_list : Nat → Heap → Nat → Option (Heap × Nat)
  | 0, _, _ => none
  | fuel + 1, h, head =>
    if head = 0 ∨ h.next head = 0 then some (h, head)
    else
      match mergesort_split h fuel head (h.next head) with
      | none => none
      | some slow =>
        let mid := h.next slow
        let h1 := setNext h slow 0
        match mergesort_list fuel h1 head with
        | none => none
        | some (h2, left) =>
          match mergesort_list fuel h2 mid with
          | none => none
          | some (h3, right) => mergeTwoLists fuel h3 left right

/-- The final `while` loop of `q_sort`, which rebuilds the `prev` links;
returns the heap and the final `ptr`. -/
def q_sort_relink : Nat → Heap → Nat → Option (Heap × Nat)
  | 0, _, _ => none
  | fuel + 1, h, ptr =>
    if h.next ptr ≠ 0 then
      let h1 := setPrev h (h.next ptr) ptr
      q_sort_relink fuel h1 (h1.next ptr)
    else some (h, ptr)

/-- `q_sort`. -/
def q_sort (fuel : Nat) (h : Heap) (head : Nat) : Option Heap :=
  if head = 0 ∨ list_empty h head = true then some h
  else
    let h1 := setNext h (h.prev head) 0
    match mergesort_list fuel h1 (h1.next head) with
    | none => none
    | some (h2, sorted) =>
      let h3 := setNext h2 head sorted
      match q_sort_relink fuel h3 head with
      | none => none
      | some (h4, ptr) => some (setPrev (setNext h4 ptr head) head ptr)

/-- The `do ... while` loop of `q_reverse`, entered with the local `cur`. -/
def q_reverse_loop (head : Nat) : Nat → Heap → Nat → Option Heap
  | 0, _, _ => none
  | fuel + 1, h, cur =>
    let tmp := h.prev cur
    let h1 := setPrev h cur (h.next cur)
    let h2 := setNext h1 cur tmp
    let cur1 := h2.prev cur
    if cur1 ≠ head then q_reverse_loop head fuel h2 cur1 else some h2

/-- `q_reverse`. -/
def q_reverse (fuel : Nat) (h : Heap) (head : Nat) : Option Heap :=
  if head = 0 ∨ list_empty h head = true then some h
  else q_reverse_loop head fuel h head

/-! ## Specification vocabulary -/

/-- Following `f` from `a` visits the links `xs` one after the other. -/
def Path (f : Nat → Nat) : Nat → List Nat → Prop
  | _, [] => True
  | a, x :: xs => f a = x ∧ Path f x xs

instance decidablePath (f : Nat → Nat) : ∀ (a : Nat) (xs : List Nat), Decidable (Path f a xs)
  | _, [] => isTrue trivial
  | a, x :: xs =>
    have : Decidable (Path f x xs) := decidablePath f x xs
    inferInstanceAs (Decidable (f a = x ∧ Path f x xs))

/-- Following `f` from `head` visits exactly the links `xs`, in order, and
then comes back to `head`. -/
def Fwd (f : Nat → Nat) (head : Nat) (xs : List Nat) : Prop :=
  Path f head (xs ++ [head])

instance (f : Nat → Nat) (head : Nat) (xs : List Nat) : Decidable (Fwd f head xs) := by
  delta Fwd; infer_instance

/-- Ownership of the strings: the string block of every element of `xs` is a
live allocation, it is none of the links of the queue, and no two elements
share a string block. -/
def Owned (h : Heap) (head : Nat) (xs : List Nat) : Prop :=
  (∀ a ∈ xs, h.value a ∈ h.live ∧ h.value a ∉ head :: xs) ∧ (xs.map h.value).Nodup

instance (h : Heap) (head : Nat) (xs : List Nat) : Decidable (Owned h head xs) := by
  delta Owned; infer_instance

/-- A well-formed queue with sentinel `head` whose elements, in forward
order, are the links `xs`: the links are distinct and non-null, the `next`
fields run through `xs` and back to the sentinel, the `prev` fields run
through `xs` in reverse, every link is a live allocation and every element
owns its string block. -/
def WF (h : Heap) (head : Nat) (xs : List Nat) : Prop :=
  (head :: xs).Nodup ∧ (∀ a ∈ head :: xs, a ≠ 0) ∧
  Fwd h.next head xs ∧ Fwd h.prev head xs.reverse ∧
  (∀ a ∈ head :: xs, a ∈ h.live) ∧ Owned h head xs

instance (h : Heap) (head : Nat) (xs : List Nat) : Decidable (WF h head xs) := by
  delta WF; infer_instance

/-- The link invariant of the data model: every link of the queue is the
`prev` of its `next` and the `next` of its `prev`, and the sentinel points to
itself in both directions exactly when the queue has no element. -/
def LinkInv (h : Heap) (head : Nat) (xs : List Nat) : Prop :=
  (∀ L ∈ head :: xs, h.prev (h.next L) = L ∧ h.next (h.prev L) = L) ∧
  ((h.next head = head ∧ h.prev head = head) ↔ xs = [])

/-- Doubly-linked path: starting at `a`, every `next` step leads to the next
link of `xs` and the `prev` field of that link leads back. -/
def DL (h : Heap) : Nat → List Nat → Prop
  | _, [] => True
  | a, x :: xs => h.next a = x ∧ h.prev x = a ∧ DL h x xs

/-- Singly-linked segment: the pointer `p` leads through the links `xs`, in
order, following `f`, and the last of them points to `q`.  With `q = 0` this
is a null-terminated list. -/
def Seg (f : Nat → Nat) : Nat → List Nat → Nat → Prop
  | p, [], q => p = q
  | p, x :: xs, q => p = x ∧ Seg f (f x) xs q

instance decidableSeg (f : Nat → Nat) :
    ∀ (p : Nat) (xs : List Nat) (q : Nat), Decidable (Seg f p xs q)
  | p, [], q => inferInstanceAs (Decidable (p = q))
  | p, x :: xs, q =>
    have : Decidable (Seg f (f x) xs q) := decidableSeg f (f x) xs q
    inferInstanceAs (Decidable (p = x ∧ Seg f (f x) xs q))

/-- The answers of the two `malloc` calls of an insert are fresh blocks. -/
def AllocOK (h : Heap) (e v : Nat) : Prop :=
  e ≠ 0 ∧ e ∉ h.live ∧ v ≠ 0 ∧ v ≠ e ∧ v ∉ h.live

instance (h : Heap) (e v : Nat) : Decidable (AllocOK h e v) := by
  delta AllocOK; infer_instance

/-- One call of the insert/remove interface. -/
inductive Op where
  | insert_head (s : List Nat) (e v : Nat)
  | insert_tail (s : List Nat) (e v : Nat)
  | remove_head (sp : Option (List Nat)) (bufsize : Nat)
  | remove_tail (sp : Option (List Nat)) (bufsize : Nat)

/-- State of a run of calls: the heap, the number of insert calls and the
number of remove calls that returned an element. -/
structure Run where
  heap : Heap
  inserts : Nat
  removes : Nat

/-- Perform one call on the queue `head`. -/
def step (head : Nat) (r : Run) : Op → Run
  | Op.insert_head s e v =>
    { heap := (q_insert_head r.heap head s e v).1, inserts := r.inserts + 1, removes := r.removes }
  | Op.insert_tail s e v =>
    { heap := (q_insert_tail r.heap head s e v).1, inserts := r.inserts + 1, removes := r.removes }
  | Op.remove_head sp n =>
    { heap := (q_remove_head r.heap head sp n).1, inserts := r.inserts,
      removes := r.removes + (if (q_remove_head r.heap head sp n).2.1 = 0 then 0 else 1) }
  | Op.remove_tail sp n =>
    { heap := (q_remove_tail r.heap head sp n).1, inserts := r.inserts,
      removes := r.removes + (if (q_remove_tail r.heap head sp n).2.1 = 0 then 0 else 1) }

/-- The allocations made by one call succeed with fresh blocks. -/
def OpOK (h : Heap) : Op → Prop
  | Op.insert_head _ e v => AllocOK h e v
  | Op.insert_tail _ e v => AllocOK h e v
  | Op.remove_head _ _ => True
  | Op.remove_tail _ _ => True

instance decidableOpOK (h : Heap) : ∀ op : Op, Decidable (OpOK h op)
  | Op.insert_head _ e v => inferInstanceAs (Decidable (AllocOK h e v))
  | Op.insert_tail _ e v => inferInstanceAs (Decidable (AllocOK h e v))
  | Op.remove_head _ _ => isTrue trivial
  | Op.remove_tail _ _ => isTrue trivial

/-- Every allocation made during the run succeeds with a fresh block. -/
def OpsOK (head : Nat) : Run → List Op → Prop
  | _, [] => True
  | r, op :: ops => OpOK r.heap op ∧ OpsOK head (step head r op) ops

instance decidableOpsOK (head : Nat) : ∀ (r : Run) (ops : List Op), Decidable (OpsOK head r ops)
  | _, [] => isTrue trivial
  | r, op :: ops =>
    have : Decidable (OpsOK head (step head r op) ops) := decidableOpsOK head (step head r op) ops
    inferInstanceAs (Decidable (OpOK r.heap op ∧ OpsOK head (step head r op) ops))

/-- Exchange the elements at positions `2i` and `2i+1` for every complete
pair; an unmatched last element stays last. -/
def swapPairs : List Nat → List Nat
  | a :: b :: rest => b :: a :: swapPairs rest
  | rest => rest

/-- The order `strcmp(a->value, b->value) <= 0` on the links of a heap. -/
def leq (h : Heap) (a b : Nat) : Bool := decide (strcmp (valueOf h a) (valueOf h b) ≤ 0)

/-- The offsets of the element's string block that
`memcpy(sp, value, bufsize - 1)` reads. -/
def copy_reads (bufsize : Nat) : List Nat := List.range (bufsize_minus_one bufsize)

/-- The offsets of the caller's buffer written by
`memcpy(sp, value, bufsize - 1)` and by `sp[bufsize - 1] = 0`. -/
def copy_writes (bufsize : Nat) : List Nat :=
  List.range (bufsize_minus_one bufsize) ++ [bufsize_minus_one bufsize]

/-- The `while` loop of `q_delete_dup` read on the list of links: started
with the locals `flag`, `cur = c`, `cur_e = ce` and the links `rest` that
follow `cur`, it returns the links kept in front of the final `cur`, the
final `cur`, the final `cur_e` and the final `flag`.  `val` gives the string
of a link. -/
def dupLoop (val : Nat → List Nat) : Bool → Nat → Nat → List Nat → List Nat × Nat × Nat × Bool
  | flag, c, ce, [] => ([], c, ce, flag)
  | flag, c, _, r :: rest =>
    if strcmp (val c) (val r) = 0 then dupLoop val true c c rest
    else if flag = true then dupLoop val true r c rest
    else (c :: (dupLoop val false r c rest).1, (dupLoop val false r c rest).2)

/-- What `q_delete_dup` leaves of the non-empty sequence `x :: rest`: the
links kept by the loop, followed by the final `cur` unless the final `flag`
makes the block after the loop unlink it. -/
def dupKept (val : Nat → List Nat) (x : Nat) (rest : List Nat) : List Nat :=
  if (dupLoop val false x 0 rest).2.2.2 = true then (dupLoop val false x 0 rest).1
  else (dupLoop val false x 0 rest).1 ++ [(dupLoop val false x 0 rest).2.1]

/-- A heap with nothing allocated. -/
def emptyHeap : Heap :=
  { next := fun _ => 0, prev := fun _ => 0, value := fun _ => 0, mem := fun _ _ => 0,
    size := fun _ => 0, live := [], freed := [] }

/-- Insert the strings `ss` at the tail of the queue `head`, one after the
other; the element for the `i`-th string is allocated at `10 * (i + 1)` and
its string at `10 * (i + 1) + 1`. -/
def fill (head : Nat) : Heap → Nat → List (List Nat) → Heap
  | h, _, [] => h
  | h, i, s :: ss => fill head (q_insert_tail h head s (10 * (i + 1)) (10 * (i + 1) + 1)).1 (i + 1) ss

/-- The queue with sentinel at address `1` obtained from `q_new` followed by
`q_insert_tail` of each string of `ss`. -/
def mkQueue (ss : List (List Nat)) : Heap := fill 1 (q_new emptyHeap 1).1 0 ss

/-- The forward sequence of strings of the queue `head`, read by following
`next` from the sentinel for at most `fuel` links. -/
def toValues (h : Heap) (head : Nat) : Nat → Nat → List (List Nat)
  | 0, _ => []
  | fuel + 1, node => if node = head then [] else valueOf h node :: toValues h head fuel (h.next node)

/-- The backward sequence of strings of the queue `head`, read by following
`prev` from the sentinel for at most `fuel` links. -/
def toValuesBack (h : Heap) (head : Nat) : Nat → Nat → List (List Nat)
  | 0, _ => []
  | fuel + 1, node => if node = head then [] else valueOf h node :: toValuesBack h head fuel (h.prev node)

/-! ## Field updates -/

@[simp] theorem setNext_next (h : Heap) (a v x : Nat) :
    (setNext h a v).next x = if x = a then v else h.next x := rfl
@[simp] theorem setNext_prev (h : Heap) (a v : Nat) : (setNext h a v).prev = h.prev := rfl
@[simp] theorem setNext_value (h : Heap) (a v : Nat) : (setNext h a v).value = h.value := rfl
@[simp] theorem setNext_mem (h : Heap) (a v : Nat) : (setNext h a v).mem = h.mem := rfl
@[simp] theorem setNext_size (h : Heap) (a v : Nat) : (setNext h a v).size = h.size := rfl
@[simp] theorem setNext_live (h : Heap) (a v : Nat) : (setNext h a v).live = h.live := rfl
@[simp] theorem setNext_freed (h : Heap) (a v : Nat) : (setNext h a v).freed = h.freed := rfl

@[simp] theorem setPrev_prev (h : Heap) (a v x : Nat) :
    (setPrev h a v).prev x = if x = a then v else h.prev x := rfl
@[simp] theorem setPrev_next (h : Heap) (a v : Nat) : (setPrev h a v).next = h.next := rfl
@[simp] theorem setPrev_value (h : Heap) (a v : Nat) : (setPrev h a v).value = h.value := rfl
@[simp] theorem setPrev_mem (h : Heap) (a v : Nat) : (setPrev h a v).mem = h.mem := rfl
@[simp] theorem setPrev_size (h : Heap) (a v : Nat) : (setPrev h a v).size = h.size := rfl
@[simp] theorem setPrev_live (h : Heap) (a v : Nat) : (setPrev h a v).live = h.live := rfl
@[simp] theorem setPrev_freed (h : Heap) (a v : Nat) : (setPrev h a v).freed = h.freed := rfl

@[simp] theorem valueOf_setNext (h : Heap) (a v : Nat) : valueOf (setNext h a v) = valueOf h := rfl
@[simp] theorem valueOf_setPrev (h : Heap) (a v : Nat) : valueOf (setPrev h a v) = valueOf h := rfl

/-! ## Paths -/

@[simp] theorem Path_nil (f : Nat → Nat) (a : Nat) : Path f a [] ↔ True := Iff.rfl
@[simp] theorem Path_cons (f : Nat → Nat) (a x : Nat) (xs : List Nat) :
    Path f a (x :: xs) ↔ f a = x ∧ Path f x xs := Iff.rfl
@[simp] theorem DL_nil (h : Heap) (a : Nat) : DL h a [] ↔ True := Iff.rfl
@[simp] theorem DL_cons (h : Heap) (a x : Nat) (xs : List Nat) :
    DL h a (x :: xs) ↔ h.next a = x ∧ h.prev x = a ∧ DL h x xs := Iff.rfl

theorem Path_snoc (f : Nat → Nat) (a : Nat) (xs : List Nat) (b c : Nat) :
    Path f a (xs ++ [b, c]) ↔ Path f a (xs ++ [b]) ∧ f b = c := by
  induction xs generalizing a with
  | nil => simp
  | cons x xs ih => simp [ih, and_assoc]

theorem Path_congr (f g : Nat → Nat) (a : Nat) (xs : List Nat) (b : Nat)
    (hfg : ∀ z ∈ a :: xs, g z = f z) (hp : Path f a (xs ++ [b])) : Path g a (xs ++ [b]) := by
  induction xs generalizing a with
  | nil => simpa [hfg] using hp
  | cons x xs ih =>
    obtain ⟨h1, h2⟩ := hp
    refine ⟨by rw [hfg a (by simp)]; exact h1, ih x (fun z hz => hfg z (by simp [List.mem_cons] at hz ⊢; tauto)) h2⟩

theorem DL_snoc (h : Heap) (a : Nat) (xs : List Nat) (b c : Nat) :
    DL h a (xs ++ [b, c]) ↔ DL h a (xs ++ [b]) ∧ h.next b = c ∧ h.prev c = b := by
  induction xs generalizing a with
  | nil => simp [and_assoc]
  | cons x xs ih => simp [ih, and_assoc]

theorem DL_frame (h k : Heap) (a : Nat) (xs : List Nat)
    (hn : ∀ z ∈ (a :: xs).dropLast, k.next z = h.next z)
    (hp : ∀ z ∈ xs, k.prev z = h.prev z) (hd : DL h a xs) : DL k a xs := by
  induction xs generalizing a with
  | nil => trivial
  | cons x xs ih =>
    obtain ⟨h1, h2, h3⟩ := hd
    refine ⟨?_, ?_, ih x ?_ ?_ h3⟩
    · rw [hn a (by simp [List.dropLast])]; exact h1
    · rw [hp x (by simp)]; exact h2
    · intro z hz; exact hn z (by
        rw [List.dropLast_cons_of_ne_nil (by simp)]; exact List.mem_cons_of_mem _ hz)
    · intro z hz; exact hp z (List.mem_cons_of_mem _ hz)

theorem DL_iff_paths (h : Heap) (a : Nat) (xs : List Nat) (b : Nat) :
    DL h a (xs ++ [b]) ↔ Path h.next a (xs ++ [b]) ∧ Path h.prev b (xs.reverse ++ [a]) := by
  induction xs generalizing a with
  | nil => simp
  | cons x xs ih =>
    have e : (x :: xs).reverse ++ [a] = xs.reverse ++ [x, a] := by simp
    rw [e, Path_snoc]
    simp only [List.cons_append, DL_cons, Path_cons, ih x]
    tauto

theorem WF_iff_DL (h : Heap) (head : Nat) (xs : List Nat) :
    WF h head xs ↔ ((head :: xs).Nodup ∧ (∀ a ∈ head :: xs, a ≠ 0) ∧ DL h head (xs ++ [head]) ∧
      (∀ a ∈ head :: xs, a ∈ h.live) ∧ Owned h head xs) := by
  simp only [WF, Fwd, DL_iff_paths]
  tauto

theorem DL_prev_next (h : Heap) (a : Nat) (xs : List Nat) (hd : DL h a xs) :
    ∀ L ∈ (a :: xs).dropLast, h.prev (h.next L) = L := by
  induction xs generalizing a with
  | nil => simp
  | cons x xs ih =>
    obtain ⟨h1, h2, h3⟩ := hd
    intro L hL
    rw [List.dropLast_cons_of_ne_nil (by simp)] at hL
    rcases List.mem_cons.1 hL with rfl | hL
    · rw [h1, h2]
    · exact ih x h3 L hL

theorem DL_next_prev (h : Heap) (a : Nat) (xs : List Nat) (hd : DL h a xs) :
    ∀ L ∈ xs, h.next (h.prev L) = L := by
  induction xs generalizing a with
  | nil => simp
  | cons x xs ih =>
    obtain ⟨h1, h2, h3⟩ := hd
    intro L hL
    rcases List.mem_cons.1 hL with rfl | hL
    · rw [h2, h1]
    · exact ih x h3 L hL

theorem WF_linkInv (h : Heap) (head : Nat) (xs : List Nat) (hw : WF h head xs) :
    LinkInv h head xs := by
  rw [WF_iff_DL] at hw
  obtain ⟨hnd, _, hd, _, _⟩ := hw
  refine ⟨fun L hL => ⟨?_, ?_⟩, ?_⟩
  · apply DL_prev_next h head _ hd
    rw [← List.cons_append, List.dropLast_concat]; exact hL
  · apply DL_next_prev h head _ hd
    rcases List.mem_cons.1 hL with rfl | hL <;> simp [*]
  · cases xs with
    | nil => simpa using hd
    | cons x xs =>
      simp only [List.cons_append, DL_cons] at hd
      have : head ≠ x := by
        intro e; subst e; simp at hnd
      constructor
      · intro hh; exact absurd (hh.1.symm.trans hd.1) this
      · intro hh; cases hh

/-! ## Linking and unlinking next to the sentinel -/

theorem Owned_of_perm (h k : Heap) (head : Nat) (xs ys : List Nat) (hp : ys.Perm xs)
    (hv : k.value = h.value) (hl : ∀ a ∈ xs, h.value a ∈ h.live → h.value a ∈ k.live)
    (ho : Owned h head xs) : Owned k head ys := by
  obtain ⟨o1, o2⟩ := ho
  refine ⟨fun a ha => ?_, ?_⟩
  · have hax := hp.mem_iff.1 ha
    rw [hv]
    refine ⟨hl a hax (o1 a hax).1, fun c => (o1 a hax).2 ?_⟩
    rcases List.mem_cons.1 c with c | c
    · exact c ▸ List.mem_cons_self _ _
    · exact List.mem_cons_of_mem _ (hp.mem_iff.1 c)
  · rw [hv]
    exact (List.Perm.nodup_iff (hp.map _)).2 o2

theorem Owned_of_sublist (h : Heap) (head : Nat) (xs ys : List Nat) (hs : ys.Sublist xs)
    (ho : Owned h head xs) : Owned h head ys := by
  obtain ⟨o1, o2⟩ := ho
  refine ⟨fun a ha => ⟨(o1 a (hs.subset ha)).1, fun c => (o1 a (hs.subset ha)).2 ?_⟩,
    o2.sublist (hs.map _)⟩
  rcases List.mem_cons.1 c with c | c
  · exact c ▸ List.mem_cons_self _ _
  · exact List.mem_cons_of_mem _ (hs.subset c)

theorem DL_congr (h k : Heap) (a : Nat) (xs : List Nat) (hn : k.next = h.next)
    (hp : k.prev = h.prev) (hd : DL h a xs) : DL k a xs :=
  DL_frame h k a xs (fun z _ => by rw [hn]) (fun z _ => by rw [hp]) hd

theorem WF_head_ne_zero (h : Heap) (head : Nat) (xs : List Nat) (hw : WF h head xs) : head ≠ 0 :=
  hw.2.1 head (by simp)

theorem WF_next_head (h : Heap) (head x : Nat) (xs : List Nat) (hw : WF h head (x :: xs)) :
    h.next head = x ∧ x ≠ head ∧ x ≠ 0 := by
  obtain ⟨hnd, hnz, hf, _, _, _⟩ := hw
  refine ⟨by simpa [Fwd] using hf.1, ?_, hnz x (by simp)⟩
  intro c; subst c; simp at hnd

theorem WF_prev_head (h : Heap) (head x : Nat) (xs : List Nat) (hw : WF h head (xs ++ [x])) :
    h.prev head = x ∧ h.next head ≠ head ∧ x ≠ 0 := by
  obtain ⟨hnd, hnz, hf, hb, _, _⟩ := hw
  refine ⟨?_, ?_, hnz x (by simp)⟩
  · simp only [Fwd, List.reverse_append, List.reverse_cons, List.reverse_nil, List.nil_append,
      List.singleton_append, List.cons_append, Path_cons] at hb
    exact hb.1
  cases xs with
  | nil =>
    have : h.next head = x := by simpa [Fwd] using hf.1
    rw [this]; intro c; subst c; simp at hnd
  | cons y ys =>
    have : h.next head = y := by simpa [Fwd] using hf.1
    rw [this]; intro c; subst c; simp at hnd

theorem remove_head_cons (h : Heap) (head x : Nat) (xs : List Nat) (sp : Option (List Nat))
    (n : Nat) (hw : WF h head (x :: xs)) :
    q_remove_head h head sp n =
      (list_del h x, x, sp.map (fun buf => copy_out h buf (h.value x) n)) := by
  obtain ⟨h1, h2, h3⟩ := WF_next_head h head x xs hw
  have hh := WF_head_ne_zero h head _ hw
  simp [q_remove_head, list_empty, list_entry, h1, h2, h3, hh, list_del, copy_out]

theorem remove_tail_concat (h : Heap) (head x : Nat) (xs : List Nat) (sp : Option (List Nat))
    (n : Nat) (hw : WF h head (xs ++ [x])) :
    q_remove_tail h head sp n =
      (list_del h x, x, sp.map (fun buf => copy_out h buf (h.value x) n)) := by
  obtain ⟨h1, h2, h3⟩ := WF_prev_head h head x xs hw
  have hh := WF_head_ne_zero h head _ hw
  simp [q_remove_tail, list_empty, list_entry, h1, h2, h3, hh, list_del, copy_out]

theorem bufsize_minus_one_eq (N : Nat) (h1 : 1 ≤ N) (h2 : N < 2 ^ 64) :
    bufsize_minus_one N = N - 1 := by
  unfold bufsize_minus_one
  norm_num at h2 ⊢
  omega

theorem swapPairs_perm : ∀ xs : List Nat, (swapPairs xs).Perm xs
  | [] => List.Perm.refl _
  | [_] => List.Perm.refl _
  | a :: b :: rest => (List.Perm.swap a b _).trans (((swapPairs_perm rest).cons b).cons a)

theorem Path_retarget (f g : Nat → Nat) (a b t : Nat) (L : List Nat)
    (hab : g a = f b) (hL : ∀ z ∈ L, g z = f z) (hp : Path f b (L ++ [t])) :
    Path g a (L ++ [t]) := by
  cases L with
  | nil => simpa [hab] using hp
  | cons c L =>
    simp only [List.cons_append, Path_cons] at hp ⊢
    exact ⟨hab.trans hp.1, Path_congr f g c L t hL hp.2⟩

theorem q_swap_loop_ok (head : Nat) :
    ∀ (fuel : Nat) (R : List Nat) (h : Heap) (p n : Nat),
      (p :: R).Nodup → head ∉ R → Path h.next p (R ++ [head]) → R.length < fuel →
      ∃ k cur prev m, q_swap_loop head fuel h (h.next p) p (h.next (h.next p)) n =
          some (k, cur, prev, m) ∧
        Path k.next p (swapPairs R ++ [head]) ∧ (∀ z, z ∉ p :: R → k.next z = h.next z) ∧
        k.value = h.value ∧ k.mem = h.mem ∧ k.size = h.size ∧ k.live = h.live ∧
        k.freed = h.freed := by
  intro fuel
  induction fuel with
  | zero => intro R h p n _ _ _ hf; simp at hf
  | succ fuel ih =>
    intro R h p n hnd hh hp hf
    match R, hnd, hh, hp, hf with
    | [], _, _, hp, _ =>
      simp only [List.nil_append, Path_cons, Path_nil, and_true] at hp
      exact ⟨h, h.next p, p, n, by simp [q_swap_loop, hp], by simpa [swapPairs] using hp,
        fun _ _ => rfl, rfl, rfl, rfl, rfl, rfl⟩
    | [a], _, _, hp, _ =>
      simp only [List.cons_append, List.nil_append, Path_cons, Path_nil, and_true] at hp
      exact ⟨h, h.next p, p, n, by simp [q_swap_loop, hp.1, hp.2], by simpa [swapPairs] using hp,
        fun _ _ => rfl, rfl, rfl, rfl, rfl, rfl⟩
    | a :: b :: R', hnd, hh, hp, hf =>
      simp only [List.cons_append, Path_cons] at hp
      obtain ⟨hpa, hab, hrest⟩ := hp
      simp only [List.nodup_cons, List.mem_cons, not_or] at hnd hh
      obtain ⟨⟨hpa', hpb, hpR⟩, ⟨hab', haR⟩, hbR, hR⟩ := hnd
      have hah : a ≠ head := fun c => hh.1 c.symm
      have hbh : b ≠ head := fun c => hh.2.1 c.symm
      obtain ⟨k, cur, prev, m, hk, hpath, hfr, e1, e2, e3, e4, e5⟩ :=
        ih R' (setNext (setPrev (setNext (setPrev (setNext h a (h.next b)) a b) b a) b p) p b)
          a (n + 1) (List.nodup_cons.2 ⟨haR, hR⟩) hh.2.2
          (Path_retarget h.next _ a b head R'
            (by simp [hpa', Ne.symm hpa', hab', Ne.symm hab'])
            (fun z hz => by
              have h1 : z ≠ p := fun c => hpR (c ▸ hz)
              have h2 : z ≠ a := fun c => haR (c ▸ hz)
              have h3 : z ≠ b := fun c => hbR (c ▸ hz)
              simp [h1, h2, h3]) hrest)
          (by simp at hf; omega)
      refine ⟨k, cur, prev, m, ?_, ?_, ?_, ?_, ?_, ?_, ?_, ?_⟩
      · rw [← hk]
        simp only [q_swap_loop, hpa, hab, ne_eq, hah, hbh, not_false_eq_true, and_self, if_true]
      · have hkp : k.next p = b := by
          rw [hfr p (by simp [hpa', hpR])]; simp
        have hkb : k.next b = a := by
          rw [hfr b (by simp [Ne.symm hab', hbR])]; simp [Ne.symm hpb]
        simp only [swapPairs, List.cons_append, Path_cons]
        exact ⟨hkp, hkb, hpath⟩
      · intro z hz
        simp only [List.mem_cons, not_or] at hz
        rw [hfr z (by simp [hz.2.1, hz.2.2.2])]
        simp [hz.1, hz.2.1, hz.2.2.1]
      · simpa using e1
      · simpa using e2
      · simpa using e3
      · simpa using e4
      · simpa using e5

theorem valueOf_congr (h k : Heap) (hv : k.value = h.value) (hm : k.mem = h.mem)
    (hs : k.size = h.size) : valueOf k = valueOf h := by
  funext a
  simp only [valueOf, cstr, blockBytes, hv, hm, hs]

/-- C9: on a well-formed queue with forward sequence `xs`, `q_swap` returns
and the forward sequence becomes `swapPairs xs` (positions `2i` and `2i+1`
exchanged for every complete pair, an unmatched last element staying last);
value pointers and string bytes are not modified.  `[1,2,3,4,5]` gives
`[2,1,4,3,5]`, `[1,2,3,4]` gives `[2,1,4,3]`, and sequences of 0 or 1 elements
are unchanged. -/
theorem C9_swap_forward_sequence (h : Heap) (head : Nat) (xs : List Nat) (fuel : Nat)
    (hw : WF h head xs) (hf : xs.length < fuel) :
    (∃ k, q_swap fuel h head = some k ∧ Fwd k.next head (swapPairs xs) ∧
      (head :: swapPairs xs).Nodup ∧ values k (swapPairs xs) = (swapPairs xs).map (valueOf h) ∧
      k.value = h.value ∧ k.mem = h.mem ∧ k.size = h.size ∧ k.live = h.live ∧
      k.freed = h.freed) ∧
    swapPairs [1, 2, 3, 4, 5] = [2, 1, 4, 3, 5] ∧ swapPairs [1, 2, 3, 4] = [2, 1, 4, 3] ∧
    swapPairs [] = [] ∧ (∀ a, swapPairs [a] = [a]) ∧
    (q_swap 6 (mkQueue [[1], [2], [3], [4], [5]]) 1).map (fun k => toValues k 1 6 (k.next 1)) =
      some [[2], [1], [4], [3], [5]] ∧
    (q_swap 5 (mkQueue [[1], [2], [3], [4]]) 1).map (fun k => toValues k 1 5 (k.next 1)) =
      some [[2], [1], [4], [3]] := by
  refine ⟨?_, by decide, by decide, by decide, fun a => rfl, by decide, by decide⟩
  have hh := WF_head_ne_zero h head xs hw
  obtain ⟨hnd, _, hfw, _, _, _⟩ := hw
  obtain ⟨k, cur, prev, m, hk, hpath, _, e1, e2, e3, e4, e5⟩ :=
    q_swap_loop_ok head fuel xs h head 0 hnd (by simp at hnd; exact hnd.1) hfw hf
  have hnd2 : (head :: swapPairs xs).Nodup :=
    (List.Perm.nodup_iff ((swapPairs_perm xs).cons head)).2 hnd
  have hval : ∀ k2 : Heap, k2.value = h.value → k2.mem = h.mem → k2.size = h.size →
      values k2 (swapPairs xs) = (swapPairs xs).map (valueOf h) := by
    intro k2 a b c
    rw [values, valueOf_congr h k2 a b c]
  simp only [q_swap, hh, if_false, hk]
  by_cases hm : m % 2 = 0
  · simp only [hm, if_true]
    exact ⟨_, rfl, by simpa [Fwd] using hpath, hnd2, hval _ (by simpa using e1)
      (by simpa using e2) (by simpa using e3), by simpa using e1, by simpa using e2,
      by simpa using e3, by simpa using e4, by simpa using e5⟩
  · simp only [hm, if_false]
    exact ⟨_, rfl, by simpa [Fwd] using hpath, hnd2, hval _ (by simpa using e1)
      (by simpa using e2) (by simpa using e3), by simpa using e1, by simpa using e2,
      by simpa using e3, by simpa using e4, by simpa using e5⟩

theorem C9_swap_forward_sequence_witness :
    (∃ k, q_swap 4 (mkQueue [[1], [2], [3]]) 1 = some k ∧ Fwd k.next 1 (swapPairs [10, 20, 30]) ∧
      (1 :: swapPairs [10, 20, 30]).Nodup ∧
      values k (swapPairs [10, 20, 30]) =
        (swapPairs [10, 20, 30]).map (valueOf (mkQueue [[1], [2], [3]])) ∧
      k.value = (mkQueue [[1], [2], [3]]).value ∧ k.mem = (mkQueue [[1], [2], [3]]).mem ∧
      k.size = (mkQueue [[1], [2], [3]]).size ∧ k.live = (mkQueue [[1], [2], [3]]).live ∧
      k.freed = (mkQueue [[1], [2], [3]]).freed) ∧
    swapPairs [1, 2, 3, 4, 5] = [2, 1, 4, 3, 5] ∧ swapPairs [1, 2, 3, 4] = [2, 1, 4, 3] ∧
    swapPairs [] = [] ∧ (∀ a, swapPairs [a] = [a]) ∧
    (q_swap 6 (mkQueue [[1], [2], [3], [4], [5]]) 1).map (fun k => toValues k 1 6 (k.next 1)) =
      some [[2], [1], [4], [3], [5]] ∧
    (q_swap 5 (mkQueue [[1], [2], [3], [4]]) 1).map (fun k => toValues k 1 5 (k.next 1)) =
      some [[2], [1], [4], [3]] :=
  C9_swap_forward_sequence (mkQueue [[1], [2], [3]]) 1 [10, 20, 30] 4 (by decide) (by decide)


/-- C7: on the sorted queue `["a","a","b","c","c","c"]` `q_delete_dup` returns
true and leaves the queue empty: the isolated `"b"` is deleted as well,
because `flag` stays set once the first run of duplicates has been met. -/
theorem C7_delete_dup_drops_isolated_value :
    (q_delete_dup 7 (mkQueue [[97], [97], [98], [99], [99], [99]]) 1).map
        (fun r => (r.2, toValues r.1 1 7 (r.1.next 1), toValuesBack r.1 1 7 (r.1.prev 1))) =
      some (true, [], []) := by
  decide



/-! ## Null-terminated lists and the order of `strcmp` -/

@[simp] theorem Seg_nil (f : Nat → Nat) (p q : Nat) : Seg f p [] q ↔ p = q := Iff.rfl
@[simp] theorem Seg_cons (f : Nat → Nat) (p x q : Nat) (xs : List Nat) :
    Seg f p (x :: xs) q ↔ p = x ∧ Seg f (f x) xs q := Iff.rfl

theorem Seg_congr (f g : Nat → Nat) (p q : Nat) (xs : List Nat) (hfg : ∀ z ∈ xs, g z = f z)
    (hs : Seg f p xs q) : Seg g p xs q := by
  induction xs generalizing p with
  | nil => exact hs
  | cons x xs ih =>
    refine ⟨hs.1, ?_⟩
    rw [hfg x (by simp)]
    exact ih _ (fun z hz => hfg z (List.mem_cons_of_mem _ hz)) hs.2

theorem Seg_append (f : Nat → Nat) (p q : Nat) (xs ys : List Nat) :
    Seg f p (xs ++ ys) q ↔ ∃ m, Seg f p xs m ∧ Seg f m ys q := by
  induction xs generalizing p with
  | nil => simp
  | cons x xs ih => simp [ih, and_assoc]

theorem Path_iff_Seg (f : Nat → Nat) (a b : Nat) (xs : List Nat) :
    Path f a (xs ++ [b]) ↔ Seg f (f a) xs b := by
  induction xs generalizing a with
  | nil => simp
  | cons x xs ih => simp [ih]

theorem strcmp_total (a b : List Nat) : strcmp a b ≤ 0 ∨ strcmp b a ≤ 0 := by
  induction a generalizing b with
  | nil => cases b <;> simp [strcmp]
  | cons x a ih =>
    cases b with
    | nil => simp [strcmp]
    | cons y b =>
      by_cases hxy : x = y
      · subst hxy; simpa [strcmp] using ih b
      · simp only [strcmp, hxy, Ne.symm hxy, if_false]; omega

theorem strcmp_trans (a b c : List Nat) (ha : ∀ x ∈ a, x ≠ 0) (hb : ∀ x ∈ b, x ≠ 0)
    (h1 : strcmp a b ≤ 0) (h2 : strcmp b c ≤ 0) : strcmp a c ≤ 0 := by
  induction a generalizing b c with
  | nil => cases c <;> simp [strcmp]
  | cons x a ih =>
    have hx : x ≠ 0 := ha x (by simp)
    cases b with
    | nil => simp [strcmp] at h1; omega
    | cons y b =>
      have hy : y ≠ 0 := hb y (by simp)
      cases c with
      | nil => simp [strcmp] at h2; omega
      | cons z c =>
        by_cases hxy : x = y
        · subst hxy
          by_cases hxz : x = z
          · subst hxz
            simp only [strcmp, if_true] at h1 h2 ⊢
            exact ih b c (fun w hw => ha w (List.mem_cons_of_mem _ hw))
              (fun w hw => hb w (List.mem_cons_of_mem _ hw)) h1 h2
          · simpa [strcmp, hxz] using h2
        · by_cases hyz : y = z
          · subst hyz; simpa [strcmp, hxy] using h1
          · simp only [strcmp, hxy, hyz, if_false] at h1 h2
            have hxz : x ≠ z := by omega
            simp only [strcmp, hxz, if_false]; omega

theorem valueOf_nonzero (h : Heap) (a : Nat) : ∀ x ∈ valueOf h a, x ≠ 0 := by
  intro x hx
  have := List.mem_takeWhile_imp hx
  simpa using this

theorem leq_total (h : Heap) (a b : Nat) : (leq h a b || leq h b a) = true := by
  simp only [leq, Bool.or_eq_true, decide_eq_true_eq]
  exact strcmp_total _ _

theorem leq_trans (h : Heap) (a b c : Nat) (h1 : leq h a b = true) (h2 : leq h b c = true) :
    leq h a c = true := by
  simp only [leq, decide_eq_true_eq] at h1 h2 ⊢
  exact strcmp_trans _ _ _ (valueOf_nonzero h a) (valueOf_nonzero h b) h1 h2

theorem leq_congr (h k : Heap) (hv : k.value = h.value) (hm : k.mem = h.mem)
    (hs : k.size = h.size) : leq k = leq h := by
  funext a b
  simp only [leq, valueOf_congr h k hv hm hs]


/-! ## `mergeTwoLists` -/

theorem storePtr_frame (h : Heap) (hd v : Nat) (ptr : Option Nat) :
    (∀ z, some z ≠ ptr → (storePtr h hd ptr v).1.next z = h.next z) ∧
    (storePtr h hd ptr v).1.prev = h.prev ∧ (storePtr h hd ptr v).1.value = h.value ∧
    (storePtr h hd ptr v).1.mem = h.mem ∧ (storePtr h hd ptr v).1.size = h.size ∧
    (storePtr h hd ptr v).1.live = h.live ∧ (storePtr h hd ptr v).1.freed = h.freed := by
  cases ptr with
  | none => simp [storePtr]
  | some q =>
    refine ⟨?_, rfl, rfl, rfl, rfl, rfl, rfl⟩
    intro z hz
    have : z ≠ q := fun c => hz (by rw [c])
    simp [storePtr, this]

theorem storePtr_ok (h : Heap) (hd v : Nat) (ptr : Option Nat) (M : List Nat)
    (hM : Seg h.next v M 0) (hq : ∀ q, ptr = some q → q ∉ M) :
    (ptr = none → Seg (storePtr h hd ptr v).1.next (storePtr h hd ptr v).2 M 0) ∧
    (∀ q, ptr = some q → (storePtr h hd ptr v).2 = hd ∧
      Seg (storePtr h hd ptr v).1.next ((storePtr h hd ptr v).1.next q) M 0) := by
  cases ptr with
  | none => simpa [storePtr] using hM
  | some q =>
    refine ⟨by simp, ?_⟩
    intro q' hq'
    cases hq'
    refine ⟨rfl, ?_⟩
    simp only [storePtr, setNext_next, if_true]
    apply Seg_congr h.next _ _ _ _ _ hM
    intro z hz
    have : z ≠ q := fun c => hq q rfl (c ▸ hz)
    simp [this]

theorem mergeTwoLists_loop_ok :
    ∀ (fuel : Nat) (l1 l2 : List Nat) (h : Heap) (L1 L2 hd : Nat) (ptr : Option Nat),
      Seg h.next L1 l1 0 → Seg h.next L2 l2 0 → (l1 ++ l2).Nodup → (∀ a ∈ l1 ++ l2, a ≠ 0) →
      (∀ q, ptr = some q → q ∉ l1 ++ l2) → l1.length + l2.length ≤ fuel → 1 ≤ fuel →
      ∃ k r, mergeTwoLists_loop fuel h L1 L2 hd ptr = some (k, r) ∧
        (ptr = none → Seg k.next r (List.merge l1 l2 (leq h)) 0) ∧
        (∀ q, ptr = some q → r = hd ∧ Seg k.next (k.next q) (List.merge l1 l2 (leq h)) 0) ∧
        (∀ z, z ∉ l1 ++ l2 → some z ≠ ptr → k.next z = h.next z) ∧
        k.prev = h.prev ∧ k.value = h.value ∧ k.mem = h.mem ∧ k.size = h.size ∧
        k.live = h.live ∧ k.freed = h.freed := by
  intro fuel
  induction fuel with
  | zero => intro _ _ _ _ _ _ _ _ _ _ _ _ _ h1; omega
  | succ fuel ih =>
    intro l1 l2 h L1 L2 hd ptr hs1 hs2 hnd hnz hq hf _
    match l1, l2, hs1, hs2, hnd, hnz, hq, hf with
    | [], l2, hs1, hs2, _, _, hq, _ =>
      simp only [Seg_nil] at hs1
      subst hs1
      obtain ⟨a1, a2⟩ := storePtr_ok h hd L2 ptr l2 hs2 (by simpa using hq)
      obtain ⟨a3, a4⟩ := storePtr_frame h hd L2 ptr
      exact ⟨(storePtr h hd ptr L2).1, (storePtr h hd ptr L2).2, by simp [mergeTwoLists_loop],
        by simpa using a1, by simpa using a2, fun z _ hz => a3 z hz, a4⟩
    | x :: l1, [], hs1, hs2, _, hnz, hq, _ =>
      simp only [Seg_nil] at hs2
      subst hs2
      have hx : L1 = x := hs1.1
      obtain ⟨a1, a2⟩ := storePtr_ok h hd L1 ptr (x :: l1) hs1 (by simpa using hq)
      obtain ⟨a3, a4⟩ := storePtr_frame h hd L1 ptr
      exact ⟨(storePtr h hd ptr L1).1, (storePtr h hd ptr L1).2, by simp [mergeTwoLists_loop],
        by simpa using a1, by simpa using a2, fun z _ hz => a3 z hz, a4⟩
    | x :: l1, y :: l2, hs1, hs2, hnd, hnz, hq, hf =>
      obtain ⟨hx, hs1⟩ := hs1
      obtain ⟨hy, hs2⟩ := hs2
      subst hx hy
      have hx0 : L1 ≠ 0 := hnz L1 (by simp)
      have hy0 : L2 ≠ 0 := hnz L2 (by simp)
      have hptr : ∀ z ∈ L1 :: l1 ++ L2 :: l2, some z ≠ ptr := fun z hz c => hq z c.symm hz
      by_cases hc : leq h L1 L2 = true
      · have hc2 : strcmp (cstr h (h.value (list_entry L1))) (cstr h (h.value (list_entry L2))) ≤ 0 := by
          simpa [leq, valueOf] using hc
        obtain ⟨b3, b4, b5, b6, b7, b8, b9⟩ := storePtr_frame h hd L1 ptr
        have hnd2 : (l1 ++ L2 :: l2).Nodup := (List.nodup_cons.1 hnd).2
        have hxn : L1 ∉ l1 ++ L2 :: l2 := (List.nodup_cons.1 hnd).1
        obtain ⟨k, r, hk, _, c2, c3, c4, c5, c6, c7, c8, c9⟩ :=
          ih l1 (L2 :: l2) (storePtr h hd ptr L1).1 ((storePtr h hd ptr L1).1.next L1) L2
            (storePtr h hd ptr L1).2 (some L1)
            (by
              rw [b3 L1 (hptr L1 (by simp))]
              exact Seg_congr h.next _ _ _ _
                (fun z hz => b3 z (hptr z (by simp [hz]))) hs1)
            (Seg_congr h.next _ _ _ _ (fun z hz => b3 z (hptr z (by
              simp only [List.mem_cons, List.mem_append] at hz ⊢; tauto))) ⟨rfl, hs2⟩)
            hnd2 (fun a ha => hnz a (List.mem_cons_of_mem _ ha))
            (fun q hq' => by cases hq'; exact hxn)
            (by simp at hf ⊢; omega) (by simp at hf; omega)
        obtain ⟨hr, hseg⟩ := c2 L1 rfl
        rw [leq_congr h _ b5 b6 b7] at hseg
        refine ⟨k, r, ?_, ?_, ?_, ?_, c4.trans b4, c5.trans b5, c6.trans b6, c7.trans b7,
          c8.trans b8, c9.trans b9⟩
        · rw [← hk]; simp only [mergeTwoLists_loop, hx0, hy0, ne_eq, not_false_eq_true, and_self,
            if_true, hc2]
        · intro hp; subst hp
          rw [List.cons_merge_cons_pos _ _ _ hc]
          exact ⟨by rw [hr]; rfl, hseg⟩
        · intro q hp; subst hp
          have hqx : q ≠ L1 := fun c => hq q rfl (by simp [c])
          rw [List.cons_merge_cons_pos _ _ _ hc]
          refine ⟨by rw [hr]; rfl, ?_, hseg⟩
          rw [c3 q (fun c => hq q rfl (List.mem_cons_of_mem _ c)) (by simpa using hqx)]
          simp [storePtr]
        · intro z hz hzp
          have hzx : z ≠ L1 := fun c => hz (by simp [c])
          rw [c3 z (fun c => hz (List.mem_cons_of_mem _ c)) (by simpa using hzx), b3 z hzp]
      · have hc2 : ¬ strcmp (cstr h (h.value (list_entry L1))) (cstr h (h.value (list_entry L2))) ≤ 0 := by
          simpa [leq, valueOf] using hc
        obtain ⟨b3, b4, b5, b6, b7, b8, b9⟩ := storePtr_frame h hd L2 ptr
        have hnd' : (L2 :: (L1 :: l1 ++ l2)).Nodup :=
          List.nodup_middle.1 (show ((L1 :: l1) ++ L2 :: l2).Nodup from hnd)
        have hnd2 : (L1 :: l1 ++ l2).Nodup := (List.nodup_cons.1 hnd').2
        have hyn : L2 ∉ L1 :: l1 ++ l2 := (List.nodup_cons.1 hnd').1
        obtain ⟨k, r, hk, _, c2, c3, c4, c5, c6, c7, c8, c9⟩ :=
          ih (L1 :: l1) l2 (storePtr h hd ptr L2).1 L1 ((storePtr h hd ptr L2).1.next L2)
            (storePtr h hd ptr L2).2 (some L2)
            (Seg_congr h.next _ _ _ _ (fun z hz => b3 z (hptr z (by
              simp only [List.mem_cons, List.mem_append] at hz ⊢; tauto))) ⟨rfl, hs1⟩)
            (by
              rw [b3 L2 (hptr L2 (by simp))]
              exact Seg_congr h.next _ _ _ _
                (fun z hz => b3 z (hptr z (by simp [hz]))) hs2)
            hnd2 (fun a ha => hnz a (by
              simp only [List.cons_append, List.mem_cons, List.mem_append] at ha ⊢; tauto))
            (fun q hq' => by cases hq'; exact hyn)
            (by simp at hf ⊢; omega) (by simp at hf ⊢; omega)
        obtain ⟨hr, hseg⟩ := c2 L2 rfl
        rw [leq_congr h _ b5 b6 b7] at hseg
        refine ⟨k, r, ?_, ?_, ?_, ?_, c4.trans b4, c5.trans b5, c6.trans b6, c7.trans b7,
          c8.trans b8, c9.trans b9⟩
        · rw [← hk]; simp only [mergeTwoLists_loop, hx0, hy0, ne_eq, not_false_eq_true, and_self,
            if_true, hc2, if_false]
        · intro hp; subst hp
          rw [List.cons_merge_cons_neg _ _ _ hc]
          exact ⟨by rw [hr]; rfl, hseg⟩
        · intro q hp; subst hp
          have hqy : q ≠ L2 := fun c => hq q rfl (by simp [c])
          rw [List.cons_merge_cons_neg _ _ _ hc]
          refine ⟨by rw [hr]; rfl, ?_, hseg⟩
          rw [c3 q (fun c => hq q rfl (by
            simp only [List.cons_append, List.mem_cons, List.mem_append] at c ⊢; tauto))
            (by simpa using hqy)]
          simp [storePtr]
        · intro z hz hzp
          have hzy : z ≠ L2 := fun c => hz (by simp [c])
          rw [c3 z (fun c => hz (by
            simp only [List.cons_append, List.mem_cons, List.mem_append] at c ⊢; tauto))
            (by simpa using hzy), b3 z hzp]


/-! ## `mergesort_list` -/

theorem Seg_head (f : Nat → Nat) (p : Nat) (xs : List Nat) (hs : Seg f p xs 0) :
    p = xs.getD 0 0 := by
  cases xs with
  | nil => simpa using hs
  | cons x xs => simpa using hs.1

theorem Seg_next_index (f : Nat → Nat) (p : Nat) (xs : List Nat) (hs : Seg f p xs 0) :
    ∀ j, j < xs.length → f (xs.getD j 0) = xs.getD (j + 1) 0 := by
  induction xs generalizing p with
  | nil => intro j hj; simp at hj
  | cons x xs ih =>
    intro j hj
    cases j with
    | zero => simpa using Seg_head f _ xs hs.2
    | succ j => simpa using ih _ hs.2 j (by simpa using hj)

theorem getD_ne_zero (xs : List Nat) (hnz : ∀ a ∈ xs, a ≠ 0) (j : Nat) (hj : j < xs.length) :
    xs.getD j 0 ≠ 0 := by
  rw [List.getD_eq_getElem _ _ hj]
  exact hnz _ (List.getElem_mem _)

theorem getD_eq_zero (xs : List Nat) (j : Nat) (hj : xs.length ≤ j) : xs.getD j 0 = 0 := by
  simp [List.getD_eq_getElem?_getD, List.getElem?_eq_none hj]

theorem mergesort_split_ok (h : Heap) (xs : List Nat) (p : Nat) (hs : Seg h.next p xs 0)
    (hnz : ∀ a ∈ xs, a ≠ 0) :
    ∀ (fuel i : Nat), 2 * i < xs.length → (xs.length - 1) / 2 - i < fuel →
      mergesort_split h fuel (xs.getD i 0) (xs.getD (2 * i + 1) 0) =
        some (xs.getD ((xs.length - 1) / 2) 0) := by
  intro fuel
  induction fuel with
  | zero => intro i _ hf; omega
  | succ fuel ih =>
    intro i hi hf
    by_cases hc : 2 * i + 2 < xs.length
    · have h1 : xs.getD (2 * i + 1) 0 ≠ 0 := getD_ne_zero xs hnz _ (by omega)
      have h2 : h.next (xs.getD (2 * i + 1) 0) = xs.getD (2 * i + 2) 0 :=
        Seg_next_index h.next p xs hs _ (by omega)
      have h3 : xs.getD (2 * i + 2) 0 ≠ 0 := getD_ne_zero xs hnz _ (by omega)
      have h4 : h.next (xs.getD (2 * i + 2) 0) = xs.getD (2 * (i + 1) + 1) 0 :=
        Seg_next_index h.next p xs hs _ (by omega)
      have h5 : h.next (xs.getD i 0) = xs.getD (i + 1) 0 :=
        Seg_next_index h.next p xs hs _ (by omega)
      simp only [mergesort_split, h1, h2, h3, h4, h5, ne_eq, not_false_eq_true, and_self, if_true]
      exact ih (i + 1) (by omega) (by omega)
    · have hi2 : (xs.length - 1) / 2 = i := by omega
      have : ¬ (xs.getD (2 * i + 1) 0 ≠ 0 ∧ h.next (xs.getD (2 * i + 1) 0) ≠ 0) := by
        intro ⟨c1, c2⟩
        by_cases hl : 2 * i + 1 < xs.length
        · rw [Seg_next_index h.next p xs hs _ hl] at c2
          exact c2 (getD_eq_zero xs _ (by omega))
        · exact c1 (getD_eq_zero xs _ (by omega))
      simp only [mergesort_split, this, if_false, hi2]

theorem Seg_cut (f : Nat → Nat) (p s : Nat) (A B : List Nat) (hA : s ∉ A) (hB : s ∉ B)
    (hs : Seg f p (A ++ [s] ++ B) 0) :
    Seg (fun x => if x = s then 0 else f x) p (A ++ [s]) 0 ∧
    Seg (fun x => if x = s then 0 else f x) (f s) B 0 := by
  rw [Seg_append] at hs
  obtain ⟨m, h1, h2⟩ := hs
  rw [Seg_append] at h1
  obtain ⟨m2, h3, h4⟩ := h1
  simp only [Seg_cons, Seg_nil] at h4
  obtain ⟨rfl, rfl⟩ := h4
  constructor
  · rw [Seg_append]
    refine ⟨m2, Seg_congr f _ _ _ _ (fun z hz => ?_) h3, by simp⟩
    have : z ≠ m2 := fun c => hA (c ▸ hz)
    simp [this]
  · refine Seg_congr f _ _ _ _ (fun z hz => ?_) h2
    have : z ≠ m2 := fun c => hB (c ▸ hz)
    simp [this]

theorem mergeSort_halves (xs : List Nat) (le : Nat → Nat → Bool) (hn : 2 ≤ xs.length) :
    xs.mergeSort le =
      List.merge ((xs.take ((xs.length + 1) / 2)).mergeSort le)
        ((xs.drop ((xs.length + 1) / 2)).mergeSort le) le := by
  match xs, hn with
  | a :: b :: rest, _ =>
    rw [List.mergeSort]
    simp only [List.splitInTwo_fst, List.splitInTwo_snd,
      List.length_cons]


theorem list_cut (xs : List Nat) (m : Nat) (hm : m < xs.length) :
    xs = xs.take m ++ [xs.getD m 0] ++ xs.drop (m + 1) ∧
    xs.take (m + 1) = xs.take m ++ [xs.getD m 0] := by
  rw [List.getD_eq_getElem _ _ hm]
  constructor
  · exact (by rw [List.append_assoc, List.singleton_append, ← List.drop_eq_getElem_cons hm,
      List.take_append_drop] : xs.take m ++ [xs[m]] ++ xs.drop (m + 1) = xs).symm
  · rw [List.take_succ, List.getElem?_eq_getElem hm]; rfl

theorem mergesort_list_ok :
    ∀ (fuel : Nat) (xs : List Nat) (h : Heap) (p : Nat),
      Seg h.next p xs 0 → xs.Nodup → (∀ a ∈ xs, a ≠ 0) → xs.length < fuel →
      ∃ k r, mergesort_list fuel h p = some (k, r) ∧
        Seg k.next r (xs.mergeSort (leq h)) 0 ∧ (∀ z, z ∉ xs → k.next z = h.next z) ∧
        k.prev = h.prev ∧ k.value = h.value ∧ k.mem = h.mem ∧ k.size = h.size ∧
        k.live = h.live ∧ k.freed = h.freed := by
  intro fuel
  induction fuel with
  | zero => intro xs h p _ _ _ hf; omega
  | succ fuel ih =>
    intro xs h p hs hnd hnz hf
    by_cases hn : xs.length ≤ 1
    · match xs, hs, hn with
      | [], hs, _ =>
        simp only [Seg_nil] at hs
        exact ⟨h, p, by simp [mergesort_list, hs], by simpa using hs, fun _ _ => rfl,
          rfl, rfl, rfl, rfl, rfl, rfl⟩
      | [x], hs, _ =>
        simp only [Seg_cons, Seg_nil] at hs
        exact ⟨h, p, by simp [mergesort_list, hs.1, hs.2], by simpa using hs, fun _ _ => rfl,
          rfl, rfl, rfl, rfl, rfl, rfl⟩
    · have hn2 : 2 ≤ xs.length := by omega
      have hp : p = xs.getD 0 0 := Seg_head h.next p xs hs
      have hp0 : p ≠ 0 := hp ▸ getD_ne_zero xs hnz 0 (by omega)
      have hp1 : h.next p = xs.getD 1 0 := hp ▸ Seg_next_index h.next p xs hs 0 (by omega)
      have hp10 : h.next p ≠ 0 := hp1 ▸ getD_ne_zero xs hnz 1 (by omega)
      have hsplit := mergesort_split_ok h xs p hs hnz fuel 0 (by omega) (by omega)
      simp only [Nat.mul_zero, Nat.zero_add, ← hp, ← hp1] at hsplit
      obtain ⟨hcut, htake⟩ := list_cut xs ((xs.length - 1) / 2) (by omega)
      have hm1 : (xs.length - 1) / 2 + 1 = (xs.length + 1) / 2 := by omega
      have hnd' := hnd
      rw [hcut] at hnd'
      have hsA : xs.getD ((xs.length - 1) / 2) 0 ∉ xs.take ((xs.length - 1) / 2) := by
        intro c
        have := (List.nodup_append.1 (List.nodup_append.1 hnd').1).2.2 c
        simp at this
      have hsB : xs.getD ((xs.length - 1) / 2) 0 ∉ xs.drop ((xs.length - 1) / 2 + 1) := by
        intro c
        have := (List.nodup_append.1 hnd').2.2 (by simp) c
        exact this
      have hs' := hs
      rw [hcut] at hs'
      obtain ⟨sA, sB⟩ := Seg_cut h.next p _ _ _ hsA hsB hs'
      rw [← htake, hm1] at sA
      rw [hm1] at sB
      have hdisj : ∀ z, z ∈ xs.take ((xs.length + 1) / 2) → z ∈ xs.drop ((xs.length + 1) / 2) →
          False := by
        intro z h1 h2
        have := hnd
        rw [← List.take_append_drop ((xs.length + 1) / 2) xs] at this
        exact (List.nodup_append.1 this).2.2 h1 h2
      have hndA : (xs.take ((xs.length + 1) / 2)).Nodup := hnd.sublist (List.take_sublist _ _)
      have hndB : (xs.drop ((xs.length + 1) / 2)).Nodup := hnd.sublist (List.drop_sublist _ _)
      obtain ⟨k2, left, e2, s2, f2, a1, a2, a3, a4, a5, a6⟩ :=
        ih (xs.take ((xs.length + 1) / 2)) (setNext h (xs.getD ((xs.length - 1) / 2) 0) 0) p sA
          hndA (fun a ha => hnz a (List.mem_of_mem_take ha)) (by simp; omega)
      have sB2 : Seg k2.next (h.next (xs.getD ((xs.length - 1) / 2) 0))
          (xs.drop ((xs.length + 1) / 2)) 0 :=
        Seg_congr _ _ _ _ _ (fun z hz => f2 z (fun c => hdisj z c hz)) sB
      obtain ⟨k3, right, e3, s3, f3, b1, b2, b3, b4, b5, b6⟩ :=
        ih (xs.drop ((xs.length + 1) / 2)) k2 _ sB2
          hndB (fun a ha => hnz a (List.mem_of_mem_drop ha)) (by simp; omega)
      have hl2 : leq k2 = leq h := leq_congr h k2 (by simpa using a2) (by simpa using a3)
        (by simpa using a4)
      have hl3 : leq k3 = leq h := leq_congr h k3 (by simpa using b2.trans a2)
        (by simpa using b3.trans a3) (by simpa using b4.trans a4)
      rw [hl2] at s3
      simp only [leq_congr h (setNext h (xs.getD ((xs.length - 1) / 2) 0) 0) rfl rfl rfl] at s2
      have pA := List.mergeSort_perm (xs.take ((xs.length + 1) / 2)) (leq h)
      have pB := List.mergeSort_perm (xs.drop ((xs.length + 1) / 2)) (leq h)
      have s2' : Seg k3.next left ((xs.take ((xs.length + 1) / 2)).mergeSort (leq h)) 0 :=
        Seg_congr _ _ _ _ _ (fun z hz => f3 z (fun c => hdisj z (pA.mem_iff.1 hz) c)) s2
      have pAB : ((xs.take ((xs.length + 1) / 2)).mergeSort (leq h) ++
          (xs.drop ((xs.length + 1) / 2)).mergeSort (leq h)).Perm xs := by
        have := pA.append pB
        rwa [List.take_append_drop] at this
      obtain ⟨k, r, e4, s4, _, f4, c1, c2, c3, c4, c5, c6⟩ :=
        mergeTwoLists_loop_ok fuel _ _ k3 left right 0 none s2' s3 (pAB.nodup_iff.2 hnd)
          (fun a ha => hnz a (pAB.mem_iff.1 ha)) (by simp)
          (by rw [← List.length_append, pAB.length_eq]; omega) (by omega)
      refine ⟨k, r, ?_, ?_, ?_, c1.trans (b1.trans a1), c2.trans (b2.trans a2),
        c3.trans (b3.trans a3), c4.trans (b4.trans a4), c5.trans (b5.trans a5),
        c6.trans (b6.trans a6)⟩
      · simp only [mergesort_list, hp0, hp10, or_self, if_false, hsplit, e2, e3, mergeTwoLists, e4]
      · rw [mergeSort_halves xs (leq h) hn2, ← hl3]
        rw [hl3] at s4 ⊢
        exact s4 rfl
      · intro z hz
        have hzA : z ∉ xs.take ((xs.length + 1) / 2) := fun c => hz (List.mem_of_mem_take c)
        have hzB : z ∉ xs.drop ((xs.length + 1) / 2) := fun c => hz (List.mem_of_mem_drop c)
        rw [f4 z (fun c => hz (pAB.mem_iff.1 c)) (by simp), f3 z hzB, f2 z hzA]
        have : z ≠ xs.getD ((xs.length - 1) / 2) 0 := by
          intro c; apply hz; rw [c, List.getD_eq_getElem _ _ (by omega)]
          exact List.getElem_mem _
        rw [setNext_next, if_neg this]


/-! ## `q_sort` -/

theorem q_sort_relink_ok :
    ∀ (S : List Nat) (h : Heap) (ptr fuel : Nat),
      Seg h.next (h.next ptr) S 0 → (ptr :: S).Nodup → (∀ a ∈ S, a ≠ 0) → S.length < fuel →
      ∃ k, q_sort_relink fuel h ptr = some (k, S.getLastD ptr) ∧ DL k ptr S ∧
        k.next = h.next ∧ (∀ z, z ∉ S → k.prev z = h.prev z) ∧ k.value = h.value ∧
        k.mem = h.mem ∧ k.size = h.size ∧ k.live = h.live ∧ k.freed = h.freed := by
  intro S
  induction S with
  | nil =>
    intro h ptr fuel hs _ _ hf
    obtain ⟨f, rfl⟩ : ∃ f, fuel = f + 1 := ⟨fuel - 1, by simp at hf; omega⟩
    simp only [Seg_nil] at hs
    exact ⟨h, by simp [q_sort_relink, hs], trivial, rfl, fun _ _ => rfl, rfl, rfl, rfl, rfl, rfl⟩
  | cons s S ih =>
    intro h ptr fuel hs hnd hnz hf
    obtain ⟨f, rfl⟩ : ∃ f, fuel = f + 1 := ⟨fuel - 1, by simp at hf; omega⟩
    obtain ⟨h1, h2⟩ := hs
    have hs0 : s ≠ 0 := hnz s (by simp)
    have hnd2 : (s :: S).Nodup := (List.nodup_cons.1 hnd).2
    have hsS : s ∉ S := (List.nodup_cons.1 hnd2).1
    obtain ⟨k, e, d, kn, kp, r1, r2, r3, r4, r5⟩ :=
      ih (setPrev h s ptr) s f (by simpa using h2) hnd2
        (fun a ha => hnz a (List.mem_cons_of_mem _ ha)) (by simp at hf; omega)
    refine ⟨k, ?_, ?_, by simpa using kn, ?_, by simpa using r1, by simpa using r2,
      by simpa using r3, by simpa using r4, by simpa using r5⟩
    · simp only [q_sort_relink, h1, ne_eq, hs0, not_false_eq_true, if_true, setPrev_next,
        List.getLastD_cons]
      exact e
    · refine ⟨by rw [kn]; simpa using h1, ?_, d⟩
      rw [kp s hsS]; simp
    · intro z hz
      have hzs : z ≠ s := fun c => hz (by simp [c])
      rw [kp z (fun c => hz (List.mem_cons_of_mem _ c))]
      simp [hzs]

theorem q_sort_ok (h : Heap) (head : Nat) (xs : List Nat) (fuel : Nat) (hw : WF h head xs)
    (hne : xs ≠ []) (hf : xs.length < fuel) :
    ∃ k, q_sort fuel h head = some k ∧ WF k head (xs.mergeSort (leq h)) ∧
      k.value = h.value ∧ k.mem = h.mem ∧ k.size = h.size ∧ k.live = h.live ∧
      k.freed = h.freed := by
  have hh := WF_head_ne_zero h head xs hw
  obtain ⟨ys, l, rfl⟩ : ∃ ys l, xs = ys ++ [l] := by
    rcases List.eq_nil_or_concat xs with c | ⟨ys, l, c⟩
    · exact absurd c hne
    · exact ⟨ys, l, by simpa using c⟩
  obtain ⟨hpl, hnh, hl0⟩ := WF_prev_head h head l ys hw
  obtain ⟨hnd, hnz, hfw, _, hlive, hvlive⟩ := hw
  have hlh : l ≠ head := fun c => by subst c; simp at hnd
  have hhx : head ∉ ys ++ [l] := (List.nodup_cons.1 hnd).1
  have hndx : (ys ++ [l]).Nodup := (List.nodup_cons.1 hnd).2
  have hly : l ∉ ys := fun c => by
    have := (List.nodup_append.1 hndx).2.2 c; simp at this
  -- the list is cut open at its last link
  have hseg : Seg (setNext h l 0).next ((setNext h l 0).next head) (ys ++ [l]) 0 := by
    have := (Path_iff_Seg h.next head head (ys ++ [l])).1 hfw
    rw [Seg_append] at this ⊢
    obtain ⟨m, s1, s2⟩ := this
    simp only [Seg_cons, Seg_nil] at s2
    obtain ⟨rfl, _⟩ := s2
    refine ⟨m, ?_, by simp⟩
    simp only [setNext_next, if_neg (Ne.symm hlh)]
    refine Seg_congr h.next _ _ _ _ (fun z hz => ?_) s1
    have : z ≠ m := fun c => hly (c ▸ hz)
    simp [this]
  obtain ⟨k2, r, e2, s2, f2, a1, a2, a3, a4, a5, a6⟩ :=
    mergesort_list_ok fuel (ys ++ [l]) (setNext h l 0) _ hseg hndx
      (fun a ha => hnz a (List.mem_cons_of_mem _ ha)) hf
  have hleq : leq (setNext h l 0) = leq h := rfl
  rw [hleq] at s2
  have pS := List.mergeSort_perm (ys ++ [l]) (leq h)
  have hhS : head ∉ (ys ++ [l]).mergeSort (leq h) := fun c => hhx (pS.mem_iff.1 c)
  have hndS : (head :: (ys ++ [l]).mergeSort (leq h)).Nodup :=
    List.nodup_cons.2 ⟨hhS, pS.nodup_iff.2 hndx⟩
  have hnzS : ∀ a ∈ (ys ++ [l]).mergeSort (leq h), a ≠ 0 :=
    fun a ha => hnz a (List.mem_cons_of_mem _ (pS.mem_iff.1 ha))
  have s3 : Seg (setNext k2 head r).next ((setNext k2 head r).next head)
      ((ys ++ [l]).mergeSort (leq h)) 0 := by
    simp only [setNext_next, if_true]
    refine Seg_congr k2.next _ _ _ _ (fun z hz => ?_) s2
    have : z ≠ head := fun c => hhS (c ▸ hz)
    simp [this]
  obtain ⟨k4, e4, d4, kn, kp, b2, b3, b4, b5, b6⟩ :=
    q_sort_relink_ok _ (setNext k2 head r) head fuel s3 hndS hnzS
      (by rw [pS.length_eq]; exact hf)
  obtain ⟨S', t, hS⟩ : ∃ S' t, (ys ++ [l]).mergeSort (leq h) = S' ++ [t] := by
    rcases List.eq_nil_or_concat ((ys ++ [l]).mergeSort (leq h)) with c | ⟨S', t, c⟩
    · have := pS.length_eq; rw [c] at this; simp at this
    · exact ⟨S', t, by simpa using c⟩
  rw [hS] at e4 d4 hndS hhS
  rw [List.getLastD_concat] at e4
  have hth : t ≠ head := fun c => hhS (by simp [c])
  have htS : t ∉ head :: S' := by
    intro c
    rcases List.mem_cons.1 c with c | c
    · exact hth c
    · have := (List.nodup_append.1 (List.nodup_cons.1 hndS).2).2.2 c; simp at this
  refine ⟨setPrev (setNext k4 t head) head t, ?_, ?_, by simpa using b2.trans a2,
    by simpa using b3.trans a3, by simpa using b4.trans a4, by simpa using b5.trans a5,
    by simpa using b6.trans a6⟩
  · have hle : list_empty h head = false := by simpa [list_empty] using hnh
    simp only [q_sort, hh, hle, hpl, false_or, Bool.false_eq_true, if_false, e2, e4]
  · rw [WF_iff_DL, hS]
    refine ⟨hndS, ?_, ?_, ?_, ?_⟩
    · intro a ha
      rw [← hS] at ha
      rcases List.mem_cons.1 ha with c | c
      · exact c ▸ hh
      · exact hnzS a c
    · have e1 : S' ++ [t] ++ [head] = S' ++ [t, head] := by simp
      rw [e1, DL_snoc]
      refine ⟨?_, by simp, by simp⟩
      apply DL_frame k4 _ head _ _ _ d4
      · intro z hz
        rw [← List.cons_append, List.dropLast_concat] at hz
        have : z ≠ t := fun c => htS (c ▸ hz)
        simp [this]
      · intro z hz
        have : z ≠ head := fun c => hhS (c ▸ hz)
        simp [this]
    · intro a ha
      rw [← hS] at ha
      have : a ∈ head :: (ys ++ [l]) := by
        rcases List.mem_cons.1 ha with c | c
        · simp [c]
        · exact List.mem_cons_of_mem _ (pS.mem_iff.1 c)
      have hl := hlive a this
      simpa [b5, a5] using hl
    · rw [← hS]
      exact Owned_of_perm h _ head (ys ++ [l]) _ pS (by simpa using b2.trans a2)
        (fun _ _ hm => by simpa [b5, a5] using hm) hvlive


/-- C6: on a well-formed non-empty queue `q_sort` returns a well-formed queue
whose links are a permutation of the original links (none lost or
duplicated), whose forward sequence of values is non-decreasing for `strcmp`,
and whose value pointers and string bytes are unaltered; the queue
`["banana","apple","cherry"]` becomes `["apple","banana","cherry"]`. -/
theorem C6_sort_sorted_permutation (h : Heap) (head : Nat) (xs : List Nat) (fuel : Nat)
    (hw : WF h head xs) (hne : xs ≠ []) (hf : xs.length < fuel) :
    (∃ k S, q_sort fuel h head = some k ∧ WF k head S ∧ S.Perm xs ∧
      (values k S).Pairwise (fun a b => strcmp a b ≤ 0) ∧
      (values k S).Perm (values h xs) ∧
      k.value = h.value ∧ k.mem = h.mem ∧ k.size = h.size ∧ k.live = h.live ∧
      k.freed = h.freed) ∧
    (q_sort 4 (mkQueue [[98, 97, 110, 97, 110, 97], [97, 112, 112, 108, 101],
        [99, 104, 101, 114, 114, 121]]) 1).map (fun k => toValues k 1 4 (k.next 1)) =
      some [[97, 112, 112, 108, 101], [98, 97, 110, 97, 110, 97],
        [99, 104, 101, 114, 114, 121]] := by
  refine ⟨?_, by decide⟩
  obtain ⟨k, e, w, a2, a3, a4, a5, a6⟩ := q_sort_ok h head xs fuel hw hne hf
  have hv : valueOf k = valueOf h := valueOf_congr h k a2 a3 a4
  have pS := List.mergeSort_perm xs (leq h)
  refine ⟨k, xs.mergeSort (leq h), e, w, pS, ?_, ?_, a2, a3, a4, a5, a6⟩
  · rw [values, hv, List.pairwise_map]
    have : (xs.mergeSort (leq h)).Pairwise (fun a b => leq h a b = true) :=
      List.sorted_mergeSort (leq_trans h) (leq_total h) xs
    exact this.imp (fun hab => by simpa [leq] using hab)
  · rw [values, hv]
    exact pS.map _

theorem C6_sort_sorted_permutation_witness :
    (∃ k S, q_sort 4 (mkQueue [[98], [97], [99]]) 1 = some k ∧ WF k 1 S ∧ S.Perm [10, 20, 30] ∧
      (values k S).Pairwise (fun a b => strcmp a b ≤ 0) ∧
      (values k S).Perm (values (mkQueue [[98], [97], [99]]) [10, 20, 30]) ∧
      k.value = (mkQueue [[98], [97], [99]]).value ∧ k.mem = (mkQueue [[98], [97], [99]]).mem ∧
      k.size = (mkQueue [[98], [97], [99]]).size ∧ k.live = (mkQueue [[98], [97], [99]]).live ∧
      k.freed = (mkQueue [[98], [97], [99]]).freed) ∧
    (q_sort 4 (mkQueue [[98, 97, 110, 97, 110, 97], [97, 112, 112, 108, 101],
        [99, 104, 101, 114, 114, 121]]) 1).map (fun k => toValues k 1 4 (k.next 1)) =
      some [[97, 112, 112, 108, 101], [98, 97, 110, 97, 110, 97],
        [99, 104, 101, 114, 114, 121]] :=
  C6_sort_sorted_permutation (mkQueue [[98], [97], [99]]) 1 [10, 20, 30] 4
    (by decide) (by decide) (by decide)


/-! ## Traversals -/

theorem Path_unique (f : Nat → Nat) (head : Nat) (xs : List Nat) :
    ∀ (a : Nat) (ys : List Nat), Path f a (xs ++ [head]) → Path f a (ys ++ [head]) →
      head ∉ xs → head ∉ ys → xs = ys := by
  induction xs with
  | nil =>
    intro a ys h1 h2 _ hy
    cases ys with
    | nil => rfl
    | cons y ys =>
      simp only [List.nil_append, List.cons_append, Path_cons, Path_nil, and_true] at h1 h2
      exact absurd (by rw [← h2.1, h1]; simp) hy
  | cons x xs ih =>
    intro a ys h1 h2 hx hy
    cases ys with
    | nil =>
      simp only [List.nil_append, List.cons_append, Path_cons, Path_nil, and_true] at h1 h2
      exact absurd (by rw [← h1.1, h2]; simp) hx
    | cons y ys =>
      simp only [List.cons_append, Path_cons] at h1 h2
      have hxy : x = y := h1.1.symm.trans h2.1
      subst hxy
      rw [ih x ys h1.2 h2.2 (fun c => hx (List.mem_cons_of_mem _ c))
        (fun c => hy (List.mem_cons_of_mem _ c))]

/-- The forward sequence of a well-formed queue is determined by the heap. -/
theorem WF_unique (h : Heap) (head : Nat) (xs ys : List Nat) (hx : WF h head xs)
    (hy : WF h head ys) : xs = ys :=
  Path_unique h.next head xs head ys hx.2.2.1 hy.2.2.1 (List.nodup_cons.1 hx.1).1
    (List.nodup_cons.1 hy.1).1

theorem toValues_path (h : Heap) (head : Nat) (xs : List Nat) (hx : head ∉ xs) :
    ∀ (a fuel : Nat), Path h.next a (xs ++ [head]) → xs.length < fuel →
      toValues h head fuel (h.next a) = values h xs := by
  induction xs with
  | nil =>
    intro a fuel hp hf
    obtain ⟨f, rfl⟩ : ∃ f, fuel = f + 1 := ⟨fuel - 1, by simp at hf; omega⟩
    simp only [List.nil_append, Path_cons, Path_nil, and_true] at hp
    simp [toValues, hp, values]
  | cons x xs ih =>
    intro a fuel hp hf
    obtain ⟨f, rfl⟩ : ∃ f, fuel = f + 1 := ⟨fuel - 1, by simp at hf; omega⟩
    simp only [List.cons_append, Path_cons] at hp
    have hxh : x ≠ head := fun c => hx (by simp [c])
    simp only [toValues, hp.1, hxh, if_false, values, List.map_cons]
    rw [ih (fun c => hx (List.mem_cons_of_mem _ c)) x f hp.2 (by simp at hf; omega)]
    rfl

/-- Reading a well-formed queue forwards from the sentinel yields the values
of its links, in order. -/
theorem toValues_WF (h : Heap) (head : Nat) (xs : List Nat) (fuel : Nat) (hw : WF h head xs)
    (hf : xs.length < fuel) : toValues h head fuel (h.next head) = values h xs :=
  toValues_path h head xs (List.nodup_cons.1 hw.1).1 head fuel hw.2.2.1 hf


/-! ## `q_delete_mid` -/

theorem DL_prev_mem (h : Heap) (x : Nat) (rest : List Nat) :
    ∀ (A : List Nat) (a : Nat), DL h a (A ++ x :: rest) → h.prev x ∈ a :: A := by
  intro A
  induction A with
  | nil => intro a hd; simp only [List.nil_append, DL_cons] at hd; simp [hd.2.1]
  | cons c A ih =>
    intro a hd
    simp only [List.cons_append, DL_cons] at hd
    exact List.mem_cons_of_mem _ (ih c hd.2.2)

theorem list_del_DL (h : Heap) (t x : Nat) (B : List Nat) :
    ∀ (A : List Nat) (a : Nat), (a :: A ++ x :: B).Nodup → t ∉ A ++ x :: B →
      DL h a (A ++ x :: B ++ [t]) → DL (list_del h x) a (A ++ B ++ [t]) := by
  intro A
  induction A with
  | nil =>
    intro a hnd ht hd
    simp only [List.nil_append, List.cons_append, DL_cons] at hd
    obtain ⟨h1, h2, h3⟩ := hd
    cases B with
    | nil =>
      simp only [List.nil_append, DL_cons, DL_nil, and_true] at h3
      simp [list_del, h2, h3.1]
    | cons b B =>
      simp only [List.cons_append, DL_cons] at h3
      obtain ⟨h4, h5, h6⟩ := h3
      have haB : a ∉ b :: B := fun c =>
        (List.nodup_cons.1 hnd).1 (List.mem_cons_of_mem _ c)
      have hbB : b ∉ B :=
        (List.nodup_cons.1 (List.nodup_cons.1 (List.nodup_cons.1 hnd).2).2).1
      have hbt : b ≠ t := fun c => ht (by simp [c])
      simp only [List.nil_append, List.cons_append, DL_cons]
      refine ⟨by simp [list_del, h2, h4], by simp [list_del, h2, h4], ?_⟩
      apply DL_frame h _ b _ _ _ h6
      · intro z hz
        rw [← List.cons_append, List.dropLast_concat] at hz
        have hza : z ≠ a := fun c => haB (c ▸ hz)
        simp [list_del, h2, hza]
      · intro z hz
        have hzb : z ≠ b := fun c => by
          subst c
          rcases List.mem_append.1 hz with hz | hz
          · exact hbB hz
          · simp at hz; exact hbt hz
        simp [list_del, h4, hzb]
  | cons c A ih =>
    intro a hnd ht hd
    simp only [List.cons_append, DL_cons] at hd
    obtain ⟨h1, h2, h3⟩ := hd
    have hnd2 : (c :: A ++ x :: B).Nodup := (List.nodup_cons.1 hnd).2
    have haA : a ∉ c :: A ++ x :: B := (List.nodup_cons.1 hnd).1
    have hp := DL_prev_mem h x (B ++ [t]) A c (by simpa using h3)
    have hap : a ≠ h.prev x := fun e => haA (by
      rw [e]; exact List.mem_append_left _ hp)
    have hn : h.next x ∈ B ++ [t] := by
      have := (DL_iff_paths h c (A ++ x :: B) t).1 (by simpa using h3)
      have hh := (Path_iff_Seg h.next c t (A ++ x :: B)).1 this.1
      rw [Seg_append] at hh
      obtain ⟨m, _, s2⟩ := hh
      obtain ⟨_, s3⟩ := s2
      cases B with
      | nil => simpa using s3
      | cons b B => simp [s3.1]
    have hcn : c ≠ h.next x := fun e => by
      rw [← e] at hn
      rcases List.mem_append.1 hn with hn | hn
      · have := (List.nodup_cons.1 hnd2).1
        exact this (List.mem_append_right _ (List.mem_cons_of_mem _ hn))
      · simp at hn; exact ht (by simp [hn])
    simp only [List.cons_append, DL_cons]
    refine ⟨by simp [list_del, hap, h1], by simp [list_del, hcn, h2], ?_⟩
    exact ih c hnd2 (fun e => ht (List.mem_cons_of_mem _ e)) h3

theorem Path_index (f : Nat → Nat) :
    ∀ (L : List Nat) (a i : Nat), Path f a L → i < L.length →
      f ((a :: L).getD i 0) = L.getD i 0 := by
  intro L
  induction L with
  | nil => intro a i _ hi; simp at hi
  | cons x L ih =>
    intro a i hp hi
    cases i with
    | zero => simpa using hp.1
    | succ i => simpa using ih x i hp.2 (by simpa using hi)

theorem q_delete_mid_loop_ok (h : Heap) (head : Nat) (xs : List Nat) (hx : head ∉ xs)
    (hp : Path h.next head (xs ++ [head])) (hne : xs ≠ []) :
    ∀ (fuel j : Nat), 2 * j < xs.length → (xs.length + 1) / 2 - j ≤ fuel →
      q_delete_mid_loop h head fuel ((head :: xs).getD j 0) ((head :: xs).getD (2 * j) 0) =
        some (xs.getD ((xs.length - 1) / 2) 0) := by
  have hlen : 0 < xs.length := List.length_pos.2 hne
  have hnext : ∀ i, i ≤ xs.length →
      h.next ((head :: (xs ++ [head])).getD i 0) = (xs ++ [head]).getD i 0 :=
    fun i hi => Path_index h.next _ head i hp (by simp; omega)
  have hc : ∀ i, i ≤ xs.length → (head :: (xs ++ [head])).getD i 0 = (head :: xs).getD i 0 := by
    intro i hi
    simp only [List.getD_eq_getElem?_getD]
    rw [← List.cons_append, List.getElem?_append_left (by simp; omega)]
  have hxs : ∀ i, i < xs.length → (xs ++ [head]).getD i 0 = xs.getD i 0 := by
    intro i hi
    rw [List.getD_eq_getElem _ _ (by simp; omega), List.getD_eq_getElem _ _ hi,
      List.getElem_append_left hi]
  have hlast : (xs ++ [head]).getD xs.length 0 = head := by
    rw [List.getD_eq_getElem _ _ (by simp)]; simp
  have hmem : ∀ i, i < xs.length → xs.getD i 0 ≠ head := by
    intro i hi c
    rw [List.getD_eq_getElem _ _ hi] at c
    exact hx (c ▸ List.getElem_mem _)
  have hcons : ∀ i, (head :: xs).getD (i + 1) 0 = xs.getD i 0 := fun i => by simp
  intro fuel
  induction fuel with
  | zero => intro j hj hf; omega
  | succ fuel ih =>
    intro j hj hf
    have s1 : h.next ((head :: xs).getD j 0) = xs.getD j 0 := by
      rw [← hc j (by omega), hnext j (by omega), hxs j (by omega)]
    have f1 : h.next ((head :: xs).getD (2 * j) 0) = xs.getD (2 * j) 0 := by
      rw [← hc _ (by omega), hnext _ (by omega), hxs _ (by omega)]
    have f2 : h.next (xs.getD (2 * j) 0) = (xs ++ [head]).getD (2 * j + 1) 0 := by
      rw [← hcons, ← hc _ (by omega), hnext _ (by omega)]
    simp only [q_delete_mid_loop, s1, f1, f2]
    by_cases hcont : 2 * j + 2 < xs.length
    · have g1 : (xs ++ [head]).getD (2 * j + 1) 0 = xs.getD (2 * j + 1) 0 := hxs _ (by omega)
      have g2 : h.next (xs.getD (2 * j + 1) 0) = xs.getD (2 * j + 2) 0 := by
        rw [← hcons, ← hc _ (by omega), hnext _ (by omega), hxs _ (by omega)]
      rw [g1, g2, if_pos ⟨hmem _ (by omega), hmem _ (by omega)⟩]
      have := ih (j + 1) (by omega) (by omega)
      rw [hcons, show 2 * (j + 1) = (2 * j + 1) + 1 by ring, hcons] at this
      exact this
    · have hj2 : (xs.length - 1) / 2 = j := by omega
      rw [hj2]
      by_cases hlast2 : 2 * j + 1 = xs.length
      · rw [hlast2, hlast]; simp
      · have g1 : (xs ++ [head]).getD (2 * j + 1) 0 = xs.getD (2 * j + 1) 0 := hxs _ (by omega)
        have g2 : h.next (xs.getD (2 * j + 1) 0) = head := by
          rw [← hcons, ← hc _ (by omega), hnext _ (by omega)]
          have : 2 * j + 1 + 1 = xs.length := by omega
          rw [this, hlast]
        rw [g1, g2]; simp


theorem q_delete_mid_ok (h : Heap) (head : Nat) (xs : List Nat) (fuel : Nat)
    (hw : WF h head xs) (hne : xs ≠ []) (hf : xs.length < fuel) :
    ∃ k, q_delete_mid fuel h head = some (k, true) ∧
      WF k head (xs.eraseIdx ((xs.length - 1) / 2)) ∧
      k.value = h.value ∧ k.mem = h.mem ∧ k.size = h.size ∧
      k.freed = xs.getD ((xs.length - 1) / 2) 0 ::
        h.value (xs.getD ((xs.length - 1) / 2) 0) :: h.freed ∧
      k.live = (h.live.erase (h.value (xs.getD ((xs.length - 1) / 2) 0))).erase
        (xs.getD ((xs.length - 1) / 2) 0) := by
  have hh := WF_head_ne_zero h head xs hw
  have hlen : 0 < xs.length := List.length_pos.2 hne
  have hle : list_empty h head = false := by
    cases xs with
    | nil => exact absurd rfl hne
    | cons y ys =>
      obtain ⟨h1, h2, _⟩ := WF_next_head h head y ys hw
      simp [list_empty, h1, h2]
  have hw' := (WF_iff_DL h head xs).1 hw
  obtain ⟨hnd, hnz, hd, hlive, ho⟩ := hw'
  have hhx : head ∉ xs := (List.nodup_cons.1 hnd).1
  have hloop := q_delete_mid_loop_ok h head xs hhx hw.2.2.1 hne fuel 0 (by omega) (by omega)
  simp only [Nat.mul_zero, List.getD_cons_zero] at hloop
  obtain ⟨hcut, _⟩ := list_cut xs ((xs.length - 1) / 2) (by omega)
  generalize hxdef : xs.getD ((xs.length - 1) / 2) 0 = x at hloop hcut ⊢
  generalize hAdef : xs.take ((xs.length - 1) / 2) = A at hcut
  generalize hBdef : xs.drop ((xs.length - 1) / 2 + 1) = B at hcut
  have herase : xs.eraseIdx ((xs.length - 1) / 2) = A ++ B := by
    rw [List.eraseIdx_eq_take_drop_succ, hAdef, hBdef]
  have hsub : (A ++ B).Sublist xs := by
    rw [hcut, List.append_assoc]
    exact List.Sublist.append (List.Sublist.refl _) (List.sublist_append_right _ _)
  have hxmem : x ∈ xs := by rw [hcut]; simp
  have hxAB : x ∉ A ++ B := by
    have := hnd
    rw [hcut] at this
    have h2 := (List.nodup_cons.1 this).2
    rw [List.append_assoc, List.singleton_append] at h2
    have := (List.nodup_middle.1 h2)
    exact (List.nodup_cons.1 this).1
  refine ⟨free (free (list_del h x) ((list_del h x).value (list_entry x))) (list_entry x),
    ?_, ?_, rfl, rfl, rfl, rfl, rfl⟩
  · simp only [q_delete_mid, hh, hle, hloop, false_or, Bool.false_eq_true, if_false]
  · rw [herase, WF_iff_DL]
    refine ⟨hnd.sublist (hsub.cons₂ head), fun a ha => hnz a ((hsub.cons₂ head).subset ha),
      ?_, ?_, ?_⟩
    · refine DL_congr (list_del h x) _ head _ rfl rfl ?_
      apply list_del_DL h head x B A head
      · have := hnd; rw [hcut] at this; simpa using this
      · have := hhx; rw [hcut] at this; simpa using this
      · have := hd; rw [hcut] at this; simpa using this
    · intro a ha
      have hax : a ∈ head :: xs := (hsub.cons₂ head).subset ha
      have h1 : a ≠ x := by
        intro c
        rcases List.mem_cons.1 ha with e | e
        · exact hhx (e ▸ c ▸ hxmem)
        · exact hxAB (c ▸ e)
      have h2 : a ≠ h.value x := fun c => (ho.1 x hxmem).2 (c ▸ hax)
      simp only [free, list_del, list_entry, setNext_live, setPrev_live, setNext_value,
        setPrev_value]
      exact (List.mem_erase_of_ne h1).2 ((List.mem_erase_of_ne h2).2 (hlive a hax))
    · refine Owned_of_perm h _ head (A ++ B) (A ++ B) (List.Perm.refl _) rfl ?_
        (Owned_of_sublist h head xs (A ++ B) hsub ho)
      intro a ha hm
      have hax : a ∈ xs := hsub.subset ha
      have h1 : h.value a ≠ x := fun c =>
        (ho.1 a hax).2 (c ▸ List.mem_cons_of_mem _ hxmem)
      have h2 : h.value a ≠ h.value x := by
        intro c
        have := List.inj_on_of_nodup_map ho.2 hax hxmem c
        exact hxAB (this ▸ ha)
      simp only [free, list_del, list_entry, setNext_live, setPrev_live, setNext_value,
        setPrev_value]
      exact (List.mem_erase_of_ne h1).2 ((List.mem_erase_of_ne h2).2 hm)

/-- C8: on a well-formed queue of `n >= 1` elements `q_delete_mid` returns
true, unlinks and frees exactly the element at 0-based index `(n - 1) / 2`
and keeps all other elements in order.  For odd `n` and for `n = 1` this is
index `floor(n/2)`; for even `n` it is one short of it: six elements
`[v0..v5]` lose `v2` (not `v3`) and two elements lose `v0` (not `v1`). -/
theorem C8_delete_mid_index (h : Heap) (head : Nat) (xs : List Nat) (fuel : Nat)
    (hw : WF h head xs) (hne : xs ≠ []) (hf : xs.length < fuel) :
    (∃ k, q_delete_mid fuel h head = some (k, true) ∧
      WF k head (xs.eraseIdx ((xs.length - 1) / 2)) ∧
      k.value = h.value ∧ k.mem = h.mem ∧ k.size = h.size ∧
      k.freed = xs.getD ((xs.length - 1) / 2) 0 ::
        h.value (xs.getD ((xs.length - 1) / 2) 0) :: h.freed) ∧
    (xs.length % 2 = 1 → (xs.length - 1) / 2 = xs.length / 2) ∧
    (xs.length % 2 = 0 → (xs.length - 1) / 2 + 1 = xs.length / 2) ∧
    (q_delete_mid 7 (mkQueue [[48], [49], [50], [51], [52], [53]]) 1).map
        (fun r => (r.2, toValues r.1 1 7 (r.1.next 1))) =
      some (true, [[48], [49], [51], [52], [53]]) ∧
    (q_delete_mid 7 (mkQueue [[48], [49]]) 1).map (fun r => (r.2, toValues r.1 1 7 (r.1.next 1))) =
      some (true, [[49]]) ∧
    (q_delete_mid 7 (mkQueue [[48]]) 1).map (fun r => (r.2, toValues r.1 1 7 (r.1.next 1))) =
      some (true, []) := by
  have hlen : 0 < xs.length := List.length_pos.2 hne
  obtain ⟨k, e, w, a1, a2, a3, a4, _⟩ := q_delete_mid_ok h head xs fuel hw hne hf
  exact ⟨⟨k, e, w, a1, a2, a3, a4⟩, fun _ => by omega, fun _ => by omega, by decide, by decide,
    by decide⟩

theorem C8_delete_mid_index_witness :
    (∃ k, q_delete_mid 5 (mkQueue [[48], [49], [50], [51]]) 1 = some (k, true) ∧
      WF k 1 ([10, 20, 30, 40].eraseIdx (([10, 20, 30, 40].length - 1) / 2)) ∧
      k.value = (mkQueue [[48], [49], [50], [51]]).value ∧
      k.mem = (mkQueue [[48], [49], [50], [51]]).mem ∧
      k.size = (mkQueue [[48], [49], [50], [51]]).size ∧
      k.freed = [10, 20, 30, 40].getD (([10, 20, 30, 40].length - 1) / 2) 0 ::
        (mkQueue [[48], [49], [50], [51]]).value
          ([10, 20, 30, 40].getD (([10, 20, 30, 40].length - 1) / 2) 0) ::
        (mkQueue [[48], [49], [50], [51]]).freed) ∧
    ([10, 20, 30, 40].length % 2 = 1 →
      ([10, 20, 30, 40].length - 1) / 2 = [10, 20, 30, 40].length / 2) ∧
    ([10, 20, 30, 40].length % 2 = 0 →
      ([10, 20, 30, 40].length - 1) / 2 + 1 = [10, 20, 30, 40].length / 2) ∧
    (q_delete_mid 7 (mkQueue [[48], [49], [50], [51], [52], [53]]) 1).map
        (fun r => (r.2, toValues r.1 1 7 (r.1.next 1))) =
      some (true, [[48], [49], [51], [52], [53]]) ∧
    (q_delete_mid 7 (mkQueue [[48], [49]]) 1).map (fun r => (r.2, toValues r.1 1 7 (r.1.next 1))) =
      some (true, [[49]]) ∧
    (q_delete_mid 7 (mkQueue [[48]]) 1).map (fun r => (r.2, toValues r.1 1 7 (r.1.next 1))) =
      some (true, []) :=
  C8_delete_mid_index (mkQueue [[48], [49], [50], [51]]) 1 [10, 20, 30, 40] 5
    (by decide) (by decide) (by decide)


/-! ## `q_swap`: the `prev` links -/

theorem swapPairs_append_even : ∀ (Q t : List Nat), Q.length % 2 = 0 →
    swapPairs (Q ++ t) = swapPairs Q ++ swapPairs t
  | [], t, _ => by simp [swapPairs]
  | [_], _, h => by simp at h
  | a :: b :: Q, t, h => by
    have : Q.length % 2 = 0 := by simp at h; omega
    simp [swapPairs, swapPairs_append_even Q t this]

theorem swapPairs_short (t : List Nat) (ht : t.length ≤ 1) : swapPairs t = t := by
  match t, ht with
  | [], _ => rfl
  | [_], _ => rfl

theorem DL_concat (h : Heap) (c : Nat) :
    ∀ (D : List Nat) (a : Nat),
      DL h a (D ++ [c]) ↔ DL h a D ∧ h.next (D.getLastD a) = c ∧ h.prev c = D.getLastD a := by
  intro D
  induction D with
  | nil => intro a; simp
  | cons d D ih =>
    intro a
    simp only [List.cons_append, DL_cons, ih d, List.getLastD_cons, and_assoc]

theorem getLastD_mem (D : List Nat) (a : Nat) : D.getLastD a ∈ a :: D := by
  induction D generalizing a with
  | nil => simp
  | cons d D ih =>
    rw [List.getLastD_cons]
    exact List.mem_cons_of_mem _ (ih d)

theorem q_swap_loop_prev (head : Nat) :
    ∀ (fuel : Nat) (Q tail : List Nat) (h : Heap) (p n : Nat),
      Q.length % 2 = 0 → tail.length ≤ 1 → (p :: (Q ++ tail)).Nodup → head ∉ Q ++ tail →
      Path h.next p (Q ++ tail ++ [head]) → Q.length + tail.length < fuel →
      ∃ k, q_swap_loop head fuel h (h.next p) p (h.next (h.next p)) n =
          some (k, (tail ++ [head]).headD 0, (swapPairs Q).getLastD p, n + Q.length / 2) ∧
        DL k p (swapPairs Q) ∧ Path k.next p (swapPairs Q ++ tail ++ [head]) ∧
        (∀ z, z ∉ Q → k.prev z = h.prev z) ∧ (∀ z, z ∉ p :: Q → k.next z = h.next z) ∧
        k.value = h.value ∧ k.mem = h.mem ∧ k.size = h.size ∧ k.live = h.live ∧
        k.freed = h.freed := by
  intro fuel
  induction fuel with
  | zero => intro Q tail h p n _ _ _ _ _ hf; simp at hf
  | succ fuel ih =>
    intro Q tail h p n hQ ht hnd hh hp hf
    match Q, hQ, hnd, hh, hp, hf with
    | [], _, hnd, hh, hp, _ =>
      refine ⟨h, ?_, trivial, by simpa [swapPairs] using hp, fun _ _ => rfl, fun _ _ => rfl,
        rfl, rfl, rfl, rfl, rfl⟩
      match tail, ht, hh, hp with
      | [], _, _, hp =>
        simp only [List.nil_append, Path_cons, Path_nil, and_true] at hp
        simp [q_swap_loop, hp, swapPairs]
      | [r], _, hh, hp =>
        simp only [List.nil_append, List.cons_append, Path_cons, Path_nil, and_true] at hp
        simp [q_swap_loop, hp.1, hp.2, swapPairs]
    | [_], hQ, _, _, _, _ => simp at hQ
    | a :: b :: Q', hQ, hnd, hh, hp, hf =>
      simp only [List.cons_append, Path_cons] at hp
      obtain ⟨hpa, hab, hrest⟩ := hp
      simp only [List.cons_append, List.nodup_cons, List.mem_cons, not_or] at hnd hh
      obtain ⟨⟨hpa', hpb, hpR⟩, ⟨hab', haR⟩, hbR, hR⟩ := hnd
      have hah : a ≠ head := fun c => hh.1 c.symm
      have hbh : b ≠ head := fun c => hh.2.1 c.symm
      have hQ' : Q'.length % 2 = 0 := by simp at hQ; omega
      obtain ⟨k, hk, hdl, hpath, hfp, hfn, e1, e2, e3, e4, e5⟩ :=
        ih Q' tail (setNext (setPrev (setNext (setPrev (setNext h a (h.next b)) a b) b a) b p) p b)
          a (n + 1) hQ' ht (List.nodup_cons.2 ⟨haR, hR⟩) hh.2.2
          (Path_retarget h.next _ a b head (Q' ++ tail)
              (by simp [hpa', Ne.symm hpa', hab', Ne.symm hab'])
              (fun z hz => by
                have h1 : z ≠ p := fun c => hpR (c ▸ hz)
                have h2 : z ≠ a := fun c => haR (c ▸ hz)
                have h3 : z ≠ b := fun c => hbR (c ▸ hz)
                simp [h1, h2, h3]) hrest)
          (by simp at hf ⊢; omega)
      have haQ : a ∉ Q' := fun c => haR (List.mem_append_left _ c)
      have hbQ : b ∉ Q' := fun c => hbR (List.mem_append_left _ c)
      have hpQ : p ∉ Q' := fun c => hpR (List.mem_append_left _ c)
      have hkp : k.next p = b := by
        rw [hfn p (by simp [hpa', hpQ])]; simp
      have hkb : k.next b = a := by
        rw [hfn b (by simp [Ne.symm hab', hbQ])]; simp [Ne.symm hpb]
      refine ⟨k, ?_, ?_, ?_, ?_, ?_, by simpa using e1, by simpa using e2, by simpa using e3,
        by simpa using e4, by simpa using e5⟩
      · rw [show n + (a :: b :: Q').length / 2 = n + 1 + Q'.length / 2 by simp; omega]
        simp only [swapPairs, List.getLastD_cons]
        rw [← hk]
        simp only [q_swap_loop, hpa, hab, ne_eq, hah, hbh, not_false_eq_true, and_self, if_true]
      · simp only [swapPairs, DL_cons]
        refine ⟨hkp, ?_, hkb, ?_, hdl⟩
        · rw [hfp b hbQ]; simp
        · rw [hfp a haQ]; simp [hab']
      · simp only [swapPairs, List.cons_append, Path_cons]
        exact ⟨hkp, hkb, hpath⟩
      · intro z hz
        simp only [List.mem_cons, not_or] at hz
        rw [hfp z hz.2.2]
        simp [hz.1, hz.2.1]
      · intro z hz
        simp only [List.mem_cons, not_or] at hz
        rw [hfn z (by simp [hz.2.1, hz.2.2.2])]
        simp [hz.1, hz.2.1, hz.2.2.1]


theorem Path_mid (f : Nat → Nat) (x y : Nat) (M : List Nat) :
    ∀ (L : List Nat) (a : Nat), Path f a (L ++ x :: y :: M) → f x = y := by
  intro L
  induction L with
  | nil => intro a hp; simp only [List.nil_append, Path_cons] at hp; exact hp.2.1
  | cons c L ih => intro a hp; exact ih c hp.2

theorem Path_last (f : Nat → Nat) (c : Nat) :
    ∀ (D : List Nat) (a : Nat), Path f a (D ++ [c]) → f (D.getLastD a) = c := by
  intro D
  induction D with
  | nil => intro a hp; simpa using hp
  | cons d D ih => intro a hp; rw [List.getLastD_cons]; exact ih d hp.2

theorem even_split (xs : List Nat) :
    ∃ Q tail, xs = Q ++ tail ∧ Q.length % 2 = 0 ∧ Q.length / 2 = xs.length / 2 ∧
      tail.length ≤ 1 ∧ Q.length + tail.length = xs.length := by
  refine ⟨xs.take (2 * (xs.length / 2)), xs.drop (2 * (xs.length / 2)),
    (List.take_append_drop _ _).symm, ?_, ?_, ?_, ?_⟩
  · rw [List.length_take]; omega
  · rw [List.length_take]; omega
  · rw [List.length_drop]; omega
  · rw [List.length_take, List.length_drop]; omega

theorem even_last_two (Q : List Nat) (hQ : Q.length % 2 = 0) (hne : 2 ≤ Q.length) :
    ∃ Q2 a b, Q = Q2 ++ [a, b] ∧ Q2.length % 2 = 0 := by
  rcases List.eq_nil_or_concat Q with c | ⟨Q1, b, c⟩
  · subst c; simp at hne
  · rcases List.eq_nil_or_concat Q1 with c1 | ⟨Q2, a, c1⟩
    · subst c1; subst c; simp at hne
    · subst c1; subst c
      refine ⟨Q2, a, b, by simp, ?_⟩
      simp at hQ; omega

theorem q_swap_links (h : Heap) (head : Nat) (xs : List Nat) (fuel : Nat)
    (hw : WF h head xs) (hf : xs.length < fuel) :
    ∃ k, q_swap fuel h head = some k ∧
      ((xs.length / 2) % 2 = 1 ∨ xs.length < 2 → WF k head (swapPairs xs)) ∧
      ((xs.length / 2) % 2 = 0 → 2 ≤ xs.length → ¬ LinkInv k head (swapPairs xs)) := by
  have hh := WF_head_ne_zero h head xs hw
  obtain ⟨hnd, hnz, hd, hlive, ho⟩ := (WF_iff_DL h head xs).1 hw
  obtain ⟨Q, tail, rfl, hQ, hQ2, ht, hlen⟩ := even_split xs
  have hhx : head ∉ Q ++ tail := (List.nodup_cons.1 hnd).1
  obtain ⟨k0, hk, hdl, hpath, hfp, hfn, e1, e2, e3, e4, e5⟩ :=
    q_swap_loop_prev head fuel Q tail h head 0 hQ ht hnd hhx hw.2.2.1 (by omega)
  have hsw : swapPairs (Q ++ tail) = swapPairs Q ++ tail := by
    rw [swapPairs_append_even Q tail hQ, swapPairs_short tail ht]
  have pQ := swapPairs_perm Q
  have hperm : (swapPairs Q ++ tail).Perm (Q ++ tail) := pQ.append_right tail
  have hhD : head ∉ swapPairs Q := fun c => hhx (List.mem_append_left _ (pQ.mem_iff.1 c))
  have hprevhead : h.prev head = (Q ++ tail).getLastD head := ((DL_concat h head _ head).1 hd).2.2
  -- the parts of well-formedness that do not depend on the links
  have hrest : ∀ k : Heap, k.value = h.value → k.live = h.live →
      DL k head (swapPairs Q ++ tail ++ [head]) → WF k head (swapPairs Q ++ tail) := by
    intro k kv kl kd
    rw [WF_iff_DL]
    refine ⟨(List.Perm.nodup_iff (hperm.cons head)).2 hnd,
      fun a ha => hnz a ((hperm.cons head).mem_iff.1 ha), kd,
      fun a ha => by rw [kl]; exact hlive a ((hperm.cons head).mem_iff.1 ha),
      Owned_of_perm h k head (Q ++ tail) _ hperm kv (fun _ _ hm => by rw [kl]; exact hm) ho⟩
  simp only [q_swap, hh, if_false, hk, Nat.zero_add]
  rw [hsw, hQ2]
  by_cases hm : (Q ++ tail).length / 2 % 2 = 0
  · -- the fix-up writes `head->prev = cur`
    refine ⟨setPrev k0 head ((tail ++ [head]).headD 0), by simp only [hm, if_true], ?_, ?_⟩
    · intro hc
      have hn2 : (Q ++ tail).length < 2 := by omega
      have hQnil : Q = [] := by
        apply List.eq_nil_of_length_eq_zero; simp at hn2; omega
      subst hQnil
      simp only [swapPairs, List.nil_append] at hpath hdl hfp ⊢
      apply hrest _ (by simpa using e1) (by simpa using e4)
      match tail, ht, hpath, hprevhead with
      | [], _, hpath, _ =>
        simp only [List.nil_append, Path_cons, Path_nil, and_true] at hpath
        simp [swapPairs, hpath]
      | [r], _, hpath, hprevhead =>
        simp only [List.cons_append, List.nil_append, Path_cons, Path_nil, and_true] at hpath
        have hr : k0.prev r = head := by
          rw [hfp r (by simp)]
          simp only [List.nil_append, List.cons_append, DL_cons] at hd
          exact hd.2.1
        have hrh : r ≠ head := fun c => hhx (by simp [c])
        simp [swapPairs, hpath.1, hpath.2, hr, hrh]
    · intro _ hn2 hinv
      have hQ4 : 2 ≤ Q.length := by omega
      obtain ⟨Q2, a, b, rfl, hQ2e⟩ := even_last_two Q hQ hQ4
      have hD : swapPairs (Q2 ++ [a, b]) = swapPairs Q2 ++ [b, a] := by
        rw [swapPairs_append_even Q2 _ hQ2e]; rfl
      rw [hD] at hpath hinv
      have hba : k0.next b = a := by
        refine Path_mid k0.next b a (tail ++ [head]) (swapPairs Q2) head ?_
        simpa using hpath
      match tail, ht, hpath, hprevhead, hinv with
      | [], _, hpath, _, hinv =>
        have := (hinv.1 head (by simp)).2
        simp only [List.nil_append, List.headD_cons, setPrev_prev, if_true, setPrev_next] at this
        have hfirst : k0.next head ∈ swapPairs Q2 ++ [b, a] := by
          cases hs : swapPairs Q2 with
          | nil => rw [hs] at hpath; simp [hpath.1]
          | cons d D => rw [hs] at hpath; simp [hpath.1]
        rw [this, ← hD] at hfirst
        exact hhD hfirst
      | [r], _, hpath, _, hinv =>
        have hrh : r ≠ head := fun c => hhx (by simp [c])
        have hrQ : r ∉ Q2 ++ [a, b] := fun c => by
          have := (List.nodup_append.1 (List.nodup_cons.1 hnd).2).2.2 c
          simp at this
        have hra : a ≠ r := fun c => hrQ (by simp [c])
        have hpr : h.prev r = b := by
          have h2 := ((DL_concat h r _ head).1 ((DL_concat h head _ head).1 hd).1).2.2
          rw [h2, show Q2 ++ [a, b] = (Q2 ++ [a]) ++ [b] by simp, List.getLastD_concat]
        have := (hinv.1 r (by simp)).2
        simp only [List.cons_append, List.nil_append, List.headD_cons, setPrev_prev,
          setPrev_next, if_neg hrh] at this
        rw [hfp r hrQ, hpr, hba] at this
        exact hra this
  · -- the fix-up writes `cur->prev = prev`
    refine ⟨setPrev k0 ((tail ++ [head]).headD 0) ((swapPairs Q).getLastD head),
      by simp only [hm, if_false], ?_, ?_⟩
    · intro _
      apply hrest _ (by simpa using e1) (by simpa using e4)
      match tail, ht, hpath, hprevhead with
      | [], _, hpath, _ =>
        simp only [List.append_nil, List.nil_append, List.headD_cons] at hpath ⊢
        rw [DL_concat]
        refine ⟨DL_frame k0 _ head _ (fun _ _ => rfl) (fun z hz => ?_) hdl,
          by simpa using Path_last k0.next head _ head hpath, by simp⟩
        have : z ≠ head := fun c => hhD (c ▸ hz)
        simp [this]
      | [r], _, hpath, hprevhead =>
        have hrh : r ≠ head := fun c => hhx (by simp [c])
        have hrD : r ∉ swapPairs Q := fun c => by
          have := (List.nodup_append.1 (List.nodup_cons.1 hnd).2).2.2 (pQ.mem_iff.1 c)
          simp at this
        have hrQ : r ∉ Q := fun c => hrD (pQ.mem_iff.2 c)
        have hp1 : Path k0.next head (swapPairs Q ++ [r]) :=
          ((Path_snoc k0.next head (swapPairs Q) r head).1 (by simpa using hpath)).1
        have hp2 : k0.next r = head :=
          ((Path_snoc k0.next head (swapPairs Q) r head).1 (by simpa using hpath)).2
        simp only [List.cons_append, List.nil_append, List.headD_cons]
        rw [DL_concat, DL_concat]
        refine ⟨⟨DL_frame k0 _ head _ (fun _ _ => rfl) (fun z hz => ?_) hdl,
          by simpa using Path_last k0.next r _ head hp1, by simp⟩, ?_, ?_⟩
        · have : z ≠ r := fun c => hrD (c ▸ hz)
          simp [this]
        · simpa [List.getLastD_concat] using hp2
        · rw [List.getLastD_concat]
          simp only [setPrev_prev, if_neg (Ne.symm hrh)]
          rw [hfp head (fun c => hhx (List.mem_append_left _ c)), hprevhead,
            List.getLastD_concat]
    · intro h1 h2; exact absurd h1 hm


/-- C10: after `q_swap` on a well-formed queue of `n` elements the link
invariant holds when the number of swapped pairs `n / 2` is odd or `n < 2`,
and is broken for every queue with an even, positive number of pairs
(`n = 4, 5, 8, 9, ...`): the fix-up after the loop picks its branch by the
parity of the pair counter.  On `[1,2,3,4]` the sentinel's `prev` becomes the
sentinel itself (backward traversal empty); on `[1,2,3,4,5]` the unmatched
last element keeps the link of `4` as `prev` although its predecessor is now
the link of `3` (backward traversal `[5,4,1,2]`). -/
theorem C10_swap_prev_links (h : Heap) (head : Nat) (xs : List Nat) (fuel : Nat)
    (hw : WF h head xs) (hf : xs.length < fuel) :
    (∃ k, q_swap fuel h head = some k ∧
      ((xs.length / 2) % 2 = 1 ∨ xs.length < 2 →
        WF k head (swapPairs xs) ∧ LinkInv k head (swapPairs xs)) ∧
      ((xs.length / 2) % 2 = 0 → 2 ≤ xs.length → ¬ LinkInv k head (swapPairs xs))) ∧
    (q_swap 5 (mkQueue [[1], [2], [3], [4]]) 1).map
        (fun k => (toValues k 1 5 (k.next 1), k.prev 1, toValuesBack k 1 5 (k.prev 1))) =
      some ([[2], [1], [4], [3]], 1, []) ∧
    (q_swap 6 (mkQueue [[1], [2], [3], [4], [5]]) 1).map
        (fun k => (toValues k 1 6 (k.next 1), k.prev 50, k.next (k.prev 50),
          toValuesBack k 1 6 (k.prev 1))) =
      some ([[2], [1], [4], [3], [5]], 40, 30, [[5], [4], [1], [2]]) := by
  obtain ⟨k, e, good, bad⟩ := q_swap_links h head xs fuel hw hf
  exact ⟨⟨k, e, fun c => ⟨good c, WF_linkInv _ _ _ (good c)⟩, bad⟩, by decide, by decide⟩

theorem C10_swap_prev_links_witness :
    (∃ k, q_swap 5 (mkQueue [[1], [2], [3], [4]]) 1 = some k ∧
      (([10, 20, 30, 40].length / 2) % 2 = 1 ∨ [10, 20, 30, 40].length < 2 →
        WF k 1 (swapPairs [10, 20, 30, 40]) ∧ LinkInv k 1 (swapPairs [10, 20, 30, 40])) ∧
      (([10, 20, 30, 40].length / 2) % 2 = 0 → 2 ≤ [10, 20, 30, 40].length →
        ¬ LinkInv k 1 (swapPairs [10, 20, 30, 40]))) ∧
    (q_swap 5 (mkQueue [[1], [2], [3], [4]]) 1).map
        (fun k => (toValues k 1 5 (k.next 1), k.prev 1, toValuesBack k 1 5 (k.prev 1))) =
      some ([[2], [1], [4], [3]], 1, []) ∧
    (q_swap 6 (mkQueue [[1], [2], [3], [4], [5]]) 1).map
        (fun k => (toValues k 1 6 (k.next 1), k.prev 50, k.next (k.prev 50),
          toValuesBack k 1 6 (k.prev 1))) =
      some ([[2], [1], [4], [3], [5]], 40, 30, [[5], [4], [1], [2]]) :=
  C10_swap_prev_links (mkQueue [[1], [2], [3], [4]]) 1 [10, 20, 30, 40] 5 (by decide) (by decide)


/-! ## `q_reverse` -/

theorem Heap_ext (h k : Heap) (h1 : k.next = h.next) (h2 : k.prev = h.prev)
    (h3 : k.value = h.value) (h4 : k.mem = h.mem) (h5 : k.size = h.size) (h6 : k.live = h.live)
    (h7 : k.freed = h.freed) : k = h := by
  cases h; cases k; simp only [Heap.mk.injEq] at *
  exact ⟨h1, h2, h3, h4, h5, h6, h7⟩

theorem q_reverse_loop_ok (head : Nat) :
    ∀ (R : List Nat) (h : Heap) (c fuel : Nat),
      (c :: R).Nodup → head ∉ R → Path h.next c (R ++ [head]) → R.length < fuel →
      ∃ k, q_reverse_loop head fuel h c = some k ∧
        (∀ z ∈ c :: R, k.next z = h.prev z ∧ k.prev z = h.next z) ∧
        (∀ z, z ∉ c :: R → k.next z = h.next z ∧ k.prev z = h.prev z) ∧
        k.value = h.value ∧ k.mem = h.mem ∧ k.size = h.size ∧ k.live = h.live ∧
        k.freed = h.freed := by
  intro R
  induction R with
  | nil =>
    intro h c fuel _ _ hp hf
    obtain ⟨f, rfl⟩ : ∃ f, fuel = f + 1 := ⟨fuel - 1, by simp at hf; omega⟩
    simp only [List.nil_append, Path_cons, Path_nil, and_true] at hp
    refine ⟨setNext (setPrev h c (h.next c)) c (h.prev c), by simp [q_reverse_loop, hp],
      ?_, ?_, rfl, rfl, rfl, rfl, rfl⟩
    · intro z hz
      simp only [List.mem_singleton] at hz
      subst hz; simp
    · intro z hz
      have : z ≠ c := fun e => hz (by simp [e])
      simp [this]
  | cons r R ih =>
    intro h c fuel hnd hh hp hf
    obtain ⟨f, rfl⟩ : ∃ f, fuel = f + 1 := ⟨fuel - 1, by simp at hf; omega⟩
    simp only [List.cons_append, Path_cons] at hp
    have hrh : r ≠ head := fun e => hh (by simp [e])
    have hnd2 : (r :: R).Nodup := (List.nodup_cons.1 hnd).2
    have hc : c ∉ r :: R := (List.nodup_cons.1 hnd).1
    obtain ⟨k, hk, hon, off, e1, e2, e3, e4, e5⟩ :=
      ih (setNext (setPrev h c (h.next c)) c (h.prev c)) r f hnd2
        (fun e => hh (List.mem_cons_of_mem _ e))
        (Path_congr h.next _ r R head (fun z hz => by
          have : z ≠ c := fun e => hc (e ▸ hz)
          simp [this]) hp.2)
        (by simp at hf; omega)
    refine ⟨k, ?_, ?_, ?_, by simpa using e1, by simpa using e2, by simpa using e3,
      by simpa using e4, by simpa using e5⟩
    · rw [← hk]
      simp [q_reverse_loop, hp.1, hrh]
    · intro z hz
      rcases List.mem_cons.1 hz with e | e
      · subst e
        have := off z hc
        simpa using this
      · have hzc : z ≠ c := fun e' => hc (e' ▸ e)
        have := hon z e
        simpa [hzc] using this
    · intro z hz
      have hzc : z ≠ c := fun e => hz (by simp [e])
      have := off z (fun e => hz (List.mem_cons_of_mem _ e))
      simpa [hzc] using this

theorem q_reverse_ok (h : Heap) (head : Nat) (xs : List Nat) (fuel : Nat) (hw : WF h head xs)
    (hf : xs.length < fuel) :
    ∃ k, q_reverse fuel h head = some k ∧ WF k head xs.reverse ∧
      (∀ z ∈ head :: xs, k.next z = h.prev z ∧ k.prev z = h.next z) ∧
      (∀ z, z ∉ head :: xs → k.next z = h.next z ∧ k.prev z = h.prev z) ∧
      k.value = h.value ∧ k.mem = h.mem ∧ k.size = h.size ∧ k.live = h.live ∧
      k.freed = h.freed := by
  have hh := WF_head_ne_zero h head xs hw
  obtain ⟨hnd, hnz, hfw, hbw, hlive, ho⟩ := hw
  have hhx : head ∉ xs := (List.nodup_cons.1 hnd).1
  have hwf : ∀ k : Heap, (∀ z ∈ head :: xs, k.next z = h.prev z ∧ k.prev z = h.next z) →
      k.value = h.value → k.live = h.live → WF k head xs.reverse := by
    intro k hon kv kl
    have hperm : (head :: xs.reverse).Perm (head :: xs) := (List.reverse_perm xs).cons head
    refine ⟨hperm.nodup_iff.2 hnd, fun a ha => hnz a (hperm.mem_iff.1 ha), ?_, ?_,
      fun a ha => by rw [kl]; exact hlive a (hperm.mem_iff.1 ha),
      Owned_of_perm h k head xs _ (List.reverse_perm xs) kv (fun _ _ hm => by rw [kl]; exact hm) ho⟩
    · exact Path_congr h.prev _ head _ head (fun z hz => (hon z (hperm.mem_iff.1 hz)).1) hbw
    · rw [List.reverse_reverse]
      exact Path_congr h.next _ head _ head (fun z hz => (hon z hz).2) hfw
  by_cases hx : xs = []
  · subst hx
    have h1 : h.next head = head := by simpa [Fwd] using hfw
    have h2 : h.prev head = head := by simpa [Fwd] using hbw
    refine ⟨h, by simp [q_reverse, list_empty, h1], hwf h ?_ rfl rfl, ?_, fun _ _ => ⟨rfl, rfl⟩,
      rfl, rfl, rfl, rfl, rfl⟩
    · intro z hz; simp at hz; subst hz; simp [h1, h2]
    · intro z hz; simp at hz; subst hz; simp [h1, h2]
  · have hne : h.next head ≠ head := by
      cases xs with
      | nil => exact absurd rfl hx
      | cons y ys =>
        have : h.next head = y := by simpa [Fwd] using hfw.1
        rw [this]; intro e; exact hhx (by simp [e])
    obtain ⟨k, hk, hon, off, e1, e2, e3, e4, e5⟩ :=
      q_reverse_loop_ok head xs h head fuel hnd hhx hfw hf
    exact ⟨k, by simp [q_reverse, hh, list_empty, hne, hk], hwf k hon e1 e4, hon, off,
      e1, e2, e3, e4, e5⟩


/-- C11: on a well-formed queue with forward sequence `xs`, `q_reverse`
returns a well-formed queue whose forward sequence is `xs.reverse` and whose
backward traversal is `xs`; every link of the queue, the sentinel included,
has its `next` and `prev` fields exchanged and nothing else is written, so
the nodes, the live set and the free log are unchanged.  A `NULL` or empty
queue is left unchanged, and `[1,2,3]` becomes `[3,2,1]`. -/
theorem C11_reverse_sequence (h : Heap) (head : Nat) (xs : List Nat) (fuel : Nat)
    (hw : WF h head xs) (hf : xs.length < fuel) :
    (∃ k, q_reverse fuel h head = some k ∧ WF k head xs.reverse ∧ Fwd k.prev head xs ∧
      values k xs.reverse = (values h xs).reverse ∧
      (∀ z ∈ head :: xs, k.next z = h.prev z ∧ k.prev z = h.next z) ∧
      (∀ z, z ∉ head :: xs → k.next z = h.next z ∧ k.prev z = h.prev z) ∧
      k.value = h.value ∧ k.mem = h.mem ∧ k.size = h.size ∧ k.live = h.live ∧
      k.freed = h.freed) ∧
    (xs = [] → q_reverse fuel h head = some h) ∧
    q_reverse fuel h 0 = some h ∧
    (q_reverse 4 (mkQueue [[1], [2], [3]]) 1).map
        (fun k => (toValues k 1 4 (k.next 1), toValuesBack k 1 4 (k.prev 1))) =
      some ([[3], [2], [1]], [[1], [2], [3]]) := by
  obtain ⟨k, hk, w, hon, off, e1, e2, e3, e4, e5⟩ := q_reverse_ok h head xs fuel hw hf
  refine ⟨⟨k, hk, w, ?_, ?_, hon, off, e1, e2, e3, e4, e5⟩, ?_, by simp [q_reverse], by decide⟩
  · have := w.2.2.2.1
    rwa [List.reverse_reverse] at this
  · rw [values, values, valueOf_congr h k e1 e2 e3, List.map_reverse]
  · intro hx
    subst hx
    have h1 : h.next head = head := by simpa [Fwd] using hw.2.2.1
    simp [q_reverse, list_empty, h1]

theorem C11_reverse_sequence_witness :
    (∃ k, q_reverse 4 (mkQueue [[1], [2], [3]]) 1 = some k ∧ WF k 1 [10, 20, 30].reverse ∧
      Fwd k.prev 1 [10, 20, 30] ∧
      values k [10, 20, 30].reverse = (values (mkQueue [[1], [2], [3]]) [10, 20, 30]).reverse ∧
      (∀ z ∈ 1 :: [10, 20, 30], k.next z = (mkQueue [[1], [2], [3]]).prev z ∧
        k.prev z = (mkQueue [[1], [2], [3]]).next z) ∧
      (∀ z, z ∉ 1 :: [10, 20, 30] → k.next z = (mkQueue [[1], [2], [3]]).next z ∧
        k.prev z = (mkQueue [[1], [2], [3]]).prev z) ∧
      k.value = (mkQueue [[1], [2], [3]]).value ∧ k.mem = (mkQueue [[1], [2], [3]]).mem ∧
      k.size = (mkQueue [[1], [2], [3]]).size ∧ k.live = (mkQueue [[1], [2], [3]]).live ∧
      k.freed = (mkQueue [[1], [2], [3]]).freed) ∧
    ([10, 20, 30] = [] → q_reverse 4 (mkQueue [[1], [2], [3]]) 1 = some (mkQueue [[1], [2], [3]])) ∧
    q_reverse 4 (mkQueue [[1], [2], [3]]) 0 = some (mkQueue [[1], [2], [3]]) ∧
    (q_reverse 4 (mkQueue [[1], [2], [3]]) 1).map
        (fun k => (toValues k 1 4 (k.next 1), toValuesBack k 1 4 (k.prev 1))) =
      some ([[3], [2], [1]], [[1], [2], [3]]) :=
  C11_reverse_sequence (mkQueue [[1], [2], [3]]) 1 [10, 20, 30] 4 (by decide) (by decide)

/-- C12: `q_reverse` is an involution: on a well-formed queue, applying it
twice gives back the original heap (every `next` and `prev` field, hence the
original forward order). -/
theorem C12_reverse_involution (h : Heap) (head : Nat) (xs : List Nat) (fuel : Nat)
    (hw : WF h head xs) (hf : xs.length < fuel) :
    ∃ k, q_reverse fuel h head = some k ∧ q_reverse fuel k head = some h ∧
      WF k head xs.reverse := by
  obtain ⟨k, hk, w, hon, off, e1, e2, e3, e4, e5⟩ := q_reverse_ok h head xs fuel hw hf
  obtain ⟨k2, hk2, _, hon2, off2, f1, f2, f3, f4, f5⟩ :=
    q_reverse_ok k head xs.reverse fuel w (by simpa using hf)
  have hmem : ∀ z, z ∈ head :: xs.reverse ↔ z ∈ head :: xs := by
    intro z; simp
  have hk2h : k2 = h := by
    apply Heap_ext h k2 _ _ (f1.trans e1) (f2.trans e2) (f3.trans e3) (f4.trans e4)
      (f5.trans e5)
    · funext z
      by_cases hz : z ∈ head :: xs
      · rw [(hon2 z ((hmem z).2 hz)).1, (hon z hz).2]
      · rw [(off2 z (fun c => hz ((hmem z).1 c))).1, (off z hz).1]
    · funext z
      by_cases hz : z ∈ head :: xs
      · rw [(hon2 z ((hmem z).2 hz)).2, (hon z hz).1]
      · rw [(off2 z (fun c => hz ((hmem z).1 c))).2, (off z hz).2]
  exact ⟨k, hk, by rw [hk2, hk2h], w⟩

theorem C12_reverse_involution_witness :
    ∃ k, q_reverse 4 (mkQueue [[1], [2], [3]]) 1 = some k ∧
      q_reverse 4 k 1 = some (mkQueue [[1], [2], [3]]) ∧ WF k 1 [10, 20, 30].reverse :=
  C12_reverse_involution (mkQueue [[1], [2], [3]]) 1 [10, 20, 30] 4 (by decide) (by decide)


/-! ## Consequences for `q_sort` and `mergeTwoLists` -/

theorem q_sort_total (h : Heap) (head : Nat) (xs : List Nat) (fuel : Nat) (hw : WF h head xs)
    (hf : xs.length < fuel) :
    ∃ k, q_sort fuel h head = some k ∧ WF k head (xs.mergeSort (leq h)) ∧
      k.value = h.value ∧ k.mem = h.mem ∧ k.size = h.size ∧ k.live = h.live ∧
      k.freed = h.freed := by
  by_cases hx : xs = []
  · subst hx
    have h1 : h.next head = head := by simpa [Fwd] using hw.2.2.1
    exact ⟨h, by simp [q_sort, list_empty, h1], by simpa using hw, rfl, rfl, rfl, rfl, rfl⟩
  · exact q_sort_ok h head xs fuel hw hx hf

theorem leq_iff (h : Heap) (a b : Nat) :
    leq h a b = true ↔ strcmp (valueOf h a) (valueOf h b) ≤ 0 := by
  simp [leq]

theorem DL_takes (h : Heap) (Y : List Nat) :
    ∀ (X : List Nat) (a : Nat), DL h a (X ++ Y) → DL h a X := by
  intro X
  induction X with
  | nil => intro a _; trivial
  | cons x X ih => intro a hd; exact ⟨hd.1, hd.2.1, ih x hd.2.2⟩

theorem sublist_merge_left (le : Nat → Nat → Bool) :
    ∀ (l1 l2 : List Nat), l1.Sublist (List.merge l1 l2 le)
  | [], l2 => by simp
  | l1, [] => by simp
  | x :: l1, y :: l2 => by
    simp only [List.merge]
    split
    · exact (sublist_merge_left le l1 (y :: l2)).cons₂ x
    · exact (sublist_merge_left le (x :: l1) l2).cons y

theorem sublist_merge_right (le : Nat → Nat → Bool) :
    ∀ (l1 l2 : List Nat), l2.Sublist (List.merge l1 l2 le)
  | [], l2 => by simp
  | l1, [] => by simp
  | x :: l1, y :: l2 => by
    simp only [List.merge]
    split
    · exact (sublist_merge_right le l1 (y :: l2)).cons x
    · exact (sublist_merge_right le (x :: l1) l2).cons₂ y

theorem merge_left_first (le : Nat → Nat → Bool)
    (trans : ∀ a b c, le a b = true → le b c = true → le a c = true) (a b : Nat) (hab : le a b = true) :
    ∀ (l1 l2 : List Nat), l1.Pairwise (fun x y => le x y = true) → a ∈ l1 → b ∈ l2 →
      [a, b].Sublist (List.merge l1 l2 le)
  | [], _, _, ha, _ => by simp at ha
  | _ :: _, [], _, _, hb => by simp at hb
  | x :: l1, y :: l2, hs, ha, hb => by
    by_cases hxy : le x y = true
    · rw [List.cons_merge_cons_pos _ _ _ hxy]
      rcases List.mem_cons.1 ha with e | e
      · subst e
        exact (List.singleton_sublist.2 (List.mem_merge.2 (Or.inr hb))).cons₂ a
      · exact (merge_left_first le trans a b hab l1 (y :: l2) hs.tail e hb).cons x
    · rw [List.cons_merge_cons_neg _ _ _ hxy]
      rcases List.mem_cons.1 hb with e | e
      · subst e
        exfalso
        rcases List.mem_cons.1 ha with e2 | e2
        · subst e2; exact hxy hab
        · exact hxy (trans _ _ _ (List.rel_of_pairwise_cons hs e2) hab)
      · exact (merge_left_first le trans a b hab (x :: l1) l2 hs ha e).cons y


/-- C13: `q_sort` is idempotent: on a well-formed queue a second `q_sort`
returns a queue with the same sequence of links and of values as the first;
a queue that is already sorted, or has at most one element, keeps its
sequence. -/
theorem C13_sort_idempotent (h : Heap) (head : Nat) (xs : List Nat) (fuel : Nat)
    (hw : WF h head xs) (hf : xs.length < fuel) :
    (∃ k1 k2 S, q_sort fuel h head = some k1 ∧ q_sort fuel k1 head = some k2 ∧
      WF k1 head S ∧ WF k2 head S ∧ values k2 S = values k1 S) ∧
    (xs.Pairwise (fun a b => strcmp (valueOf h a) (valueOf h b) ≤ 0) ∨ xs.length ≤ 1 →
      ∃ k, q_sort fuel h head = some k ∧ WF k head xs ∧ values k xs = values h xs) := by
  obtain ⟨k1, e1, w1, a1, a2, a3, _, _⟩ := q_sort_total h head xs fuel hw hf
  have hl : leq k1 = leq h := leq_congr h k1 a1 a2 a3
  have hsorted : (xs.mergeSort (leq h)).Pairwise (fun a b => leq h a b = true) :=
    List.sorted_mergeSort (leq_trans h) (leq_total h) xs
  obtain ⟨k2, e2, w2, b1, b2, b3, _, _⟩ :=
    q_sort_total k1 head (xs.mergeSort (leq h)) fuel w1 (by simpa using hf)
  rw [hl, List.mergeSort_of_sorted hsorted] at w2
  refine ⟨⟨k1, k2, _, e1, e2, w1, w2, by rw [values, values, valueOf_congr k1 k2 b1 b2 b3]⟩, ?_⟩
  intro hc
  have hid : xs.mergeSort (leq h) = xs := by
    rcases hc with hc | hc
    · exact List.mergeSort_of_sorted (hc.imp (fun hab => (leq_iff h _ _).2 hab))
    · match xs, hc with
      | [], _ => simp
      | [_], _ => simp
  rw [hid] at w1
  exact ⟨k1, e1, w1, by rw [values, values, valueOf_congr h k1 a1 a2 a3]⟩

theorem C13_sort_idempotent_witness :
    (∃ k1 k2 S, q_sort 4 (mkQueue [[98], [97], [99]]) 1 = some k1 ∧ q_sort 4 k1 1 = some k2 ∧
      WF k1 1 S ∧ WF k2 1 S ∧ values k2 S = values k1 S) ∧
    ([10, 20, 30].Pairwise (fun a b =>
        strcmp (valueOf (mkQueue [[98], [97], [99]]) a) (valueOf (mkQueue [[98], [97], [99]]) b) ≤ 0) ∨
        [10, 20, 30].length ≤ 1 →
      ∃ k, q_sort 4 (mkQueue [[98], [97], [99]]) 1 = some k ∧ WF k 1 [10, 20, 30] ∧
        values k [10, 20, 30] = values (mkQueue [[98], [97], [99]]) [10, 20, 30]) :=
  C13_sort_idempotent (mkQueue [[98], [97], [99]]) 1 [10, 20, 30] 4 (by decide) (by decide)

/-- C14: the final pass of `q_sort` rebuilds a well-formed queue.  On every
heap whose `next` fields form a null-terminated list `S` behind the sentinel
(whatever the `prev` fields hold), the relink loop followed by the two final
stores makes every link's `prev` its predecessor, the last link's `next` the
sentinel and the sentinel's `prev` the last link; hence `q_sort` on a
well-formed non-empty queue (a single element included) returns a well-formed
queue on the sorted sequence. -/
theorem C14_sort_restores_links (h : Heap) (head : Nat) (xs : List Nat) (fuel : Nat)
    (hw : WF h head xs) (hne : xs ≠ []) (hf : xs.length < fuel) :
    (∃ k, q_sort fuel h head = some k ∧ WF k head (xs.mergeSort (leq h)) ∧
      LinkInv k head (xs.mergeSort (leq h)) ∧
      k.next ((xs.mergeSort (leq h)).getLastD head) = head ∧
      k.prev head = (xs.mergeSort (leq h)).getLastD head ∧
      (∀ A b B, xs.mergeSort (leq h) = A ++ b :: B → k.prev b = A.getLastD head)) ∧
    (∀ (g : Heap) (S : List Nat), Seg g.next (g.next head) S 0 → (head :: S).Nodup →
      (∀ a ∈ S, a ≠ 0) → S.length < fuel →
      ∃ k, q_sort_relink fuel g head = some (k, S.getLastD head) ∧
        DL (setPrev (setNext k (S.getLastD head) head) head (S.getLastD head)) head
          (S ++ [head])) := by
  constructor
  · obtain ⟨k, e, w, _⟩ := q_sort_ok h head xs fuel hw hne hf
    have hd := ((WF_iff_DL k head _).1 w).2.2.1
    have hc := (DL_concat k head _ head).1 hd
    refine ⟨k, e, w, WF_linkInv _ _ _ w, hc.2.1, hc.2.2, ?_⟩
    intro A b B hS
    rw [hS] at hc
    have := DL_takes k B (A ++ [b]) head (by simpa using hc.1)
    exact ((DL_concat k b A head).1 this).2.2
  · intro g S hs hnd hnz hfS
    obtain ⟨k, e, d, kn, kp, _⟩ := q_sort_relink_ok S g head fuel hs hnd hnz hfS
    refine ⟨k, e, ?_⟩
    have hhS : head ∉ S := (List.nodup_cons.1 hnd).1
    rcases List.eq_nil_or_concat S with c | ⟨S', t, c⟩
    · subst c; simp
    · simp only [List.concat_eq_append] at c
      subst c
      have htS : t ∉ head :: S' := by
        intro c
        rcases List.mem_cons.1 c with c | c
        · exact hhS (by simp [c])
        · have := (List.nodup_append.1 (List.nodup_cons.1 hnd).2).2.2 c; simp at this
      rw [List.getLastD_concat, show S' ++ [t] ++ [head] = S' ++ [t, head] by simp, DL_snoc]
      refine ⟨?_, by simp, by simp⟩
      apply DL_frame k _ head _ _ _ d
      · intro z hz
        rw [← List.cons_append, List.dropLast_concat] at hz
        have : z ≠ t := fun c => htS (c ▸ hz)
        simp [this]
      · intro z hz
        have : z ≠ head := fun c => hhS (c ▸ hz)
        simp [this]

theorem C14_sort_restores_links_witness :
    (∃ k, q_sort 2 (mkQueue [[98]]) 1 = some k ∧
      WF k 1 ([10].mergeSort (leq (mkQueue [[98]]))) ∧
      LinkInv k 1 ([10].mergeSort (leq (mkQueue [[98]]))) ∧
      k.next (([10].mergeSort (leq (mkQueue [[98]]))).getLastD 1) = 1 ∧
      k.prev 1 = ([10].mergeSort (leq (mkQueue [[98]]))).getLastD 1 ∧
      (∀ A b B, [10].mergeSort (leq (mkQueue [[98]])) = A ++ b :: B → k.prev b = A.getLastD 1)) ∧
    (∀ (g : Heap) (S : List Nat), Seg g.next (g.next 1) S 0 → (1 :: S).Nodup →
      (∀ a ∈ S, a ≠ 0) → S.length < 2 →
      ∃ k, q_sort_relink 2 g 1 = some (k, S.getLastD 1) ∧
        DL (setPrev (setNext k (S.getLastD 1) 1) 1 (S.getLastD 1)) 1 (S ++ [1])) :=
  C14_sort_restores_links (mkQueue [[98]]) 1 [10] 2 (by decide) (by decide) (by decide)

/-- C18: for two disjoint null-terminated lists `l1`, `l2`, each sorted for
`strcmp`, `mergeTwoLists` returns a null-terminated list `M` that is sorted,
contains `l1` and `l2` as subsequences (each input keeps its internal order)
and is a permutation of `l1 ++ l2`; an element of `l1` precedes every element
of `l2` with an equal string, and on a tie of the two heads the head of `l1`
is taken.  When the loop exits one of the two pointers is null and `L1 | L2`
is the other one, which is stored as the rest of the result. -/
theorem C18_merge_two_lists (h : Heap) (L1 L2 : Nat) (l1 l2 : List Nat) (fuel : Nat)
    (hs1 : Seg h.next L1 l1 0) (hs2 : Seg h.next L2 l2 0) (hnd : (l1 ++ l2).Nodup)
    (hnz : ∀ a ∈ l1 ++ l2, a ≠ 0)
    (hsort1 : l1.Pairwise (fun a b => strcmp (valueOf h a) (valueOf h b) ≤ 0))
    (hsort2 : l2.Pairwise (fun a b => strcmp (valueOf h a) (valueOf h b) ≤ 0))
    (hf : l1.length + l2.length < fuel) :
    (∃ k r M, mergeTwoLists fuel h L1 L2 = some (k, r) ∧ Seg k.next r M 0 ∧
      M = List.merge l1 l2 (leq h) ∧
      M.Pairwise (fun a b => strcmp (valueOf k a) (valueOf k b) ≤ 0) ∧
      l1.Sublist M ∧ l2.Sublist M ∧ M.Perm (l1 ++ l2) ∧ valueOf k = valueOf h ∧
      (∀ a ∈ l1, ∀ b ∈ l2, strcmp (valueOf h a) (valueOf h b) = 0 → [a, b].Sublist M) ∧
      (∀ x t1 y t2, l1 = x :: t1 → l2 = y :: t2 →
        strcmp (valueOf h x) (valueOf h y) = 0 → M = x :: List.merge t1 l2 (leq h))) ∧
    (∀ (g : Heap) (P1 P2 hd : Nat) (ptr : Option Nat) (f : Nat), ¬ (P1 ≠ 0 ∧ P2 ≠ 0) →
      (P1 ||| P2) = (if P1 = 0 then P2 else P1) ∧
      mergeTwoLists_loop (f + 1) g P1 P2 hd ptr =
        some (storePtr g hd ptr (if P1 = 0 then P2 else P1))) := by
  constructor
  · obtain ⟨k, r, e, s, _, _, _, kv, km, ks, _, _⟩ :=
      mergeTwoLists_loop_ok fuel l1 l2 h L1 L2 0 none hs1 hs2 hnd hnz (by simp) (by omega)
        (by omega)
    have hv : valueOf k = valueOf h := valueOf_congr h k kv km ks
    have p1 : l1.Pairwise (fun a b => leq h a b = true) :=
      hsort1.imp (fun hab => (leq_iff h _ _).2 hab)
    have p2 : l2.Pairwise (fun a b => leq h a b = true) :=
      hsort2.imp (fun hab => (leq_iff h _ _).2 hab)
    refine ⟨k, r, _, e, s rfl, rfl, ?_, sublist_merge_left _ _ _, sublist_merge_right _ _ _,
      List.merge_perm_append _, hv, ?_, ?_⟩
    · rw [hv]
      exact (List.sorted_merge (leq_trans h) (leq_total h) l1 l2 p1 p2).imp
        (fun hab => (leq_iff h _ _).1 hab)
    · intro a ha b hb hab
      exact merge_left_first (leq h) (leq_trans h) a b ((leq_iff h a b).2 (by omega)) l1 l2 p1
        ha hb
    · intro x t1 y t2 e1 e2 hxy
      subst e1 e2
      exact List.cons_merge_cons_pos _ _ _ ((leq_iff h x y).2 (by omega))
  · intro g P1 P2 hd ptr f hc
    have hor : (P1 ||| P2) = (if P1 = 0 then P2 else P1) := by
      by_cases h1 : P1 = 0
      · simp [h1]
      · have h2 : P2 = 0 := by
          by_contra c; exact hc ⟨h1, c⟩
        simp [h1, h2]
    refine ⟨hor, ?_⟩
    simp only [mergeTwoLists_loop, hc, if_false, hor]

theorem C18_merge_two_lists_witness :
    (∃ k r M, mergeTwoLists 4 (setNext (setNext (mkQueue [[97], [99], [98]]) 20 0) 30 0) 10 30 =
        some (k, r) ∧ Seg k.next r M 0 ∧
      M = List.merge [10, 20] [30] (leq (setNext (setNext (mkQueue [[97], [99], [98]]) 20 0) 30 0)) ∧
      M.Pairwise (fun a b => strcmp (valueOf k a) (valueOf k b) ≤ 0) ∧
      [10, 20].Sublist M ∧ [30].Sublist M ∧ M.Perm ([10, 20] ++ [30]) ∧
      valueOf k = valueOf (setNext (setNext (mkQueue [[97], [99], [98]]) 20 0) 30 0) ∧
      (∀ a ∈ [10, 20], ∀ b ∈ [30],
        strcmp (valueOf (setNext (setNext (mkQueue [[97], [99], [98]]) 20 0) 30 0) a)
          (valueOf (setNext (setNext (mkQueue [[97], [99], [98]]) 20 0) 30 0) b) = 0 →
        [a, b].Sublist M) ∧
      (∀ x t1 y t2, [10, 20] = x :: t1 → [30] = y :: t2 →
        strcmp (valueOf (setNext (setNext (mkQueue [[97], [99], [98]]) 20 0) 30 0) x)
          (valueOf (setNext (setNext (mkQueue [[97], [99], [98]]) 20 0) 30 0) y) = 0 →
        M = x :: List.merge t1 [30]
          (leq (setNext (setNext (mkQueue [[97], [99], [98]]) 20 0) 30 0)))) ∧
    (∀ (g : Heap) (P1 P2 hd : Nat) (ptr : Option Nat) (f : Nat), ¬ (P1 ≠ 0 ∧ P2 ≠ 0) →
      (P1 ||| P2) = (if P1 = 0 then P2 else P1) ∧
      mergeTwoLists_loop (f + 1) g P1 P2 hd ptr =
        some (storePtr g hd ptr (if P1 = 0 then P2 else P1))) :=
  C18_merge_two_lists (setNext (setNext (mkQueue [[97], [99], [98]]) 20 0) 30 0) 10 30
    [10, 20] [30] 4 (by decide) (by decide) (by decide) (by decide) (by decide) (by decide)
    (by decide)

/-- C20: `q_sort` is stable: on a well-formed queue, whenever `a` comes
before `b` in the input and their strings compare equal, `a` comes before `b`
in the sorted queue; more generally every subsequence of the input that is
already in order keeps its order. -/
theorem C20_sort_stable (h : Heap) (head : Nat) (xs : List Nat) (fuel : Nat)
    (hw : WF h head xs) (hf : xs.length < fuel) :
    ∃ k S, q_sort fuel h head = some k ∧ WF k head S ∧ S.Perm xs ∧ valueOf k = valueOf h ∧
      (∀ a b, [a, b].Sublist xs → strcmp (valueOf h a) (valueOf h b) = 0 → [a, b].Sublist S) ∧
      (∀ c : List Nat, c.Sublist xs →
        c.Pairwise (fun a b => strcmp (valueOf h a) (valueOf h b) ≤ 0) → c.Sublist S) := by
  obtain ⟨k, e, w, a1, a2, a3, _, _⟩ := q_sort_total h head xs fuel hw hf
  refine ⟨k, _, e, w, List.mergeSort_perm xs (leq h), valueOf_congr h k a1 a2 a3, ?_, ?_⟩
  · intro a b hab hv
    exact List.pair_sublist_mergeSort (leq_trans h) (leq_total h)
      ((leq_iff h a b).2 (by omega)) hab
  · intro c hc hp
    exact List.sublist_mergeSort (leq_trans h) (leq_total h)
      (hp.imp (fun hab => (leq_iff h _ _).2 hab)) hc

theorem C20_sort_stable_witness :
    ∃ k S, q_sort 4 (mkQueue [[98], [97], [98]]) 1 = some k ∧ WF k 1 S ∧ S.Perm [10, 20, 30] ∧
      valueOf k = valueOf (mkQueue [[98], [97], [98]]) ∧
      (∀ a b, [a, b].Sublist [10, 20, 30] →
        strcmp (valueOf (mkQueue [[98], [97], [98]]) a) (valueOf (mkQueue [[98], [97], [98]]) b) = 0 →
        [a, b].Sublist S) ∧
      (∀ c : List Nat, c.Sublist [10, 20, 30] →
        c.Pairwise (fun a b =>
          strcmp (valueOf (mkQueue [[98], [97], [98]]) a)
            (valueOf (mkQueue [[98], [97], [98]]) b) ≤ 0) → c.Sublist S) :=
  C20_sort_stable (mkQueue [[98], [97], [98]]) 1 [10, 20, 30] 4 (by decide) (by decide)


/-! ## Failing inserts -/

theorem WF_of_same_links (h k : Heap) (head : Nat) (xs : List Nat) (kn : k.next = h.next)
    (kp : k.prev = h.prev) (kl : k.live = h.live) (kv : ∀ a ∈ xs, k.value a = h.value a)
    (hw : WF h head xs) : WF k head xs := by
  obtain ⟨hnd, hnz, hf, hb, hl, o1, o2⟩ := hw
  refine ⟨hnd, hnz, by rw [kn]; exact hf, by rw [kp]; exact hb, by rw [kl]; exact hl, ?_, ?_⟩
  · intro a ha
    rw [kv a ha, kl]
    exact o1 a ha
  · rw [List.map_congr_left kv]
    exact o2

theorem insert_second_alloc_fails (h : Heap) (head : Nat) (s : List Nat) (e : Nat)
    (hh : head ≠ 0) (he : e ≠ 0) :
    q_insert_head h head s e 0 = (free (setValue (malloc h e sizeof_element_t).1 e 0) e, false) ∧
    q_insert_tail h head s e 0 = (free (setValue (malloc h e sizeof_element_t).1 e 0) e, false) ∧
    (free (setValue (malloc h e sizeof_element_t).1 e 0) e).next = h.next ∧
    (free (setValue (malloc h e sizeof_element_t).1 e 0) e).prev = h.prev ∧
    (free (setValue (malloc h e sizeof_element_t).1 e 0) e).mem = h.mem ∧
    (free (setValue (malloc h e sizeof_element_t).1 e 0) e).live = h.live ∧
    (free (setValue (malloc h e sizeof_element_t).1 e 0) e).freed = e :: h.freed ∧
    (∀ a, a ≠ e → (free (setValue (malloc h e sizeof_element_t).1 e 0) e).value a = h.value a) := by
  refine ⟨?_, ?_, ?_, ?_, ?_, ?_, ?_, ?_⟩
  · simp [q_insert_head, malloc, hh, he, setValue]
  · simp [q_insert_tail, malloc, hh, he, setValue]
  · simp [free, setValue, malloc, he]
  · simp [free, setValue, malloc, he]
  · simp [free, setValue, malloc, he]
  · simp [free, setValue, malloc, he]
  · simp [free, setValue, malloc, he]
  · intro a ha
    simp [free, setValue, malloc, he, ha]

/-- C16: `q_insert_head` and `q_insert_tail` fail atomically.  With a `NULL`
queue or a failed element allocation they return false and the heap is
untouched; when the string allocation fails they return false, the `next` and
`prev` fields, the bytes and the live set are as before, the queue is still
the same well-formed queue, and the element allocated first has been freed.
They return true exactly when the queue is not `NULL` and both allocations
succeed. -/
theorem C16_insert_fails_atomically (h : Heap) (head : Nat) (xs s : List Nat) (e v : Nat)
    (hw : WF h head xs) (he : e ≠ 0) (hfresh : e ∉ h.live) :
    (q_insert_head h 0 s e v = (h, false) ∧ q_insert_tail h 0 s e v = (h, false)) ∧
    (q_insert_head h head s 0 v = (h, false) ∧ q_insert_tail h head s 0 v = (h, false)) ∧
    ((q_insert_head h head s e 0).2 = false ∧ WF (q_insert_head h head s e 0).1 head xs ∧
      (q_insert_head h head s e 0).1.next = h.next ∧
      (q_insert_head h head s e 0).1.prev = h.prev ∧
      (q_insert_head h head s e 0).1.mem = h.mem ∧
      (q_insert_head h head s e 0).1.live = h.live ∧
      (q_insert_head h head s e 0).1.freed = e :: h.freed) ∧
    ((q_insert_tail h head s e 0).2 = false ∧ WF (q_insert_tail h head s e 0).1 head xs ∧
      (q_insert_tail h head s e 0).1.next = h.next ∧
      (q_insert_tail h head s e 0).1.prev = h.prev ∧
      (q_insert_tail h head s e 0).1.mem = h.mem ∧
      (q_insert_tail h head s e 0).1.live = h.live ∧
      (q_insert_tail h head s e 0).1.freed = e :: h.freed) ∧
    (∀ (g : Heap) (q a b : Nat), (q_insert_head g q s a b).2 = true ↔ q ≠ 0 ∧ a ≠ 0 ∧ b ≠ 0) ∧
    (∀ (g : Heap) (q a b : Nat), (q_insert_tail g q s a b).2 = true ↔ q ≠ 0 ∧ a ≠ 0 ∧ b ≠ 0) := by
  have hh := WF_head_ne_zero h head xs hw
  obtain ⟨e1, e2, kn, kp, km, kl, kf, kv⟩ := insert_second_alloc_fails h head s e hh he
  have hw2 : WF (free (setValue (malloc h e sizeof_element_t).1 e 0) e) head xs := by
    apply WF_of_same_links h _ head xs kn kp kl _ hw
    intro a ha
    exact kv a (fun c => hfresh (c ▸ hw.2.2.2.2.1 a (List.mem_cons_of_mem _ ha)))
  refine ⟨by simp [q_insert_head, q_insert_tail], ?_, ?_, ?_, ?_, ?_⟩
  · simp [q_insert_head, q_insert_tail, malloc]
  · rw [e1]; exact ⟨rfl, hw2, kn, kp, km, kl, kf⟩
  · rw [e2]; exact ⟨rfl, hw2, kn, kp, km, kl, kf⟩
  · intro g q a b
    by_cases hq : q = 0
    · simp [q_insert_head, hq]
    · by_cases ha : a = 0
      · simp [q_insert_head, malloc, hq, ha]
      · by_cases hb : b = 0
        · simp [q_insert_head, malloc, hq, ha, hb, setValue]
        · simp [q_insert_head, malloc, hq, ha, hb, setValue]
  · intro g q a b
    by_cases hq : q = 0
    · simp [q_insert_tail, hq]
    · by_cases ha : a = 0
      · simp [q_insert_tail, malloc, hq, ha]
      · by_cases hb : b = 0
        · simp [q_insert_tail, malloc, hq, ha, hb, setValue]
        · simp [q_insert_tail, malloc, hq, ha, hb, setValue]

theorem C16_insert_fails_atomically_witness :
    (q_insert_head (mkQueue [[97], [98]]) 0 [99] 30 31 = (mkQueue [[97], [98]], false) ∧
      q_insert_tail (mkQueue [[97], [98]]) 0 [99] 30 31 = (mkQueue [[97], [98]], false)) ∧
    (q_insert_head (mkQueue [[97], [98]]) 1 [99] 0 31 = (mkQueue [[97], [98]], false) ∧
      q_insert_tail (mkQueue [[97], [98]]) 1 [99] 0 31 = (mkQueue [[97], [98]], false)) ∧
    ((q_insert_head (mkQueue [[97], [98]]) 1 [99] 30 0).2 = false ∧
      WF (q_insert_head (mkQueue [[97], [98]]) 1 [99] 30 0).1 1 [10, 20] ∧
      (q_insert_head (mkQueue [[97], [98]]) 1 [99] 30 0).1.next = (mkQueue [[97], [98]]).next ∧
      (q_insert_head (mkQueue [[97], [98]]) 1 [99] 30 0).1.prev = (mkQueue [[97], [98]]).prev ∧
      (q_insert_head (mkQueue [[97], [98]]) 1 [99] 30 0).1.mem = (mkQueue [[97], [98]]).mem ∧
      (q_insert_head (mkQueue [[97], [98]]) 1 [99] 30 0).1.live = (mkQueue [[97], [98]]).live ∧
      (q_insert_head (mkQueue [[97], [98]]) 1 [99] 30 0).1.freed =
        30 :: (mkQueue [[97], [98]]).freed) ∧
    ((q_insert_tail (mkQueue [[97], [98]]) 1 [99] 30 0).2 = false ∧
      WF (q_insert_tail (mkQueue [[97], [98]]) 1 [99] 30 0).1 1 [10, 20] ∧
      (q_insert_tail (mkQueue [[97], [98]]) 1 [99] 30 0).1.next = (mkQueue [[97], [98]]).next ∧
      (q_insert_tail (mkQueue [[97], [98]]) 1 [99] 30 0).1.prev = (mkQueue [[97], [98]]).prev ∧
      (q_insert_tail (mkQueue [[97], [98]]) 1 [99] 30 0).1.mem = (mkQueue [[97], [98]]).mem ∧
      (q_insert_tail (mkQueue [[97], [98]]) 1 [99] 30 0).1.live = (mkQueue [[97], [98]]).live ∧
      (q_insert_tail (mkQueue [[97], [98]]) 1 [99] 30 0).1.freed =
        30 :: (mkQueue [[97], [98]]).freed) ∧
    (∀ (g : Heap) (q a b : Nat), (q_insert_head g q [99] a b).2 = true ↔ q ≠ 0 ∧ a ≠ 0 ∧ b ≠ 0) ∧
    (∀ (g : Heap) (q a b : Nat), (q_insert_tail g q [99] a b).2 = true ↔ q ≠ 0 ∧ a ≠ 0 ∧ b ≠ 0) :=
  C16_insert_fails_atomically (mkQueue [[97], [98]]) 1 [10, 20] [99] 30 31
    (by decide) (by decide) (by decide)


/-! ## `q_delete_dup` -/

theorem DL_mid (h : Heap) (c x : Nat) (rest : List Nat) :
    ∀ (K : List Nat) (a : Nat), DL h a (K ++ c :: x :: rest) → h.next c = x ∧ h.prev x = c := by
  intro K
  induction K with
  | nil => intro a hd; simp only [List.nil_append, DL_cons] at hd; exact ⟨hd.2.2.1, hd.2.2.2.1⟩
  | cons k K ih => intro a hd; simp only [List.cons_append, DL_cons] at hd; exact ih k hd.2.2

theorem dupLoop_sublist (val : Nat → List Nat) :
    ∀ (R : List Nat) (flag : Bool) (c ce : Nat),
      ((dupLoop val flag c ce R).1 ++ [(dupLoop val flag c ce R).2.1]).Sublist (c :: R) := by
  intro R
  induction R with
  | nil => intro flag c ce; simp [dupLoop]
  | cons r R ih =>
    intro flag c ce
    unfold dupLoop
    split_ifs with h1 h2
    · exact ((ih true c c).trans (List.Sublist.cons₂ c (List.sublist_cons_self r R)))
    · exact (ih true r c).trans (List.sublist_cons_self c (r :: R))
    · exact List.Sublist.cons₂ c (ih false r c)

theorem dupLoop_cur_e (val : Nat → List Nat) :
    ∀ (R : List Nat) (flag : Bool) (c ce : Nat), (c :: R).Nodup →
      (dupLoop val flag c ce R).2.2.2 = true →
      (dupLoop val flag c ce R).2.2.1 ∉ (dupLoop val flag c ce R).1 ∧
      ((dupLoop val flag c ce R).2.2.1 ∈ c :: R ∨
        ((dupLoop val flag c ce R).2.2.1 = ce ∧ flag = true)) := by
  intro R
  induction R with
  | nil => intro flag c ce _ hf; simp [dupLoop] at hf ⊢; exact Or.inr hf
  | cons r R ih =>
    intro flag c ce hnd
    have hnd1 : (c :: R).Nodup := hnd.sublist (List.Sublist.cons₂ c (List.sublist_cons_self r R))
    have hnd2 : (r :: R).Nodup := hnd.sublist (List.sublist_cons_self c (r :: R))
    unfold dupLoop
    split_ifs with h1 h2
    · intro hf
      obtain ⟨a1, a2⟩ := ih true c c hnd1 hf
      refine ⟨a1, Or.inl ?_⟩
      rcases a2 with a2 | ⟨a2, _⟩
      · exact (List.Sublist.cons₂ c (List.sublist_cons_self r R)).subset a2
      · rw [a2]; simp
    · intro hf
      obtain ⟨a1, a2⟩ := ih true r c hnd2 hf
      refine ⟨a1, Or.inl ?_⟩
      rcases a2 with a2 | ⟨a2, _⟩
      · exact List.mem_cons_of_mem _ a2
      · rw [a2]; simp
    · intro hf
      obtain ⟨a1, a2⟩ := ih false r c hnd2 hf
      have a3 : (dupLoop val false r c R).2.2.1 ∈ r :: R := by
        rcases a2 with a2 | ⟨_, a2⟩
        · exact a2
        · exact absurd a2 (by simp)
      refine ⟨?_, Or.inl (List.mem_cons_of_mem _ a3)⟩
      intro hc
      rcases List.mem_cons.1 hc with e | e
      · exact (List.nodup_cons.1 hnd).1 (e ▸ a3)
      · exact a1 e


theorem q_delete_dup_loop_ok (val : Nat → List Nat) (head : Nat) :
    ∀ (R K : List Nat) (c ce : Nat) (flag : Bool) (g : Heap) (fuel : Nat),
      R.length < fuel → (head :: K ++ c :: R).Nodup →
      DL g head (K ++ c :: R ++ [head]) → valueOf g = val →
      ∃ k, q_delete_dup_loop head fuel g c ce flag =
          some (k, (dupLoop val flag c ce R).2.1, (dupLoop val flag c ce R).2.2.1,
            (dupLoop val flag c ce R).2.2.2) ∧
        DL k head (K ++ (dupLoop val flag c ce R).1 ++ [(dupLoop val flag c ce R).2.1] ++ [head]) ∧
        k.value = g.value ∧ k.mem = g.mem ∧ k.size = g.size ∧
        (∀ z ∈ g.live,
          (∀ d ∈ c :: R, d ∉ (dupLoop val flag c ce R).1 ++ [(dupLoop val flag c ce R).2.1] →
            z ≠ d ∧ z ≠ g.value d) → z ∈ k.live) := by
  intro R
  induction R with
  | nil =>
    intro K c ce flag g fuel hf hnd hd hv
    obtain ⟨f, rfl⟩ : ∃ f, fuel = f + 1 := ⟨fuel - 1, by omega⟩
    have hn : g.next c = head := (DL_mid g c head [] K head (by simpa using hd)).1
    refine ⟨g, ?_, ?_, rfl, rfl, rfl, fun z hz _ => hz⟩
    · simp [q_delete_dup_loop, hn, dupLoop]
    · simpa [dupLoop] using hd
  | cons r R ih =>
    intro K c ce flag g fuel hf hnd hd hv
    obtain ⟨f, rfl⟩ : ∃ f, fuel = f + 1 := ⟨fuel - 1, by omega⟩
    have hf1 : R.length < f := by simp at hf; omega
    obtain ⟨hnc, hpr⟩ := DL_mid g c r (R ++ [head]) K head (by simpa using hd)
    have hnd0 := hnd
    rw [List.cons_append, List.nodup_cons] at hnd
    have hA : head ∉ K ++ c :: r :: R := hnd.1
    have hB : (c :: r :: R).Nodup := (List.nodup_append.1 hnd.2).2.1
    have hC : ∀ z ∈ K, z ∉ c :: r :: R := fun z hz hz2 => (List.nodup_append.1 hnd.2).2.2 hz hz2
    have hrh : r ≠ head := fun e => hA (by simp [e])
    have hch : c ≠ head := fun e => hA (by simp [e])
    have hcr : c ≠ r := fun e => (List.nodup_cons.1 hB).1 (by simp [e])
    have hcR : c ∉ R := fun e => (List.nodup_cons.1 hB).1 (List.mem_cons_of_mem _ e)
    have hrR : r ∉ R := (List.nodup_cons.1 (List.nodup_cons.1 hB).2).1
    have hval : strcmp (cstr g (g.value c)) (cstr g (g.value r)) = strcmp (val c) (val r) := by
      rw [← hv]; rfl
    have hsub := dupLoop_sublist val
    by_cases h1 : strcmp (val c) (val r) = 0
    · -- the successor repeats the string of `cur`: it is unlinked and freed
      have hd1 : DL (list_del g r) head ((K ++ [c]) ++ R ++ [head]) := by
        refine list_del_DL g head r R (K ++ [c]) head ?_ ?_ (by simpa using hd)
        · simpa using hnd0
        · intro hm
          exact hA (by
            simp only [List.mem_append, List.mem_cons, List.mem_singleton] at hm ⊢
            tauto)
      let g4 := free (free (setPrev (setNext g c (g.next r)) (g.next r) c) (g.value r)) r
      have hd4 : DL g4 head (K ++ c :: R ++ [head]) := by
        have := DL_congr (list_del g r) g4 head ((K ++ [c]) ++ R ++ [head]) ?_ ?_ hd1
        · simpa using this
        · funext z; simp [g4, free, list_del, hpr]
        · funext z; simp [g4, free, list_del, hpr]
      have hv4 : valueOf g4 = val := by
        rw [← hv]; exact valueOf_congr g g4 rfl rfl rfl
      have hnd4 : (head :: K ++ c :: R).Nodup :=
        hnd0.sublist (by
          simp only [List.cons_append]
          exact List.Sublist.cons₂ _ (List.Sublist.append_left
            (List.Sublist.cons₂ c (List.sublist_cons_self r R)) K))
      obtain ⟨k, e, w, a1, a2, a3, a4⟩ := ih K c c true g4 f hf1 hnd4 hd4 hv4
      have hdl : dupLoop val flag c ce (r :: R) = dupLoop val true c c R := by
        rw [dupLoop]; simp [h1]
      refine ⟨k, ?_, ?_, a1, a2, a3, ?_⟩
      · rw [hdl, ← e]
        rw [q_delete_dup_loop]
        simp only [hnc, hval, h1, if_true, ne_eq, hrh, not_false_eq_true, list_entry]
        rfl
      · rw [hdl]; exact w
      · rw [hdl]
        intro z hz hc
        have hr : r ∉ (dupLoop val true c c R).1 ++ [(dupLoop val true c c R).2.1] := by
          intro hm
          have := (hsub R true c c).subset hm
          simp only [List.mem_cons] at this
          rcases this with e1 | e1
          · exact hcr e1.symm
          · exact hrR e1
        obtain ⟨z1, z2⟩ := hc r (by simp) hr
        apply a4 z
        · show z ∈ ((g.live.erase (g.value r)).erase r)
          exact (List.mem_erase_of_ne z1).2 ((List.mem_erase_of_ne z2).2 hz)
        · intro d hd2 hd3
          exact hc d (by simp only [List.mem_cons] at hd2 ⊢; tauto) hd3
    · by_cases h2 : flag = true
      · -- `cur` ended a run of duplicates: it is unlinked and freed
        subst h2
        have hd1 : DL (list_del g c) head (K ++ (r :: R) ++ [head]) := by
          refine list_del_DL g head c (r :: R) K head ?_ ?_ (by simpa using hd)
          · simpa using hnd0
          · exact hA
        have hpc : g.prev c ∈ head :: K := DL_prev_mem g c (r :: R ++ [head]) K head (by simpa using hd)
        have hpne : g.prev c ≠ c := by
          intro e
          rw [e] at hpc
          simp only [List.mem_cons] at hpc
          rcases hpc with e1 | e1
          · exact hch e1
          · exact hC c e1 (by simp)
        let g4 := free (free (setNext (setPrev g r (g.prev c)) (g.prev c) r) (g.value c)) c
        have hd4 : DL g4 head (K ++ r :: R ++ [head]) := by
          have := DL_congr (list_del g c) g4 head (K ++ (r :: R) ++ [head]) ?_ ?_ hd1
          · simpa using this
          · funext z; simp [g4, free, list_del, hnc]
          · funext z; simp [g4, free, list_del, hnc]
        have hv4 : valueOf g4 = val := by
          rw [← hv]; exact valueOf_congr g g4 rfl rfl rfl
        have hnd4 : (head :: K ++ r :: R).Nodup :=
          hnd0.sublist (by
            simp only [List.cons_append]
            exact List.Sublist.cons₂ _ (List.Sublist.append_left
              (List.sublist_cons_self c (r :: R)) K))
        obtain ⟨k, e, w, a1, a2, a3, a4⟩ := ih K r c true g4 f hf1 hnd4 hd4 hv4
        have hdl : dupLoop val true c ce (r :: R) = dupLoop val true r c R := by
          rw [dupLoop]; simp [h1]
        refine ⟨k, ?_, ?_, a1, a2, a3, ?_⟩
        · rw [hdl, ← e]
          rw [q_delete_dup_loop]
          simp only [hnc, hval, h1, if_true, if_false, ne_eq, hrh, not_false_eq_true, list_entry,
            setPrev_prev, setPrev_next, setNext_next, hcr, hpne.symm, setNext_value, setPrev_value]
        · rw [hdl]; exact w
        · rw [hdl]
          intro z hz hc
          have hr : c ∉ (dupLoop val true r c R).1 ++ [(dupLoop val true r c R).2.1] := by
            intro hm
            have := (hsub R true r c).subset hm
            simp only [List.mem_cons] at this
            rcases this with e1 | e1
            · exact hcr e1
            · exact hcR e1
          obtain ⟨z1, z2⟩ := hc c (by simp) hr
          apply a4 z
          · show z ∈ ((g.live.erase (g.value c)).erase c)
            exact (List.mem_erase_of_ne z1).2 ((List.mem_erase_of_ne z2).2 hz)
          · intro d hd2 hd3
            exact hc d (List.mem_cons_of_mem _ hd2) hd3
      · -- `cur` is kept and the loop moves on
        have h2f : flag = false := Bool.eq_false_iff.2 h2
        subst h2f
        have hd4 : DL g head ((K ++ [c]) ++ r :: R ++ [head]) := by simpa using hd
        have hnd4 : (head :: (K ++ [c]) ++ r :: R).Nodup := by simpa using hnd0
        obtain ⟨k, e, w, a1, a2, a3, a4⟩ := ih (K ++ [c]) r c false g f hf1 hnd4 hd4 hv
        have hdl : dupLoop val false c ce (r :: R) =
            (c :: (dupLoop val false r c R).1, (dupLoop val false r c R).2) := by
          rw [dupLoop]; simp [h1]
        refine ⟨k, ?_, ?_, a1, a2, a3, ?_⟩
        · rw [hdl, ← e]
          rw [q_delete_dup_loop]
          simp only [hnc, hval, h1, if_true, if_false, ne_eq, hrh, not_false_eq_true, list_entry]
          rfl
        · rw [hdl]; simpa using w
        · rw [hdl]
          intro z hz hc
          apply a4 z hz
          intro d hd2 hd3
          apply hc d (List.mem_cons_of_mem _ hd2)
          intro hm
          simp only [List.cons_append, List.mem_cons] at hm
          rcases hm with e1 | e1
          · subst e1
            simp only [List.mem_cons] at hd2
            rcases hd2 with e2 | e2
            · exact hcr e2
            · exact hcR e2
          · exact hd3 e1


theorem WF_kept (h k : Heap) (head : Nat) (xs S : List Nat) (hw : WF h head xs)
    (hs : S.Sublist xs) (hd : DL k head (S ++ [head])) (hv : k.value = h.value)
    (hl : ∀ z ∈ h.live, (∀ d ∈ xs, d ∉ S → z ≠ d ∧ z ≠ h.value d) → z ∈ k.live) :
    WF k head S := by
  obtain ⟨w1, w2, -, -, w5, o1, o2⟩ := hw
  have hsub : ∀ a ∈ head :: S, a ∈ head :: xs := fun a ha =>
    (List.Sublist.cons₂ head hs).subset ha
  refine (WF_iff_DL k head S).2 ⟨w1.sublist (List.Sublist.cons₂ head hs),
    fun a ha => w2 a (hsub a ha), hd, ?_, ?_, ?_⟩
  · intro a ha
    refine hl a (w5 a (hsub a ha)) (fun d hd1 hd2 => ⟨?_, ?_⟩)
    · intro e
      subst e
      rcases List.mem_cons.1 ha with e1 | e1
      · exact (List.nodup_cons.1 w1).1 (e1 ▸ hd1)
      · exact hd2 e1
    · intro e
      exact (o1 d hd1).2 (e ▸ hsub a ha)
  · intro a ha
    rw [hv]
    have hax : a ∈ xs := hs.subset ha
    refine ⟨hl _ (o1 a hax).1 (fun d hd1 hd2 => ⟨?_, ?_⟩), fun hc => (o1 a hax).2 (hsub _ hc)⟩
    · intro e
      exact (o1 a hax).2 (e ▸ List.mem_cons_of_mem _ hd1)
    · intro e
      have := List.inj_on_of_nodup_map o2 hax hd1 e
      exact hd2 (this ▸ ha)
  · rw [hv]; exact o2.sublist (hs.map _)

theorem q_delete_dup_ok (h : Heap) (head x : Nat) (xs : List Nat) (fuel : Nat)
    (hw : WF h head (x :: xs)) (hf : xs.length < fuel) :
    ∃ k, q_delete_dup fuel h head = some (k, true) ∧
      WF k head (dupKept (valueOf h) x xs) ∧
      k.value = h.value ∧ k.mem = h.mem ∧ k.size = h.size := by
  have hh := WF_head_ne_zero h head (x :: xs) hw
  obtain ⟨hnx, hxh, _⟩ := WF_next_head h head x xs hw
  have hle : list_empty h head = false := by simp [list_empty, hnx, hxh]
  obtain ⟨w1, w2, w3, w4, w5⟩ := (WF_iff_DL h head (x :: xs)).1 hw
  obtain ⟨k1, e, w, a1, a2, a3, a4⟩ := q_delete_dup_loop_ok (valueOf h) head xs [] x 0 false h fuel
    hf (by simpa using w1) (by simpa using w3) rfl
  have hsub := dupLoop_sublist (valueOf h) xs false x 0
  have hq : q_delete_dup fuel h head =
      if (dupLoop (valueOf h) false x 0 xs).2.2.2 = true then
        some (free (free (setNext (setPrev k1 (k1.next (dupLoop (valueOf h) false x 0 xs).2.1)
            (k1.prev (dupLoop (valueOf h) false x 0 xs).2.1))
          ((setPrev k1 (k1.next (dupLoop (valueOf h) false x 0 xs).2.1)
            (k1.prev (dupLoop (valueOf h) false x 0 xs).2.1)).prev (dupLoop (valueOf h) false x 0 xs).2.1)
          ((setPrev k1 (k1.next (dupLoop (valueOf h) false x 0 xs).2.1)
            (k1.prev (dupLoop (valueOf h) false x 0 xs).2.1)).next (dupLoop (valueOf h) false x 0 xs).2.1))
          (k1.value (dupLoop (valueOf h) false x 0 xs).2.2.1))
          (dupLoop (valueOf h) false x 0 xs).2.2.1, true)
      else some (k1, true) := by
    unfold q_delete_dup
    rw [if_neg (by simp [hh, hle]), hnx, e]
    rfl
  rw [hq]
  generalize ht : dupLoop (valueOf h) false x 0 xs = t at *
  obtain ⟨P, cur, ce, fl⟩ := t
  simp only at w a4 hsub ⊢
  by_cases hfl : fl = true
  · subst hfl
    have hce := dupLoop_cur_e (valueOf h) xs false x 0 (List.nodup_cons.1 w1).2 (by rw [ht])
    rw [ht] at hce
    simp only [Bool.false_eq_true, and_false, or_false] at hce
    have hcurx : cur ∈ x :: xs := hsub.subset (by simp)
    have hcurh : cur ≠ head := fun e1 => (List.nodup_cons.1 w1).1 (e1 ▸ hcurx)
    have hnd : (head :: (P ++ [cur])).Nodup := w1.sublist (List.Sublist.cons₂ head hsub)
    have hnc : k1.next cur = head := (DL_mid k1 cur head [] P head (by simpa using w)).1
    have hd1 : DL (list_del k1 cur) head (P ++ [] ++ [head]) := by
      refine list_del_DL k1 head cur [] P head (by simpa using hnd) ?_ (by simpa using w)
      exact (List.nodup_cons.1 hnd).1
    let kf := free (free (setNext (setPrev k1 (k1.next cur) (k1.prev cur))
      ((setPrev k1 (k1.next cur) (k1.prev cur)).prev cur)
      ((setPrev k1 (k1.next cur) (k1.prev cur)).next cur)) (k1.value ce)) ce
    refine ⟨kf, if_pos rfl, ?_, show kf.value = h.value from a1, show kf.mem = h.mem from a2,
      show kf.size = h.size from a3⟩
    have hk : dupKept (valueOf h) x xs = P := by simp [dupKept, ht]
    rw [hk]
    refine WF_kept h kf head (x :: xs) P hw
      ((List.sublist_append_left P [cur]).trans hsub) ?_ (show kf.value = h.value from a1) ?_
    · have := DL_congr (list_del k1 cur) kf head (P ++ [] ++ [head]) ?_ ?_ hd1
      · simpa using this
      · funext z; simp [kf, free, list_del, hnc, hcurh]
      · funext z; simp [kf, free, list_del, hnc, hcurh]
    · intro z hz hc
      obtain ⟨z1, z2⟩ := hc ce hce.2 hce.1
      have hz1 : z ∈ k1.live := a4 z hz (fun d hd2 hd3 => hc d hd2 (fun hm => hd3 (by simp [hm])))
      show z ∈ ((k1.live.erase (k1.value ce)).erase ce)
      rw [a1]
      exact (List.mem_erase_of_ne z1).2 ((List.mem_erase_of_ne z2).2 hz1)
  · have hfl2 : fl = false := Bool.eq_false_iff.2 hfl
    subst hfl2
    refine ⟨k1, if_neg (by simp), ?_, a1, a2, a3⟩
    have hk : dupKept (valueOf h) x xs = P ++ [cur] := by simp [dupKept, ht]
    rw [hk]
    exact WF_kept h k1 head (x :: xs) (P ++ [cur]) hw hsub (by simpa using w) a1 a4


theorem strcmp_self (a : List Nat) : strcmp a a = 0 := by
  induction a with
  | nil => rfl
  | cons x xs ih => simp [strcmp, ih]

theorem dupLoop_run (val : Nat → List Nat) :
    ∀ (R : List Nat) (flag : Bool) (c ce : Nat), (∀ r ∈ R, strcmp (val c) (val r) = 0) →
      (flag = true ∨ R ≠ []) →
      (dupLoop val flag c ce R).1 = [] ∧ (dupLoop val flag c ce R).2.2.2 = true := by
  intro R
  induction R with
  | nil =>
    intro flag c ce _ hf
    rcases hf with hf | hf
    · simp [dupLoop, hf]
    · exact absurd rfl hf
  | cons r R ih =>
    intro flag c ce hr _
    rw [dupLoop, if_pos (hr r (by simp))]
    exact ih true c c (fun z hz => hr z (List.mem_cons_of_mem _ hz)) (Or.inl rfl)

theorem dupLoop_final_run (val : Nat → List Nat) :
    ∀ (R : List Nat) (flag : Bool) (c ce : Nat) (B : List Nat), (c :: R).Nodup →
      B <:+ c :: R → 2 ≤ B.length → (∀ a ∈ B, ∀ b ∈ B, val a = val b) →
      ∀ b ∈ B, b ∉ (if (dupLoop val flag c ce R).2.2.2 = true then (dupLoop val flag c ce R).1
        else (dupLoop val flag c ce R).1 ++ [(dupLoop val flag c ce R).2.1]) := by
  intro R
  induction R with
  | nil =>
    intro flag c ce B _ hs hl
    have := hs.length_le
    simp at this
    omega
  | cons r R ih =>
    intro flag c ce B hnd hs hl hv b hb
    have hnd1 : (c :: R).Nodup := hnd.sublist (List.Sublist.cons₂ c (List.sublist_cons_self r R))
    have hnd2 : (r :: R).Nodup := hnd.sublist (List.sublist_cons_self c (r :: R))
    rcases List.suffix_cons_iff.1 hs with e | hs1
    · -- the run is the whole of what the loop still sees
      subst e
      have hr := dupLoop_run val (r :: R) flag c ce
        (fun z hz => by rw [hv c (by simp) z (List.mem_cons_of_mem _ hz)]; exact strcmp_self _)
        (Or.inr (by simp))
      rw [if_pos hr.2, hr.1]
      simp
    · rw [dupLoop]
      split_ifs with h1 h2 h3 h4 h5
      · -- the successor is unlinked; `cur` stays
        rcases List.suffix_cons_iff.1 hs1 with e | hs2
        · subst e
          have hr := dupLoop_run val R true c c
            (fun z hz => by rw [← hv r (by simp) z (List.mem_cons_of_mem _ hz)]; exact h1)
            (Or.inl rfl)
          rw [hr.1]; simp
        · have := ih true c c B hnd1 (hs2.trans (List.suffix_cons c R)) hl hv b hb
          rwa [if_pos h2] at this
      · rcases List.suffix_cons_iff.1 hs1 with e | hs2
        · subst e
          have hr := dupLoop_run val R true c c
            (fun z hz => by rw [← hv r (by simp) z (List.mem_cons_of_mem _ hz)]; exact h1)
            (Or.inl rfl)
          exact absurd hr.2 h2
        · have := ih true c c B hnd1 (hs2.trans (List.suffix_cons c R)) hl hv b hb
          rwa [if_neg h2] at this
      · have := ih true r c B hnd2 hs1 hl hv b hb
        rwa [if_pos h4] at this
      · have := ih true r c B hnd2 hs1 hl hv b hb
        rwa [if_neg h4] at this
      · have := ih false r c B hnd2 hs1 hl hv b hb
        rw [if_pos h5] at this
        have hbc : b ≠ c := fun e => (List.nodup_cons.1 hnd).1 (e ▸ hs1.subset hb)
        simp only [List.mem_cons, not_or]
        exact ⟨hbc, this⟩
      · have := ih false r c B hnd2 hs1 hl hv b hb
        rw [if_neg h5] at this
        have hbc : b ≠ c := fun e => (List.nodup_cons.1 hnd).1 (e ▸ hs1.subset hb)
        simp only [List.cons_append, List.mem_cons, not_or]
        exact ⟨hbc, this⟩

/-- C15: on a well-formed queue whose forward sequence ends in a run `B` of
at least two elements that all hold the same string (whether or not the
queue is sorted, and whatever precedes the run), `q_delete_dup` returns
`true` and leaves a well-formed queue on a subsequence of the old elements
that contains no element of `B`: the whole final run is removed. -/
theorem C15_delete_dup_removes_final_run (h : Heap) (head : Nat) (A B : List Nat) (fuel : Nat)
    (hw : WF h head (A ++ B)) (hB : 2 ≤ B.length)
    (hrun : ∀ a ∈ B, ∀ b ∈ B, valueOf h a = valueOf h b) (hf : (A ++ B).length ≤ fuel) :
    ∃ k S, q_delete_dup fuel h head = some (k, true) ∧ WF k head S ∧
      S.Sublist (A ++ B) ∧ (∀ b ∈ B, b ∉ S) ∧
      k.value = h.value ∧ k.mem = h.mem ∧ k.size = h.size := by
  obtain ⟨x, xs, hx⟩ : ∃ x xs, A ++ B = x :: xs := by
    cases hA : A ++ B with
    | nil =>
      have : A.length + B.length = 0 := by rw [← List.length_append, hA]; rfl
      omega
    | cons x xs => exact ⟨x, xs, rfl⟩
  rw [hx] at hw hf
  obtain ⟨k, e, w, a1, a2, a3⟩ := q_delete_dup_ok h head x xs fuel hw (by simpa using hf)
  refine ⟨k, dupKept (valueOf h) x xs, e, w, ?_, ?_, a1, a2, a3⟩
  · rw [hx]
    have := dupLoop_sublist (valueOf h) xs false x 0
    unfold dupKept
    split_ifs
    · exact (List.sublist_append_left _ _).trans this
    · exact this
  · have hs : B <:+ x :: xs := hx ▸ List.suffix_append A B
    exact dupLoop_final_run (valueOf h) xs false x 0 B (List.nodup_cons.1 hw.1).2 hs hB hrun

theorem C15_delete_dup_removes_final_run_witness :
    ∃ k S, q_delete_dup 3 (mkQueue [[97], [98], [98]]) 1 = some (k, true) ∧
      WF k 1 S ∧ S.Sublist ([10] ++ [20, 30]) ∧ (∀ b ∈ [20, 30], b ∉ S) ∧
      k.value = (mkQueue [[97], [98], [98]]).value ∧ k.mem = (mkQueue [[97], [98], [98]]).mem ∧
      k.size = (mkQueue [[97], [98], [98]]).size :=
  C15_delete_dup_removes_final_run (mkQueue [[97], [98], [98]]) 1 [10] [20, 30] 3
    (by decide) (by decide) (by decide) (by decide)


/-! ## Bounds of the copy made by a removal -/

theorem copy_out_reads (h : Heap) (buf : List Nat) (src bufsize : Nat) :
    copy_out h buf src bufsize =
      (((copy_reads bufsize).map (h.mem src)) ++ buf.drop (bufsize_minus_one bufsize)).set
        (bufsize_minus_one bufsize) 0 := rfl

theorem copy_reads_bound (N size : Nat) (hN : 1 ≤ N) (hN2 : N < 2 ^ 64) :
    (∀ i ∈ copy_reads N, i < size) ↔ N ≤ size + 1 := by
  rw [copy_reads, bufsize_minus_one_eq N hN hN2]
  constructor
  · intro hall
    by_contra hc
    have := hall (N - 2) (List.mem_range.2 (by omega))
    omega
  · intro hle i hi
    have := List.mem_range.1 hi
    omega

/-- C17: a removal of the first element `x` (or of the last element `y`) with
a buffer of capacity `N ≥ 1` fills the buffer from the offsets `0 .. N-2` of
the element's string block, whatever the length of the string: every offset
read lies inside a block of `size` bytes exactly when `N ≤ size + 1`, so for
a string `s` held in its block of `len(s)+1` bytes the copy reads past the
block as soon as `N > len(s) + 2`.  The writes are `N` in number and all lie
inside `buf[0..N-1]`. -/
theorem C17_copy_reads_past_payload (h : Heap) (head x y : Nat) (xs ys buf : List Nat) (N : Nat)
    (hw : WF h head (x :: xs)) (hy : x :: xs = ys ++ [y]) (hN : 1 ≤ N) (hN2 : N < 2 ^ 64) :
    (q_remove_head h head (some buf) N).2.2 =
      some ((((copy_reads N).map (h.mem (h.value x))) ++ buf.drop (N - 1)).set (N - 1) 0) ∧
    (q_remove_tail h head (some buf) N).2.2 =
      some ((((copy_reads N).map (h.mem (h.value y))) ++ buf.drop (N - 1)).set (N - 1) 0) ∧
    copy_reads N = List.range (N - 1) ∧
    (∀ size, (∀ i ∈ copy_reads N, i < size) ↔ N ≤ size + 1) ∧
    (∀ i ∈ copy_writes N, i < N) ∧ (copy_writes N).length = N := by
  have hb := bufsize_minus_one_eq N hN hN2
  refine ⟨?_, ?_, ?_, fun size => copy_reads_bound N size hN hN2, ?_, ?_⟩
  · rw [remove_head_cons h head x xs (some buf) N hw, ← hb]; rfl
  · rw [hy] at hw
    rw [remove_tail_concat h head y ys (some buf) N hw, ← hb]; rfl
  · rw [copy_reads, hb]
  · intro i hi
    rw [copy_writes, hb] at hi
    rcases List.mem_append.1 hi with hi | hi
    · have := List.mem_range.1 hi; omega
    · have := List.mem_singleton.1 hi; omega
  · rw [copy_writes, hb]; simp; omega

theorem C17_copy_reads_past_payload_witness :
    ((q_remove_head (mkQueue [[97]]) 1 (some [7, 7, 7, 7]) 4).2.2 =
      some ((((copy_reads 4).map ((mkQueue [[97]]).mem ((mkQueue [[97]]).value 10))) ++
        [7, 7, 7, 7].drop (4 - 1)).set (4 - 1) 0) ∧
    (q_remove_tail (mkQueue [[97]]) 1 (some [7, 7, 7, 7]) 4).2.2 =
      some ((((copy_reads 4).map ((mkQueue [[97]]).mem ((mkQueue [[97]]).value 10))) ++
        [7, 7, 7, 7].drop (4 - 1)).set (4 - 1) 0) ∧
    copy_reads 4 = List.range (4 - 1) ∧
    (∀ size, (∀ i ∈ copy_reads 4, i < size) ↔ 4 ≤ size + 1) ∧
    (∀ i ∈ copy_writes 4, i < 4) ∧ (copy_writes 4).length = 4) ∧
    valueOf (mkQueue [[97]]) 10 = [97] ∧
    (mkQueue [[97]]).size ((mkQueue [[97]]).value 10) = 2 ∧
    2 ∈ copy_reads 4 :=
  ⟨C17_copy_reads_past_payload (mkQueue [[97]]) 1 10 10 [] [] [7, 7, 7, 7] 4
    (by decide) (by decide) (by decide) (by decide), by decide, by decide, by decide⟩

/-! ## What `q_delete_dup` frees -/

/-- C19: on the sorted queue `["a","a","b"]` (elements at `10`, `20`, `30`,
strings at `11`, `21`, `31`) `q_delete_dup` passes the first element `10` and
its string `11` to `free` twice, once in the loop and once in the block after
the loop, while the element `30` that this block unlinks, and its string
`31`, are never freed: they stay allocated although the resulting queue is
empty. -/
theorem C19_delete_dup_frees_twice_and_leaks :
    (q_delete_dup 3 (mkQueue [[97], [97], [98]]) 1).map
        (fun r => (r.1.freed, r.1.live, toValues r.1 1 4 (r.1.next 1),
          toValuesBack r.1 1 4 (r.1.prev 1))) =
      some ([10, 11, 10, 11, 20, 21], [31, 30, 1], [], []) := by
  decide

end Queue
